import Mathlib

/-! Bitmap font engine (`src/irr/src/CGUIFont.cpp`)

A shallow embedding of `gui::CGUIFont`: the marker-pixel parser
(`readPositions`, `loadTexture`, `setMaxHeight`), the glyph lookup
(`getAreaFromCharacter`), measuring (`getDimension`), layout (`draw`) and
hit-testing (`getCharacterFromPos`).

Conventions of the embedding.

* `s32` values are `Int`, `u32` values and array indices are `Nat`.  The
  `u32` arithmetic of `getDimension` is reduced modulo `2 ^ 32` explicitly
  (`toU32`), and the `u32 -> s32` conversions are explicit (`toS32`).  Signed
  `s32` arithmetic, whose overflow is undefined in C++, is unbounded `Int`
  arithmetic.
* A `wchar_t` is its code as a `Nat`; a wide string is a `List Nat`.  A
  function that receives a `const wchar_t *` reads the list up to its end or
  up to the first `0`, whichever comes first; `draw`, which receives a
  `core::stringw`, walks all `text.size()` characters.
* Indexing `Areas` outside its bounds is undefined in the source; the
  functions that index it return `Option` and answer `none` there.
* Mutated objects are passed and returned explicitly.
* In the parser the counter `lowerRightPositions` and the character codes
  `lowerRightPositions + 32` are natural numbers: an image holds fewer than
  `2 ^ 31 - 32` marker pixels and `wchar_t` holds every such code.
* Classes that are only used by `CGUIFont.cpp` and declared elsewhere (the
  image, the colour, the rectangle operations, the sprite bank, the arrays
  handed to the sprite batch) are modelled from the spec; each such definition
  says so.  The colour-format conversion of `loadTexture` is a parameter.

The first part of the file holds the embedding and the specification-side
definitions, the second part the lemmas and the theorems on the claims.
-/

namespace gui

/-! ## Data model -/

/-- The colour formats `loadTexture` has a `case` for, and `ECF_UNKNOWN` for
every other member of `video::ECOLOR_FORMAT` (the `default:` branch). -/
inductive ECOLOR_FORMAT
  | ECF_A1R5G5B5
  | ECF_R5G6B5
  | ECF_R8G8B8
  | ECF_A8R8G8B8
  | ECF_UNKNOWN
  deriving DecidableEq, Repr

/-- Reduction of an integer to the `u32` range. -/
def toU32 (i : Int) : Nat := (i % 4294967296).toNat

/-- Conversion `(s32)n` of a `u32` value (two's complement). -/
def toS32 (n : Nat) : Int :=
  if n % 4294967296 < 2147483648 then ((n % 4294967296 : Nat) : Int)
  else ((n % 4294967296 : Nat) : Int) - 4294967296

/-- Modelled from the spec: `video::SColor::setAlpha` (the class is declared
outside the given sources).  The spec says pixel (0,0) is forced fully opaque;
a colour is its 32-bit A8R8G8B8 value, alpha in the top byte. -/
def setAlpha (color a : Nat) : Nat := (a % 256) * 16777216 + color % 16777216

/-- Modelled from the spec: the decoded image (`video::IImage`, declared
outside the given sources): colour format, dimensions and the colour read at
each pixel. -/
structure IImage where
  Format : ECOLOR_FORMAT
  Width : Nat
  Height : Nat
  data : Nat → Nat → Nat

/-- Modelled from the spec: `IImage::getPixel(x, y)`.  The spec names the
operation only; a read outside the image is taken to yield colour 0. -/
def IImage.getPixel (image : IImage) (x y : Nat) : Nat :=
  if x < image.Width ∧ y < image.Height then image.data x y else 0

/-- Modelled from the spec: `IImage::setPixel(x, y, color)`.  The spec names the
operation only; a write outside the image is taken to be ignored, and a colour
written inside is read back unchanged. -/
def IImage.setPixel (image : IImage) (x y color : Nat) : IImage :=
  if x < image.Width ∧ y < image.Height then
    { image with data := fun x' y' => if x' = x ∧ y' = y then color else image.data x' y' }
  else image

/-- Type `core::position2d<s32>`. -/
structure position2d where
  X : Int
  Y : Int
  deriving DecidableEq, Repr, Inhabited

/-- Type `core::rect<s32>`. -/
structure rect where
  UpperLeftCorner : position2d
  LowerRightCorner : position2d
  deriving DecidableEq, Repr, Inhabited

/-- Method `rect::getWidth`. -/
def rect.getWidth (r : rect) : Int := r.LowerRightCorner.X - r.UpperLeftCorner.X

/-- Method `rect::getHeight`. -/
def rect.getHeight (r : rect) : Int := r.LowerRightCorner.Y - r.UpperLeftCorner.Y

/-- Type `core::dimension2d<u32>`. -/
structure dimension2d where
  Width : Nat
  Height : Nat
  deriving DecidableEq, Repr

/-- Type `SGUISpriteFrame`. -/
structure SGUISpriteFrame where
  textureNumber : Nat
  rectNumber : Nat
  deriving DecidableEq, Repr

/-- Type `SGUISprite`. -/
structure SGUISprite where
  Frames : List SGUISpriteFrame
  frameTime : Nat
  deriving DecidableEq, Repr

/-- Modelled from the spec: the sprite bank (`IGUISpriteBank`, declared outside
the given sources): the ordered glyph boxes (`getPositions()`), the ordered
sprite definitions (`getSprites()`) and the textures handed to `addTexture`. -/
structure IGUISpriteBank where
  Positions : List rect
  Sprites : List SGUISprite
  Textures : List IImage

/-- Type `SFontArea` of `CGUIFont.h`. -/
structure SFontArea where
  underhang : Int
  overhang : Int
  width : Int
  spriteno : Nat
  deriving DecidableEq, Repr

/-- The fields of `CGUIFont`.  `SpriteBank = none` is the null pointer.  The
video driver is taken to be present. -/
structure CGUIFont where
  SpriteBank : Option IGUISpriteBank
  Areas : List SFontArea
  CharacterMap : Nat → Option Nat
  WrongCharacter : Nat
  MaxHeight : Int
  GlobalKerningWidth : Int
  GlobalKerningHeight : Int
  Invisible : List Nat

/-- State of a freshly constructed font: the constructor ran with an
environment that handed out a video driver and an empty sprite bank
(`addEmptySpriteBank`), and called `setInvisibleCharacters(L" ")`. -/
def CGUIFont.fresh : CGUIFont :=
  { SpriteBank := some ⟨[], [], []⟩
    Areas := []
    CharacterMap := fun _ => none
    WrongCharacter := 0
    MaxHeight := 0
    GlobalKerningWidth := 0
    GlobalKerningHeight := 0
    Invisible := [32] }

/-! ## Glyph lookup and setters -/

/-- Method `CGUIFont::getAreaFromCharacter`. -/
def CGUIFont.getAreaFromCharacter (f : CGUIFont) (c : Nat) : Nat :=
  match f.CharacterMap c with
  | some n => n
  | none => f.WrongCharacter

/-- Method `CGUIFont::setKerningWidth`. -/
def CGUIFont.setKerningWidth (f : CGUIFont) (kerning : Int) : CGUIFont :=
  { f with GlobalKerningWidth := kerning }

/-- Method `CGUIFont::setKerningHeight`. -/
def CGUIFont.setKerningHeight (f : CGUIFont) (kerning : Int) : CGUIFont :=
  { f with GlobalKerningHeight := kerning }

/-- Method `CGUIFont::setInvisibleCharacters`. -/
def CGUIFont.setInvisibleCharacters (f : CGUIFont) (s : List Nat) : CGUIFont :=
  { f with Invisible := s }

/-- The element `Areas[getAreaFromCharacter(c)]`, `none` when the index is
outside `Areas`. -/
def CGUIFont.areaOf (f : CGUIFont) (c : Nat) : Option SFontArea :=
  f.Areas[f.getAreaFromCharacter c]?

/-! ## The marker-pixel parser -/

/-- The objects `readPositions` mutates while it scans: the image, the sprite
bank, `Areas`, `CharacterMap` and the counter `lowerRightPositions`. -/
structure ParseState where
  image : IImage
  bank : IGUISpriteBank
  Areas : List SFontArea
  CharacterMap : Nat → Option Nat
  lowerRightPositions : Nat

/-- Pixel coordinates `(X, Y)` in the order of the two nested `for` loops of
`readPositions`: rows `0 .. (s32)size.Height - 1`, and in each row columns
`0 .. (s32)size.Width - 1`. -/
def scanOrder (Width Height : Nat) : List (Nat × Nat) :=
  (List.range (toS32 Height).toNat).flatMap fun y =>
    (List.range (toS32 Width).toNat).map fun x => (x, y)

/-- Branch `c == colorTopLeft`: clear the pixel and push `rect(pos, pos)`. -/
def openBox (s : ParseState) (x y : Nat) : ParseState :=
  { s with
    image := s.image.setPixel x y 0
    bank := { s.bank with
      Positions := s.bank.Positions ++ [⟨⟨x, y⟩, ⟨x, y⟩⟩] } }

/-- Branch `c == colorLowerRight` past the guard: clear the pixel, set the
lower right corner of box `lowerRightPositions`, push its sprite and its font
area, map the character `lowerRightPositions + 32`, increment the counter. -/
def closeBox (s : ParseState) (x y : Nat) : ParseState :=
  let n := s.lowerRightPositions
  let positions :=
    s.bank.Positions.set n { s.bank.Positions.getD n default with LowerRightCorner := ⟨x, y⟩ }
  { image := s.image.setPixel x y 0
    bank := { s.bank with
      Positions := positions
      Sprites := s.bank.Sprites ++ [⟨[⟨0, n⟩], 0⟩] }
    Areas := s.Areas ++ [⟨0, 0, (positions.getD n default).getWidth, n⟩]
    CharacterMap := fun ch => if ch = n + 32 then some n else s.CharacterMap ch
    lowerRightPositions := n + 1 }

/-- Branch `c == colorBackGround`: clear the pixel. -/
def clearPixel (s : ParseState) (x y : Nat) : ParseState :=
  { s with image := s.image.setPixel x y 0 }

/-- The scan of `readPositions` over the pixels still to visit.  The `return`
inside the loops ends the scan with the counter reset to 0. -/
def scanPixels (colorTopLeft colorLowerRight colorBackGround : Nat) :
    List (Nat × Nat) → ParseState → ParseState
  | [], s => s
  | (x, y) :: rest, s =>
    let c := s.image.getPixel x y
    if c = colorTopLeft then
      scanPixels colorTopLeft colorLowerRight colorBackGround rest (openBox s x y)
    else if c = colorLowerRight then
      if s.bank.Positions.length ≤ s.lowerRightPositions then
        { s with lowerRightPositions := 0 }
      else
        scanPixels colorTopLeft colorLowerRight colorBackGround rest (closeBox s x y)
    else if c = colorBackGround then
      scanPixels colorTopLeft colorLowerRight colorBackGround rest (clearPixel s x y)
    else
      scanPixels colorTopLeft colorLowerRight colorBackGround rest s

/-- The marker colour `colorTopLeft` read by `readPositions`. -/
def colorTopLeft (image : IImage) : Nat := setAlpha (image.getPixel 0 0) 255

/-- The marker colour `colorLowerRight` read by `readPositions` (after pixel
(0,0) was rewritten). -/
def colorLowerRight (image : IImage) : Nat :=
  (image.setPixel 0 0 (colorTopLeft image)).getPixel 1 0

/-- The colour `colorBackGround` read by `readPositions`. -/
def colorBackGround (image : IImage) : Nat :=
  (image.setPixel 0 0 (colorTopLeft image)).getPixel 2 0

/-- The image as the scan of `readPositions` finds it: pixel (0,0) holds
`colorTopLeft`, pixel (1,0) holds `colorBackGround`. -/
def prepared (image : IImage) : IImage :=
  (image.setPixel 0 0 (colorTopLeft image)).setPixel 1 0 (colorBackGround image)

/-- Method `CGUIFont::readPositions`: returns the mutated image, the counter
and the font. -/
def CGUIFont.readPositions (f : CGUIFont) (image : IImage) (lowerRightPositions : Nat) :
    IImage × Nat × CGUIFont :=
  match f.SpriteBank with
  | none => (image, lowerRightPositions, f)
  | some bank =>
    let s := scanPixels (colorTopLeft image) (colorLowerRight image) (colorBackGround image)
      (scanOrder image.Width image.Height)
      ⟨prepared image, bank, f.Areas, f.CharacterMap, lowerRightPositions⟩
    (s.image, s.lowerRightPositions,
      { f with SpriteBank := some s.bank, Areas := s.Areas, CharacterMap := s.CharacterMap })

/-- Method `CGUIFont::setMaxHeight`. -/
def CGUIFont.setMaxHeight (f : CGUIFont) : CGUIFont :=
  match f.SpriteBank with
  | none => f
  | some bank =>
    { f with MaxHeight :=
        bank.Positions.foldl (fun m p => if p.getHeight > m then p.getHeight else m) 0 }

/-- The `switch` of `loadTexture`: the image that is scanned (`tmpImage`), or
`none` in the `default:` branch.  `copyTo target image` stands for
`Driver->createImage(target, image->getDimension())` followed by
`image->copyTo(tmpImage)`, both outside the given sources. -/
def tmpImageOf (copyTo : ECOLOR_FORMAT → IImage → IImage) (image : IImage) : Option IImage :=
  match image.Format with
  | .ECF_R5G6B5 => some (copyTo .ECF_A1R5G5B5 image)
  | .ECF_A1R5G5B5 => some image
  | .ECF_A8R8G8B8 => some image
  | .ECF_R8G8B8 => some (copyTo .ECF_A8R8G8B8 image)
  | .ECF_UNKNOWN => none

/-- Method `IGUISpriteBank::addTexture` applied to `Driver->addTexture(name, image)`. -/
def IGUISpriteBank.addTexture (bank : IGUISpriteBank) (image : IImage) : IGUISpriteBank :=
  { bank with Textures := bank.Textures ++ [image] }

/-- Method `CGUIFont::loadTexture`; `image = none` is the null pointer.
Returns `ret` and the font afterwards. -/
def CGUIFont.loadTexture (copyTo : ECOLOR_FORMAT → IImage → IImage) (f : CGUIFont)
    (image : Option IImage) : Bool × CGUIFont :=
  match image, f.SpriteBank with
  | none, _ => (false, f)
  | some _, none => (false, f)
  | some image, some _ =>
    match tmpImageOf copyTo image with
    | none => (false, f)
    | some tmpImage =>
      let r := f.readPositions tmpImage 0
      let lowerRightPositions := r.2.1
      let f1 := { r.2.2 with WrongCharacter := r.2.2.getAreaFromCharacter 32 }
      match f1.SpriteBank with
      | none => (false, f1)
      | some bank =>
        let ret := !bank.Sprites.isEmpty && lowerRightPositions != 0
        let f2 := if ret then { f1 with SpriteBank := some (bank.addTexture r.1) } else f1
        (ret, f2.setMaxHeight)

/-! ## Measuring -/

/-- The statements of `getDimension` under `if (lineBreak)`: the height grows
by `thisLine.Height` and the width becomes the larger of itself and
`thisLine.Width` (an unsigned comparison). -/
def foldLine (dim : dimension2d) (thisLineWidth thisLineHeight : Nat) : dimension2d :=
  { Height := (dim.Height + thisLineHeight) % 4294967296
    Width := if dim.Width < thisLineWidth then thisLineWidth else dim.Width }

/-- The `for` loop of `getDimension` and the statements after it, over the
characters still to read; `dim` and `thisLineWidth` are the loop's variables,
`thisLine.Height` is `(u32)MaxHeight`. -/
def getDimensionLoop (f : CGUIFont) : List Nat → dimension2d → Nat → Option dimension2d
  | [], dim, thisLineWidth => some (foldLine dim thisLineWidth (toU32 f.MaxHeight))
  | c :: rest, dim, thisLineWidth =>
    if c = 0 then some (foldLine dim thisLineWidth (toU32 f.MaxHeight))
    else if c = 13 then
      match rest with
      | [] => getDimensionLoop f [] (foldLine dim thisLineWidth (toU32 f.MaxHeight)) 0
      | d :: rest' =>
        if d = 10 then
          getDimensionLoop f rest' (foldLine dim thisLineWidth (toU32 f.MaxHeight)) 0
        else
          getDimensionLoop f (d :: rest') (foldLine dim thisLineWidth (toU32 f.MaxHeight)) 0
    else if c = 10 then
      getDimensionLoop f rest (foldLine dim thisLineWidth (toU32 f.MaxHeight)) 0
    else
      match f.areaOf c with
      | none => none
      | some area =>
        getDimensionLoop f rest dim
          (toU32 ((toU32 (thisLineWidth + area.underhang) : Int)
            + (area.width + area.overhang + f.GlobalKerningWidth)))

/-- Method `CGUIFont::getDimension`. -/
def CGUIFont.getDimension (f : CGUIFont) (text : List Nat) : Option dimension2d :=
  getDimensionLoop f text ⟨0, 0⟩ 0

/-! ## Layout -/

/-- Modelled from the spec: `core::rect::clipAgainst` (declared outside the
given sources); the spec says the measured-bounds rectangle is intersected
with the clip rectangle. -/
def rect.clipAgainst (r other : rect) : rect :=
  { UpperLeftCorner :=
      ⟨max r.UpperLeftCorner.X other.UpperLeftCorner.X,
       max r.UpperLeftCorner.Y other.UpperLeftCorner.Y⟩
    LowerRightCorner :=
      ⟨min r.LowerRightCorner.X other.LowerRightCorner.X,
       min r.LowerRightCorner.Y other.LowerRightCorner.Y⟩ }

/-- Modelled from the spec: `core::rect::isValid` (declared outside the given
sources); an intersection is invalid when its lower right corner lies left of
or above its upper left corner. -/
def rect.isValid (r : rect) : Bool :=
  decide (r.UpperLeftCorner.X ≤ r.LowerRightCorner.X) &&
    decide (r.UpperLeftCorner.Y ≤ r.LowerRightCorner.Y)

/-- What `draw` did: it returned before `draw2DSpriteBatch`, or it called
`SpriteBank->draw2DSpriteBatch(indices, offsets, clip, color)`; entry `k` of
`entries` is `(indices[k], offsets[k])`, the two arrays being pushed together.
Modelled from the spec: the arrays start empty (`core::array`, declared outside
the given sources, takes `text.size()` as a capacity), so that the draw list
holds the emitted entries and nothing else. -/
inductive DrawOutcome
  | returned
  | batch (entries : List (Nat × position2d))
  deriving DecidableEq, Repr

/-- The statements of `draw` under `if (lineBreak)`; `shift` is
`(position.getWidth() - textDimension.Width) >> 1`. -/
def nextLine (f : CGUIFont) (position : rect) (hcenter : Bool) (shift : Int)
    (offset : position2d) : position2d :=
  { Y := offset.Y + f.MaxHeight
    X := if hcenter then position.UpperLeftCorner.X + shift else position.UpperLeftCorner.X }

/-- The `for` loop of `draw` over the characters still to read, yielding the
entries pushed from here on, in the order they are pushed. -/
def drawLoop (f : CGUIFont) (position : rect) (hcenter : Bool) (shift : Int) :
    List Nat → position2d → Option (List (Nat × position2d))
  | [], _ => some []
  | c :: rest, offset =>
    if c = 13 then
      match rest with
      | [] => drawLoop f position hcenter shift [] (nextLine f position hcenter shift offset)
      | d :: rest' =>
        if d = 10 then
          drawLoop f position hcenter shift rest' (nextLine f position hcenter shift offset)
        else
          drawLoop f position hcenter shift (d :: rest') (nextLine f position hcenter shift offset)
    else if c = 10 then
      drawLoop f position hcenter shift rest (nextLine f position hcenter shift offset)
    else
      match f.areaOf c with
      | none => none
      | some area =>
        let here : position2d := { offset with X := offset.X + area.underhang }
        match drawLoop f position hcenter shift rest
            { here with X := here.X + (area.width + area.overhang + f.GlobalKerningWidth) } with
        | none => none
        | some entries =>
          some (if c ∈ f.Invisible then entries else (area.spriteno, here) :: entries)

/-- Method `CGUIFont::draw`; `clip = none` is the null pointer.  `color` only
travels to the sprite batch and is left out. -/
def CGUIFont.draw (f : CGUIFont) (text : List Nat) (position : rect)
    (hcenter vcenter : Bool) (clip : Option rect) : Option DrawOutcome :=
  match f.SpriteBank with
  | none => some .returned
  | some _ =>
    match (if hcenter || vcenter || clip.isSome then f.getDimension text else some ⟨0, 0⟩) with
    | none => none
    | some dim =>
      let textWidth := toS32 dim.Width
      let textHeight := toS32 dim.Height
      let shift := (position.getWidth - textWidth) / 2
      let offset : position2d :=
        { X := if hcenter then position.UpperLeftCorner.X + shift else position.UpperLeftCorner.X
          Y := if vcenter then position.UpperLeftCorner.Y + (position.getHeight - textHeight) / 2
               else position.UpperLeftCorner.Y }
      let clippedOut : Bool :=
        match clip with
        | none => false
        | some other =>
          !(rect.clipAgainst ⟨offset, ⟨offset.X + textWidth, offset.Y + textHeight⟩⟩ other).isValid
      if clippedOut then some .returned
      else
        match drawLoop f position hcenter shift text offset with
        | none => none
        | some entries => some (.batch entries)

/-! ## Hit-testing -/

/-- The `while` loop of `getCharacterFromPos` over the characters still to
read; `x` and `idx` are the loop's variables. -/
def getCharacterFromPosLoop (f : CGUIFont) (pixel_x : Int) : List Nat → Int → Nat → Option Int
  | [], _, _ => some (-1)
  | c :: rest, x, idx =>
    if c = 0 then some (-1)
    else
      match f.areaOf c with
      | none => none
      | some a =>
        if x + (a.width + a.overhang + a.underhang + f.GlobalKerningWidth) ≥ pixel_x then
          some (idx : Int)
        else
          getCharacterFromPosLoop f pixel_x rest
            (x + (a.width + a.overhang + a.underhang + f.GlobalKerningWidth)) (idx + 1)

/-- Method `CGUIFont::getCharacterFromPos`. -/
def CGUIFont.getCharacterFromPos (f : CGUIFont) (text : List Nat) (pixel_x : Int) : Option Int :=
  getCharacterFromPosLoop f pixel_x text 0 0

/-! ## Loaded fonts -/

/-- A loaded font: the sprite bank is present, every glyph lookup lands inside
`Areas`, and `MaxHeight` is what `setMaxHeight` leaves, a non-negative `s32`. -/
def CGUIFont.Loaded (f : CGUIFont) : Prop :=
  f.SpriteBank.isSome = true ∧ (∀ c, f.getAreaFromCharacter c < f.Areas.length) ∧
    0 ≤ f.MaxHeight ∧ f.MaxHeight < 2147483648

/-- A two-glyph font used to exercise the text functions: `'A'` (65) is glyph 0
of width 10, `'B'` (66) is glyph 1 of width 12, line pitch 16. -/
def abFont : CGUIFont :=
  { SpriteBank := some ⟨[⟨⟨0, 0⟩, ⟨10, 16⟩⟩, ⟨⟨11, 0⟩, ⟨23, 16⟩⟩], [⟨[⟨0, 0⟩], 0⟩, ⟨[⟨0, 1⟩], 0⟩], []⟩
    Areas := [⟨0, 0, 10, 0⟩, ⟨0, 0, 12, 1⟩]
    CharacterMap := fun c => if c = 65 then some 0 else if c = 66 then some 1 else none
    WrongCharacter := 0
    MaxHeight := 16
    GlobalKerningWidth := 0
    GlobalKerningHeight := 0
    Invisible := [32] }

/-! ## Markers of an image -/

/-- What the scan makes of one pixel. -/
inductive Marker
  | topLeft
  | lowerRight
  | backGround
  | plain
  deriving DecidableEq, Repr

/-- The comparisons of the scan, in their order: a colour equal to
`colorTopLeft` is a top-left marker whatever else it equals. -/
def classify (cTL cLR cBG c : Nat) : Marker :=
  if c = cTL then .topLeft
  else if c = cLR then .lowerRight
  else if c = cBG then .backGround
  else .plain

/-- The markers an image shows at the pixels `ps`, for given marker colours. -/
def pixelMarkers (cTL cLR cBG : Nat) (image : IImage) (ps : List (Nat × Nat)) : List Marker :=
  ps.map fun p => classify cTL cLR cBG (image.getPixel p.1 p.2)

/-- The markers of an image in row-major order, read off the image as the scan
starts on it, with the marker colours `readPositions` takes from it. -/
def markers (image : IImage) : List Marker :=
  pixelMarkers (colorTopLeft image) (colorLowerRight image) (colorBackGround image)
    (prepared image) (scanOrder image.Width image.Height)

/-- Every lower-right marker met has a still-open box to close: strictly more
top-left than lower-right markers come before it. -/
def WellFormed (ms : List Marker) : Prop :=
  ∀ n, n < ms.length → ms[n]? = some .lowerRight →
    (ms.take n).count .lowerRight < (ms.take n).count .topLeft

instance (ms : List Marker) : Decidable (WellFormed ms) := by
  unfold WellFormed; infer_instance

/-- The same with `P` boxes already pushed and `L` of them already closed. -/
def OpenBoxes (P L : Nat) (ms : List Marker) : Prop :=
  ∀ n, n < ms.length → ms[n]? = some .lowerRight →
    L + (ms.take n).count .lowerRight < P + (ms.take n).count .topLeft

/-- What a scan that closes `k` boxes leaves, relative to the state `s` it
started from. -/
def ClosedBoxes (s s' : ParseState) (k : Nat) : Prop :=
  s'.lowerRightPositions = s.lowerRightPositions + k ∧
  s'.bank.Sprites.length = s.bank.Sprites.length + k ∧
  s'.bank.Textures = s.bank.Textures ∧
  (∃ newAreas : List SFontArea, s'.Areas = s.Areas ++ newAreas ∧
    newAreas.map (fun a => (a.spriteno, a.overhang, a.underhang)) =
      (List.range' s.lowerRightPositions k).map (fun n => (n, (0 : Int), (0 : Int)))) ∧
  (∀ c, s'.CharacterMap c =
    if s.lowerRightPositions + 32 ≤ c ∧ c < s.lowerRightPositions + 32 + k then some (c - 32)
    else s.CharacterMap c)

/-- The state in which the scan of `readPositions` ends when it is run on
`tmpImage` for a font whose sprite bank is `bank`, the counter starting at 0. -/
def scanResult (f : CGUIFont) (bank : IGUISpriteBank) (tmpImage : IImage) : ParseState :=
  scanPixels (colorTopLeft tmpImage) (colorLowerRight tmpImage) (colorBackGround tmpImage)
    (scanOrder tmpImage.Width tmpImage.Height)
    ⟨prepared tmpImage, bank, f.Areas, f.CharacterMap, 0⟩

/-- A 6 x 2 sample image in format A8R8G8B8.  Row 0 holds the three control
pixels (top-left colour, lower-right colour, background) and background; row 1
holds, from column 1 on, a lower-right marker, a top-left marker, background, a
lower-right marker and background. -/
def glyphImage : IImage :=
  { Format := .ECF_A8R8G8B8
    Width := 6
    Height := 2
    data := fun x y =>
      if y = 0 then (if x = 0 then 4278190081 else if x = 1 then 4278190082 else 4278190080)
      else (if x = 1 ∨ x = 4 then 4278190082 else if x = 2 then 4278190081 else 4278190080) }

/-- A 5 x 1 sample image in format A8R8G8B8: the three control pixels, then
two lower-right markers; the second one finds no open box. -/
def corruptImage : IImage :=
  { Format := .ECF_A8R8G8B8
    Width := 5
    Height := 1
    data := fun x _ =>
      if x = 0 then 4278190081 else if x = 2 then 4278190080 else 4278190082 }

/-- The state in which the scan of `readPositions` would be after its first
`n` pixels, on a fresh font. -/
def scanPrefix (tmpImage : IImage) (n : Nat) : ParseState :=
  scanPixels (colorTopLeft tmpImage) (colorLowerRight tmpImage) (colorBackGround tmpImage)
    ((scanOrder tmpImage.Width tmpImage.Height).take n)
    ⟨prepared tmpImage, ⟨[], [], []⟩, [], fun _ => none, 0⟩

/-! ## Lines and advances of a text (specification side) -/

/-- The lines of a text: they are separated by each `"\r\n"`, lone `'\r'`
(13) or `'\n'` (10); the last, unterminated line counts, also when empty. -/
def textLines : List Nat → List (List Nat)
  | [] => [[]]
  | 13 :: 10 :: rest => [] :: textLines rest
  | 13 :: rest => [] :: textLines rest
  | 10 :: rest => [] :: textLines rest
  | c :: rest =>
    match textLines rest with
    | [] => [[c]]
    | line :: more => (c :: line) :: more

/-- Number of line breaks of a text. -/
def lineBreaks (text : List Nat) : Nat := (textLines text).length - 1

/-- The advance of a character: `underhang + width + overhang +
GlobalKerningWidth` of the glyph the lookup resolves it to. -/
def CGUIFont.advance (f : CGUIFont) (c : Nat) : Int :=
  match f.areaOf c with
  | some a => a.underhang + a.width + a.overhang + f.GlobalKerningWidth
  | none => 0

/-- Sum of the advances of the characters of a line. -/
def lineWidth (f : CGUIFont) (line : List Nat) : Int := (line.map f.advance).sum

/-- What the loop of `getDimension` is to return on `text` from the state
`dim`, `thisLineWidth`, when no `u32` value wraps. -/
def MeasuresLines (f : CGUIFont) (text : List Nat) : Prop :=
  ∀ (dim : dimension2d) (thisLineWidth : Nat) (first : List Nat) (more : List (List Nat)),
    textLines text = first :: more →
    (thisLineWidth : Int) + lineWidth f first < 4294967296 →
    (∀ l ∈ more, lineWidth f l < 4294967296) →
    (dim.Height : Int) + ((more.length : Int) + 1) * f.MaxHeight < 4294967296 →
    ∃ r, getDimensionLoop f text dim thisLineWidth = some r ∧
      (r.Width : Int) = (more.map (lineWidth f)).foldl max
        (max (dim.Width : Int) (thisLineWidth + lineWidth f first)) ∧
      (r.Height : Int) = dim.Height + ((more.length : Int) + 1) * f.MaxHeight

/-! ## The expected draw list (specification side) -/

/-- The glyph a character resolves to (a zero area where the lookup leaves
`Areas`, which does not happen on a loaded font). -/
def CGUIFont.glyph (f : CGUIFont) (c : Nat) : SFontArea := (f.areaOf c).getD ⟨0, 0, 0, 0⟩

/-- The entries of one line whose left edge is `x` and whose top is `y`: one
entry per character not in the invisible set, in order; the character at place
`j` is drawn at `x` + the advances of the characters before it on the line +
its own underhang. -/
def expectedLine (f : CGUIFont) (x y : Int) (line : List Nat) : List (Nat × position2d) :=
  (List.range line.length).filterMap fun j =>
    match line.get? j with
    | none => none
    | some c =>
      if c ∈ f.Invisible then none
      else some ((f.glyph c).spriteno,
        ⟨x + lineWidth f (line.take j) + (f.glyph c).underhang, y⟩)

/-- The expected draw list of a text laid out from `(x0, y0)`: line number `L`
(counted from 0) has its left edge at `x0` and its top at `y0 + L * MaxHeight`. -/
def expectedEntries (f : CGUIFont) (x0 y0 : Int) (text : List Nat) : List (Nat × position2d) :=
  (textLines text).enum.flatMap fun p => expectedLine f x0 (y0 + (p.1 : Int) * f.MaxHeight) p.2

/-- The left edge `draw` returns to at every line break. -/
def lineStart (position : rect) (hcenter : Bool) (shift : Int) : Int :=
  if hcenter then position.UpperLeftCorner.X + shift else position.UpperLeftCorner.X

/-- What the loop of `draw` is to push on `text` from the offset `(x, y)`. -/
def DrawsLines (f : CGUIFont) (position : rect) (hcenter : Bool) (shift : Int)
    (text : List Nat) : Prop :=
  ∀ (x y : Int) (first : List Nat) (more : List (List Nat)),
    textLines text = first :: more →
    drawLoop f position hcenter shift text ⟨x, y⟩ =
      some (expectedLine f x y first ++
        (more.enumFrom 1).flatMap fun p =>
          expectedLine f (lineStart position hcenter shift) (y + (p.1 : Int) * f.MaxHeight) p.2)

/-! ## Layout with the characters kept (instrumented copy of `draw`) -/

/-- The loop of `draw` with the test on `Invisible` taken out and every entry
tagged with the character `c` it is pushed for: `(c, area.spriteno, offset)`. -/
def drawLoopTagged (f : CGUIFont) (position : rect) (hcenter : Bool) (shift : Int) :
    List Nat → position2d → Option (List (Nat × Nat × position2d))
  | [], _ => some []
  | c :: rest, offset =>
    if c = 13 then
      match rest with
      | [] => drawLoopTagged f position hcenter shift [] (nextLine f position hcenter shift offset)
      | d :: rest' =>
        if d = 10 then
          drawLoopTagged f position hcenter shift rest' (nextLine f position hcenter shift offset)
        else
          drawLoopTagged f position hcenter shift (d :: rest')
            (nextLine f position hcenter shift offset)
    else if c = 10 then
      drawLoopTagged f position hcenter shift rest (nextLine f position hcenter shift offset)
    else
      match f.areaOf c with
      | none => none
      | some area =>
        let here : position2d := { offset with X := offset.X + area.underhang }
        match drawLoopTagged f position hcenter shift rest
            { here with X := here.X + (area.width + area.overhang + f.GlobalKerningWidth) } with
        | none => none
        | some entries => some ((c, area.spriteno, here) :: entries)

/-- The method `draw` run with `drawLoopTagged` for its loop: `some none` when
it returns before the sprite batch, `some (some entries)` with the tagged
entries otherwise. -/
def CGUIFont.drawTagged (f : CGUIFont) (text : List Nat) (position : rect)
    (hcenter vcenter : Bool) (clip : Option rect) :
    Option (Option (List (Nat × Nat × position2d))) :=
  match f.SpriteBank with
  | none => some none
  | some _ =>
    match (if hcenter || vcenter || clip.isSome then f.getDimension text else some ⟨0, 0⟩) with
    | none => none
    | some dim =>
      let textWidth := toS32 dim.Width
      let textHeight := toS32 dim.Height
      let shift := (position.getWidth - textWidth) / 2
      let offset : position2d :=
        { X := if hcenter then position.UpperLeftCorner.X + shift else position.UpperLeftCorner.X
          Y := if vcenter then position.UpperLeftCorner.Y + (position.getHeight - textHeight) / 2
               else position.UpperLeftCorner.Y }
      let clippedOut : Bool :=
        match clip with
        | none => false
        | some other =>
          !(rect.clipAgainst ⟨offset, ⟨offset.X + textWidth, offset.Y + textHeight⟩⟩ other).isValid
      if clippedOut then some none
      else
        match drawLoopTagged f position hcenter shift text offset with
        | none => none
        | some entries => some (some entries)

/-- Delete the tagged entries that belong to characters in `S`, then drop the
tags. -/
def deleteInvisible (S : List Nat) (entries : List (Nat × Nat × position2d)) :
    List (Nat × position2d) :=
  (entries.filter fun e => decide (e.1 ∉ S)).map Prod.snd

/-- The outcome of `draw` that a tagged outcome stands for once the entries of
the characters in `S` are deleted. -/
def untagOutcome (S : List Nat) : Option (List (Nat × Nat × position2d)) → DrawOutcome
  | none => .returned
  | some entries => .batch (deleteInvisible S entries)

/-- The measured text bounds: the rectangle whose origin is the (possibly
centred) start offset and whose size is `getDimension text` read as `s32`
values. -/
def measuredBounds (f : CGUIFont) (text : List Nat) (position : rect)
    (hcenter vcenter : Bool) : Option rect :=
  (f.getDimension text).map fun dim =>
    let x0 := position.UpperLeftCorner.X +
      (if hcenter then (position.getWidth - toS32 dim.Width) / 2 else 0)
    let y0 := position.UpperLeftCorner.Y +
      (if vcenter then (position.getHeight - toS32 dim.Height) / 2 else 0)
    ⟨⟨x0, y0⟩, ⟨x0 + toS32 dim.Width, y0 + toS32 dim.Height⟩⟩

/-- Two rectangles are fully disjoint: one lies entirely to the left of,
or entirely above, the other, with no point in common. -/
def rect.FullyDisjoint (a b : rect) : Prop :=
  a.LowerRightCorner.X < b.UpperLeftCorner.X ∨ b.LowerRightCorner.X < a.UpperLeftCorner.X ∨
    a.LowerRightCorner.Y < b.UpperLeftCorner.Y ∨ b.LowerRightCorner.Y < a.UpperLeftCorner.Y

instance (a b : rect) : Decidable (rect.FullyDisjoint a b) := by
  unfold rect.FullyDisjoint; infer_instance

/-- Sum of the advances of the characters `0 .. i` of a text. -/
def prefixAdvance (f : CGUIFont) (text : List Nat) (i : Nat) : Int :=
  lineWidth f (text.take (i + 1))

/-! ## Kerning of a letter pair -/

/-- Type `core::vector2di`. -/
structure vector2di where
  X : Int
  Y : Int
  deriving DecidableEq, Repr

/-- Method `CGUIFont::getKerning`; a letter of code 0 fails the tests
`if (thisLetter)` and `if (previousLetter)`. -/
def CGUIFont.getKerning (f : CGUIFont) (thisLetter previousLetter : Nat) : Option vector2di :=
  if thisLetter ≠ 0 then
    match f.areaOf thisLetter with
    | none => none
    | some a =>
      if previousLetter ≠ 0 then
        match f.areaOf previousLetter with
        | none => none
        | some b =>
          some ⟨f.GlobalKerningWidth + a.overhang + b.underhang, f.GlobalKerningHeight⟩
      else some ⟨f.GlobalKerningWidth + a.overhang, f.GlobalKerningHeight⟩
  else some ⟨f.GlobalKerningWidth, f.GlobalKerningHeight⟩

/-! ## Reachable font states -/

/-- The states a font goes through: the constructor leaves `Areas` and
`CharacterMap` empty, `WrongCharacter`, `MaxHeight` and both kernings 0, the
invisible set `" "`, and whatever sprite bank the environment handed out
(`none` when there is no environment); then come calls of `loadTexture`,
`setKerningWidth`, `setKerningHeight` and `setInvisibleCharacters` in any
order. -/
inductive Reachable : CGUIFont → Prop
  | constructed (bank : Option IGUISpriteBank) :
      Reachable { CGUIFont.fresh with SpriteBank := bank }
  | loadTexture (copyTo : ECOLOR_FORMAT → IImage → IImage) (image : Option IImage)
      {f : CGUIFont} : Reachable f → Reachable (f.loadTexture copyTo image).2
  | setKerningWidth (kerning : Int) {f : CGUIFont} :
      Reachable f → Reachable (f.setKerningWidth kerning)
  | setKerningHeight (kerning : Int) {f : CGUIFont} :
      Reachable f → Reachable (f.setKerningHeight kerning)
  | setInvisibleCharacters (s : List Nat) {f : CGUIFont} :
      Reachable f → Reachable (f.setInvisibleCharacters s)

/-- Every value of a character map is an index below `size`. -/
def LookupsInside (size : Nat) (map : Nat → Option Nat) : Prop :=
  ∀ c i, map c = some i → i < size

/-! ## Marker positions and the boxes they delimit (specification side) -/

/-- The pixels of `ps`, in order, at which an image shows the marker `m`, as
positions. -/
def markedPixels (cTL cLR cBG : Nat) (image : IImage) (ps : List (Nat × Nat)) (m : Marker) :
    List position2d :=
  (ps.filter fun p => decide (classify cTL cLR cBG (image.getPixel p.1 p.2) = m)).map
    fun p => ⟨p.1, p.2⟩

/-- The positions of the markers `m` of an image in row-major order: entry `N`
is the position of the `N`-th such marker met (0-based). -/
def markerPositions (m : Marker) (image : IImage) : List position2d :=
  markedPixels (colorTopLeft image) (colorLowerRight image) (colorBackGround image)
    (prepared image) (scanOrder image.Width image.Height) m

/-- The parse state matches the markers met so far: box `i` runs from the
`i`-th top-left marker to the `i`-th lower-right marker, or stays at its
top-left marker while it is open, and area `i` has the width of box `i`. -/
def BoxesMatch (s : ParseState) (tls lrs : List position2d) : Prop :=
  s.bank.Positions.length = tls.length ∧ s.lowerRightPositions = lrs.length ∧
    s.Areas.length = lrs.length ∧ lrs.length ≤ tls.length ∧
    (∀ i : Nat, s.bank.Positions[i]? =
      (tls[i]?).map fun t : position2d => (⟨t, (lrs[i]?).getD t⟩ : rect)) ∧
    (∀ i : Nat, (s.Areas[i]?).map (fun a : SFontArea => a.width) =
      (lrs[i]?).bind fun l : position2d => (tls[i]?).map fun t : position2d => l.X - t.X)

/-! ## Lemmas on images and markers -/

theorem getPixel_setPixel_ne (image : IImage) (x y v x' y' : Nat) (h : (x', y') ≠ (x, y)) :
    (image.setPixel x y v).getPixel x' y' = image.getPixel x' y' := by
  unfold IImage.setPixel IImage.getPixel
  split
  · have : ¬ (x' = x ∧ y' = y) := fun hh => h (by rw [hh.1, hh.2])
    simp [this]
  · rfl

theorem pixelMarkers_setPixel (cTL cLR cBG : Nat) (image : IImage) (x y v : Nat)
    (ps : List (Nat × Nat)) (h : (x, y) ∉ ps) :
    pixelMarkers cTL cLR cBG (image.setPixel x y v) ps = pixelMarkers cTL cLR cBG image ps := by
  unfold pixelMarkers
  apply List.map_congr_left
  intro p hp
  have hne : (p.1, p.2) ≠ (x, y) := fun hh => h (by rw [← hh]; exact hp)
  rw [getPixel_setPixel_ne _ _ _ _ _ _ hne]

theorem wellFormed_iff_openBoxes (ms : List Marker) : WellFormed ms ↔ OpenBoxes 0 0 ms := by
  simp [WellFormed, OpenBoxes]

theorem OpenBoxes.tail_topLeft {P L : Nat} {ms : List Marker}
    (h : OpenBoxes P L (.topLeft :: ms)) : OpenBoxes (P + 1) L ms := by
  intro n hn hlr
  have := h (n + 1) (by simpa using hn) (by simpa using hlr)
  simp at this
  omega

theorem OpenBoxes.head_lowerRight {P L : Nat} {ms : List Marker}
    (h : OpenBoxes P L (.lowerRight :: ms)) : L < P := by
  have := h 0 (by simp) (by simp)
  simpa using this

theorem OpenBoxes.tail_lowerRight {P L : Nat} {ms : List Marker}
    (h : OpenBoxes P L (.lowerRight :: ms)) : OpenBoxes P (L + 1) ms := by
  intro n hn hlr
  have := h (n + 1) (by simpa using hn) (by simpa using hlr)
  simp at this
  omega

theorem OpenBoxes.tail_other {P L : Nat} {m : Marker} {ms : List Marker}
    (h1 : m ≠ .topLeft) (h2 : m ≠ .lowerRight)
    (h : OpenBoxes P L (m :: ms)) : OpenBoxes P L ms := by
  intro n hn hlr
  have := h (n + 1) (by simpa using hn) (by simpa using hlr)
  simp [List.count_cons, h1, h2] at this
  omega

/-! ## The scan on well-formed marker sequences -/

theorem scanOrder_nodup (Width Height : Nat) : (scanOrder Width Height).Nodup := by
  unfold scanOrder
  rw [List.nodup_flatMap]
  refine ⟨?_, ?_⟩
  · intro y _
    exact (List.nodup_range _).map (fun a b h => by simpa using h)
  · refine (List.nodup_range _).pairwise_of_forall_ne ?_
    intro a _ b _ hab
    simp only [Function.onFun, List.disjoint_left]
    intro p hp hq
    simp only [List.mem_map] at hp hq
    obtain ⟨_, _, rfl⟩ := hp
    obtain ⟨_, _, h⟩ := hq
    exact hab (by simpa using (congrArg Prod.snd h).symm)

theorem scanPixels_closedBoxes (cTL cLR cBG : Nat) (ps : List (Nat × Nat)) :
    ∀ s : ParseState, ps.Nodup →
      OpenBoxes s.bank.Positions.length s.lowerRightPositions
        (pixelMarkers cTL cLR cBG s.image ps) →
      ClosedBoxes s (scanPixels cTL cLR cBG ps s)
        ((pixelMarkers cTL cLR cBG s.image ps).count .lowerRight) := by
  induction ps with
  | nil =>
    intro s _ _
    refine ⟨by simp [scanPixels, pixelMarkers], by simp [scanPixels, pixelMarkers],
      by simp [scanPixels], ⟨[], by simp [scanPixels], by simp [pixelMarkers]⟩, ?_⟩
    intro c
    have : ¬ (s.lowerRightPositions + 32 ≤ c ∧ c < s.lowerRightPositions + 32 + 0) := by omega
    simp only [pixelMarkers, List.map_nil, List.count_nil, this, if_false, scanPixels]
  | cons p rest ih =>
    obtain ⟨x, y⟩ := p
    intro s hnd hob
    have hx : (x, y) ∉ rest := (List.nodup_cons.mp hnd).1
    have hrest : rest.Nodup := (List.nodup_cons.mp hnd).2
    have hms : pixelMarkers cTL cLR cBG s.image ((x, y) :: rest) =
        classify cTL cLR cBG (s.image.getPixel x y) :: pixelMarkers cTL cLR cBG s.image rest := rfl
    rw [hms] at hob ⊢
    by_cases h1 : s.image.getPixel x y = cTL
    · have hc : classify cTL cLR cBG (s.image.getPixel x y) = .topLeft := by simp [classify, h1]
      rw [hc] at hob ⊢
      have hstep : scanPixels cTL cLR cBG ((x, y) :: rest) s =
          scanPixels cTL cLR cBG rest (openBox s x y) := by simp [scanPixels, h1]
      have hm := pixelMarkers_setPixel cTL cLR cBG s.image x y 0 rest hx
      have := ih (openBox s x y) hrest (by
        simpa [openBox, hm] using hob.tail_topLeft)
      rw [hstep]
      simpa [openBox, hm, ClosedBoxes] using this
    · by_cases h2 : s.image.getPixel x y = cLR
      · have hne : ¬ cLR = cTL := fun h => h1 (h2.trans h)
        have hc : classify cTL cLR cBG (s.image.getPixel x y) = .lowerRight := by
          simp [classify, h2, hne]
        rw [hc] at hob ⊢
        have hlt := hob.head_lowerRight
        have hstep : scanPixels cTL cLR cBG ((x, y) :: rest) s =
            scanPixels cTL cLR cBG rest (closeBox s x y) := by
          simp [scanPixels, h2, hne, Nat.not_le.mpr hlt]
        have hm := pixelMarkers_setPixel cTL cLR cBG s.image x y 0 rest hx
        have himg : (closeBox s x y).image = s.image.setPixel x y 0 := rfl
        have hlen : (closeBox s x y).bank.Positions.length = s.bank.Positions.length := by
          simp [closeBox]
        have hL : (closeBox s x y).lowerRightPositions = s.lowerRightPositions + 1 := rfl
        have hS : (closeBox s x y).bank.Sprites.length = s.bank.Sprites.length + 1 := by
          simp [closeBox]
        have hT : (closeBox s x y).bank.Textures = s.bank.Textures := rfl
        have hC : ∀ c, (closeBox s x y).CharacterMap c =
            if c = s.lowerRightPositions + 32 then some s.lowerRightPositions
            else s.CharacterMap c := fun _ => rfl
        obtain ⟨a0, ha1, ha2, ha3, hA⟩ : ∃ a0 : SFontArea, a0.spriteno = s.lowerRightPositions ∧
            a0.overhang = 0 ∧ a0.underhang = 0 ∧ (closeBox s x y).Areas = s.Areas ++ [a0] :=
          ⟨_, rfl, rfl, rfl, rfl⟩
        have := ih (closeBox s x y) hrest (by
          rw [himg, hm, hlen, hL]; exact hob.tail_lowerRight)
        rw [hstep]
        rw [himg, hm] at this
        obtain ⟨h_l, h_s, h_t, ⟨newAreas, h_a, h_n⟩, h_c⟩ := this
        refine ⟨?_, ?_, h_t.trans hT, ⟨a0 :: newAreas, ?_, ?_⟩, ?_⟩
        · rw [h_l, hL]; simp; omega
        · rw [h_s, hS]; simp; omega
        · rw [h_a, hA]; simp
        · rw [hL] at h_n
          simp [List.range'_succ, h_n, ha1, ha2, ha3]
        · intro c
          rw [h_c c, hC c, hL]
          simp only [List.count_cons_self]
          by_cases hc1 : c = s.lowerRightPositions + 32
          · subst hc1; simp
          · simp only [hc1, if_false]
            congr 1
            apply propext
            omega
      · have hstep : scanPixels cTL cLR cBG ((x, y) :: rest) s =
            scanPixels cTL cLR cBG rest
              (if s.image.getPixel x y = cBG then clearPixel s x y else s) := by
          by_cases h3 : s.image.getPixel x y = cBG
          · have e1 : ¬ cBG = cTL := fun h => h1 (h3.trans h)
            have e2 : ¬ cBG = cLR := fun h => h2 (h3.trans h)
            simp [scanPixels, h3, e1, e2]
          · simp [scanPixels, h1, h2, h3]
        have hc1 : classify cTL cLR cBG (s.image.getPixel x y) ≠ .topLeft := by
          simp only [classify, h1, h2, if_false]; split <;> simp
        have hc2 : classify cTL cLR cBG (s.image.getPixel x y) ≠ .lowerRight := by
          simp only [classify, h1, h2, if_false]; split <;> simp
        have hm := pixelMarkers_setPixel cTL cLR cBG s.image x y 0 rest hx
        rw [hstep, List.count_cons_of_ne hc2.symm]
        by_cases h3 : s.image.getPixel x y = cBG
        · have := ih (clearPixel s x y) hrest (by
            simpa [clearPixel, hm] using hob.tail_other hc1 hc2)
          simpa [h3, clearPixel, hm, ClosedBoxes] using this
        · have := ih s hrest (hob.tail_other hc1 hc2)
          simpa [h3] using this

/-! ## `loadTexture` in terms of the scan -/

theorem loadTexture_eq (copyTo : ECOLOR_FORMAT → IImage → IImage) (f : CGUIFont)
    (image tmpImage : IImage) (bank : IGUISpriteBank)
    (hb : f.SpriteBank = some bank) (ht : tmpImageOf copyTo image = some tmpImage) :
    (f.loadTexture copyTo (some image)).1 =
        (!(scanResult f bank tmpImage).bank.Sprites.isEmpty &&
          (scanResult f bank tmpImage).lowerRightPositions != 0) ∧
      (f.loadTexture copyTo (some image)).2.Areas = (scanResult f bank tmpImage).Areas ∧
      (f.loadTexture copyTo (some image)).2.CharacterMap =
        (scanResult f bank tmpImage).CharacterMap ∧
      (f.loadTexture copyTo (some image)).2.SpriteBank =
        some (if (f.loadTexture copyTo (some image)).1 = true then
            (scanResult f bank tmpImage).bank.addTexture (scanResult f bank tmpImage).image
          else (scanResult f bank tmpImage).bank) := by
  unfold CGUIFont.loadTexture
  simp only [hb, ht, CGUIFont.readPositions]
  rw [show scanPixels (colorTopLeft tmpImage) (colorLowerRight tmpImage) (colorBackGround tmpImage)
      (scanOrder tmpImage.Width tmpImage.Height)
      ⟨prepared tmpImage, bank, f.Areas, f.CharacterMap, 0⟩ = scanResult f bank tmpImage from rfl]
  cases hret : (!(scanResult f bank tmpImage).bank.Sprites.isEmpty &&
      (scanResult f bank tmpImage).lowerRightPositions != 0) <;>
    simp [hret, CGUIFont.setMaxHeight]

/-! ## One step of the scan, and the scan that is cut short -/

theorem OpenBoxes.tail {P L : Nat} {m : Marker} {ms : List Marker}
    (h : OpenBoxes P L (m :: ms)) :
    OpenBoxes (P + if m = .topLeft then 1 else 0) (L + if m = .lowerRight then 1 else 0) ms := by
  cases m
  · simpa using h.tail_topLeft
  · simpa using h.tail_lowerRight
  · simpa using h.tail_other (by simp) (by simp)
  · simpa using h.tail_other (by simp) (by simp)

theorem scanPixels_cons (cTL cLR cBG : Nat) (x y : Nat) (s : ParseState)
    (h : classify cTL cLR cBG (s.image.getPixel x y) = .lowerRight →
      s.lowerRightPositions < s.bank.Positions.length) :
    ∃ s1 : ParseState,
      (∀ rest, scanPixels cTL cLR cBG ((x, y) :: rest) s = scanPixels cTL cLR cBG rest s1) ∧
      (s1.image = s.image ∨ s1.image = s.image.setPixel x y 0) ∧
      s1.bank.Positions.length = s.bank.Positions.length +
        (if classify cTL cLR cBG (s.image.getPixel x y) = .topLeft then 1 else 0) ∧
      s1.lowerRightPositions = s.lowerRightPositions +
        (if classify cTL cLR cBG (s.image.getPixel x y) = .lowerRight then 1 else 0) := by
  by_cases h1 : s.image.getPixel x y = cTL
  · refine ⟨openBox s x y, fun rest => by simp [scanPixels, h1], Or.inr rfl, ?_, ?_⟩
    · simp [openBox, classify, h1]
    · simp [openBox, classify, h1]
  · by_cases h2 : s.image.getPixel x y = cLR
    · have hne : ¬ cLR = cTL := fun e => h1 (h2.trans e)
      have hc : classify cTL cLR cBG (s.image.getPixel x y) = .lowerRight := by
        simp [classify, h2, hne]
      have hlt := h hc
      refine ⟨closeBox s x y, fun rest => ?_, Or.inr rfl, ?_, ?_⟩
      · simp [scanPixels, h2, hne, Nat.not_le.mpr hlt]
      · simp [closeBox, hc]
      · simp [closeBox, hc]
    · by_cases h3 : s.image.getPixel x y = cBG
      · have e1 : ¬ cBG = cTL := fun e => h1 (h3.trans e)
        have e2 : ¬ cBG = cLR := fun e => h2 (h3.trans e)
        refine ⟨clearPixel s x y, fun rest => by simp [scanPixels, h3, e1, e2], Or.inr rfl, ?_, ?_⟩
        · simp [clearPixel, classify, h3, e1, e2]
        · simp [clearPixel, classify, h3, e1, e2]
      · refine ⟨s, fun rest => by simp [scanPixels, h1, h2, h3], Or.inl rfl, ?_, ?_⟩
        · simp [classify, h1, h2, h3]
        · simp [classify, h1, h2, h3]

theorem scanPixels_abort (cTL cLR cBG : Nat) (p : Nat × Nat) (post : List (Nat × Nat))
    (pre : List (Nat × Nat)) :
    ∀ s : ParseState, (pre ++ p :: post).Nodup →
      OpenBoxes s.bank.Positions.length s.lowerRightPositions
        (pixelMarkers cTL cLR cBG s.image pre) →
      classify cTL cLR cBG (s.image.getPixel p.1 p.2) = .lowerRight →
      s.bank.Positions.length + (pixelMarkers cTL cLR cBG s.image pre).count .topLeft ≤
        s.lowerRightPositions + (pixelMarkers cTL cLR cBG s.image pre).count .lowerRight →
      scanPixels cTL cLR cBG (pre ++ p :: post) s =
        { scanPixels cTL cLR cBG pre s with lowerRightPositions := 0 } := by
  induction pre with
  | nil =>
    intro s _ _ hp hle
    obtain ⟨px, py⟩ := p
    have h1 : ¬ s.image.getPixel px py = cTL := by
      intro e; simp [classify, e] at hp
    have h2 : s.image.getPixel px py = cLR := by
      by_contra e
      simp only [classify, h1, e, if_false] at hp
      split at hp <;> simp at hp
    have hne : ¬ cLR = cTL := fun e => h1 (h2.trans e)
    have hle' : s.bank.Positions.length ≤ s.lowerRightPositions := by
      simpa [pixelMarkers] using hle
    simp [scanPixels, h2, hne, hle']
  | cons q pre ih =>
    obtain ⟨x, y⟩ := q
    intro s hnd hob hp hle
    have hnd' : (x, y) ∉ pre ++ p :: post ∧ (pre ++ p :: post).Nodup :=
      List.nodup_cons.mp (by simpa using hnd)
    have hxpre : (x, y) ∉ pre := fun hm => hnd'.1 (List.mem_append_left _ hm)
    have hxp : (p.1, p.2) ≠ (x, y) := fun e =>
      hnd'.1 (List.mem_append_right _ (by rw [← e]; exact List.mem_cons_self _ _))
    have hms : pixelMarkers cTL cLR cBG s.image ((x, y) :: pre) =
        classify cTL cLR cBG (s.image.getPixel x y) :: pixelMarkers cTL cLR cBG s.image pre := rfl
    rw [hms] at hob hle
    obtain ⟨s1, hstep, himg, hP, hL⟩ := scanPixels_cons cTL cLR cBG x y s (fun hc => by
      rw [hc] at hob; exact hob.head_lowerRight)
    have hmk : pixelMarkers cTL cLR cBG s1.image pre = pixelMarkers cTL cLR cBG s.image pre := by
      rcases himg with e | e
      · rw [e]
      · rw [e]; exact pixelMarkers_setPixel _ _ _ _ _ _ _ _ hxpre
    have hpx : s1.image.getPixel p.1 p.2 = s.image.getPixel p.1 p.2 := by
      rcases himg with e | e
      · rw [e]
      · rw [e]; exact getPixel_setPixel_ne _ _ _ _ _ _ hxp
    rw [List.cons_append, hstep, hstep]
    apply ih s1 hnd'.2
    · rw [hmk, hP, hL]; exact hob.tail
    · rw [hpx]; exact hp
    · rw [hmk, hP, hL]
      rw [List.count_cons, List.count_cons] at hle
      simp only [beq_iff_eq] at hle
      omega

theorem scanPixels_textures (cTL cLR cBG : Nat) (ps : List (Nat × Nat)) :
    ∀ s : ParseState, (scanPixels cTL cLR cBG ps s).bank.Textures = s.bank.Textures := by
  induction ps with
  | nil => intro s; rfl
  | cons p rest ih =>
    obtain ⟨x, y⟩ := p
    intro s
    simp only [scanPixels]
    split_ifs <;> simp [ih, openBox, closeBox, clearPixel]

theorem readPositions_eq (f : CGUIFont) (bank : IGUISpriteBank) (tmpImage : IImage)
    (hb : f.SpriteBank = some bank) :
    f.readPositions tmpImage 0 =
      ((scanResult f bank tmpImage).image, (scanResult f bank tmpImage).lowerRightPositions,
        { f with
          SpriteBank := some (scanResult f bank tmpImage).bank
          Areas := (scanResult f bank tmpImage).Areas
          CharacterMap := (scanResult f bank tmpImage).CharacterMap }) := by
  unfold CGUIFont.readPositions
  rw [hb]
  rfl

/-! ## Claims on the parser -/

/-- C1: on a freshly constructed font, an image in a supported colour format
(its scanned image being `tmpImage`) whose row-major marker sequence is well
formed and holds exactly `K >= 1` lower-right markers makes `loadTexture`
return true with exactly `K` glyphs: `Areas` has size `K`, the sprite bank has
`K` sprites, glyph `N` has `spriteno = N`, `overhang = 0`, `underhang = 0`, and
`CharacterMap` maps `32 + N` to `N` for `N < K` and has no other key. -/
theorem loadTexture_wellFormed (copyTo : ECOLOR_FORMAT → IImage → IImage)
    (image tmpImage : IImage) (K : Nat)
    (hfmt : tmpImageOf copyTo image = some tmpImage)
    (hwf : WellFormed (markers tmpImage))
    (hK : (markers tmpImage).count .lowerRight = K) (hK1 : 1 ≤ K) :
    (CGUIFont.fresh.loadTexture copyTo (some image)).1 = true ∧
      (CGUIFont.fresh.loadTexture copyTo (some image)).2.Areas.length = K ∧
      (∃ bank, (CGUIFont.fresh.loadTexture copyTo (some image)).2.SpriteBank = some bank ∧
        bank.Sprites.length = K) ∧
      (∀ N, N < K → ∃ a, (CGUIFont.fresh.loadTexture copyTo (some image)).2.Areas[N]? = some a ∧
        a.spriteno = N ∧ a.overhang = 0 ∧ a.underhang = 0) ∧
      (∀ c, (CGUIFont.fresh.loadTexture copyTo (some image)).2.CharacterMap c =
        if 32 ≤ c ∧ c < 32 + K then some (c - 32) else none) := by
  obtain ⟨h1, h2, h3, h4⟩ :=
    loadTexture_eq copyTo CGUIFont.fresh image tmpImage ⟨[], [], []⟩ rfl hfmt
  have hscan := scanPixels_closedBoxes (colorTopLeft tmpImage) (colorLowerRight tmpImage)
    (colorBackGround tmpImage) (scanOrder tmpImage.Width tmpImage.Height)
    ⟨prepared tmpImage, ⟨[], [], []⟩, [], fun _ => none, 0⟩ (scanOrder_nodup _ _)
    ((wellFormed_iff_openBoxes _).mp hwf)
  change ClosedBoxes _ (scanResult CGUIFont.fresh ⟨[], [], []⟩ tmpImage)
    ((markers tmpImage).count .lowerRight) at hscan
  rw [hK] at hscan
  obtain ⟨h_l, h_s, _, ⟨newAreas, h_a, h_n⟩, h_c⟩ := hscan
  simp only [List.length_nil, Nat.zero_add, List.nil_append] at h_l h_s h_a h_c
  have hlen : newAreas.length = K := by
    have := congrArg List.length h_n
    simpa using this
  have hret : (CGUIFont.fresh.loadTexture copyTo (some image)).1 = true := by
    rw [h1, h_l]
    have : (scanResult CGUIFont.fresh ⟨[], [], []⟩ tmpImage).bank.Sprites ≠ [] := by
      intro h0
      rw [h0] at h_s
      simp at h_s
      omega
    have hK0 : K ≠ 0 := by omega
    simp [this, hK0]
  refine ⟨hret, by rw [h2, h_a, hlen], ⟨_, h4, ?_⟩, ?_, ?_⟩
  · rw [if_pos hret]
    simpa [IGUISpriteBank.addTexture] using h_s
  · intro N hN
    have hN' : N < newAreas.length := by omega
    refine ⟨newAreas[N], by rw [h2, h_a]; simp, ?_⟩
    have := congrArg (fun l => l[N]?) h_n
    simp [hN', hN, List.getElem?_range'] at this
    exact ⟨this.1, this.2.1, this.2.2⟩
  · intro c
    rw [h3, h_c c]

/-- Witness for C1: the sample image `glyphImage` closes `K = 2` boxes. -/
theorem loadTexture_wellFormed_witness :
    (CGUIFont.fresh.loadTexture (fun _ i => i) (some glyphImage)).1 = true ∧
      (CGUIFont.fresh.loadTexture (fun _ i => i) (some glyphImage)).2.Areas.length = 2 ∧
      (∃ bank, (CGUIFont.fresh.loadTexture (fun _ i => i) (some glyphImage)).2.SpriteBank
          = some bank ∧ bank.Sprites.length = 2) ∧
      (∀ N, N < 2 → ∃ a,
        (CGUIFont.fresh.loadTexture (fun _ i => i) (some glyphImage)).2.Areas[N]? = some a ∧
        a.spriteno = N ∧ a.overhang = 0 ∧ a.underhang = 0) ∧
      (∀ c, (CGUIFont.fresh.loadTexture (fun _ i => i) (some glyphImage)).2.CharacterMap c =
        if 32 ≤ c ∧ c < 32 + 2 then some (c - 32) else none) :=
  loadTexture_wellFormed (fun _ i => i) glyphImage glyphImage 2 rfl (by decide) (by decide)
    (by decide)

/-- C2: on a freshly constructed font, when the row-major scan of a
supported-format image reaches, at pixel number `n`, a lower-right marker
while no box is open (not more top-left than lower-right markers before it),
`readPositions` returns with the counter reset to 0 and with the image, the
sprite bank, `Areas` and `CharacterMap` as the first `n` pixels left them (the
scan stops at that pixel), and `loadTexture` returns false. -/
theorem loadTexture_no_open_box (copyTo : ECOLOR_FORMAT → IImage → IImage)
    (image tmpImage : IImage) (n : Nat)
    (hfmt : tmpImageOf copyTo image = some tmpImage)
    (hn : (markers tmpImage)[n]? = some .lowerRight)
    (hpre : WellFormed ((markers tmpImage).take n))
    (hno : ((markers tmpImage).take n).count .topLeft ≤
      ((markers tmpImage).take n).count .lowerRight) :
    (CGUIFont.fresh.readPositions tmpImage 0).2.1 = 0 ∧
      (CGUIFont.fresh.readPositions tmpImage 0).1 = (scanPrefix tmpImage n).image ∧
      (CGUIFont.fresh.readPositions tmpImage 0).2.2.SpriteBank =
        some (scanPrefix tmpImage n).bank ∧
      (CGUIFont.fresh.readPositions tmpImage 0).2.2.Areas = (scanPrefix tmpImage n).Areas ∧
      (CGUIFont.fresh.readPositions tmpImage 0).2.2.CharacterMap =
        (scanPrefix tmpImage n).CharacterMap ∧
      (CGUIFont.fresh.loadTexture copyTo (some image)).1 = false := by
  have hlen : n < (scanOrder tmpImage.Width tmpImage.Height).length := by
    have := (List.getElem?_eq_some_iff.mp hn).1
    simpa [markers, pixelMarkers] using this
  have hsplit : scanOrder tmpImage.Width tmpImage.Height =
      (scanOrder tmpImage.Width tmpImage.Height).take n ++
        (scanOrder tmpImage.Width tmpImage.Height)[n] ::
          (scanOrder tmpImage.Width tmpImage.Height).drop (n + 1) := by
    rw [List.getElem_cons_drop _ n hlen, List.take_append_drop]
  have htake : (markers tmpImage).take n =
      pixelMarkers (colorTopLeft tmpImage) (colorLowerRight tmpImage) (colorBackGround tmpImage)
        (prepared tmpImage) ((scanOrder tmpImage.Width tmpImage.Height).take n) := by
    simp [markers, pixelMarkers, List.map_take]
  have hp : classify (colorTopLeft tmpImage) (colorLowerRight tmpImage) (colorBackGround tmpImage)
      ((prepared tmpImage).getPixel (scanOrder tmpImage.Width tmpImage.Height)[n].1
        (scanOrder tmpImage.Width tmpImage.Height)[n].2) = .lowerRight := by
    have := hn
    simp only [markers, pixelMarkers, List.getElem?_map] at this
    rw [List.getElem?_eq_getElem hlen] at this
    simpa using this
  have hres : scanResult CGUIFont.fresh ⟨[], [], []⟩ tmpImage =
      { scanPrefix tmpImage n with lowerRightPositions := 0 } := by
    unfold scanResult scanPrefix
    have hnd := scanOrder_nodup tmpImage.Width tmpImage.Height
    rw [hsplit] at hnd
    have := scanPixels_abort (colorTopLeft tmpImage) (colorLowerRight tmpImage)
      (colorBackGround tmpImage) (scanOrder tmpImage.Width tmpImage.Height)[n]
      ((scanOrder tmpImage.Width tmpImage.Height).drop (n + 1))
      ((scanOrder tmpImage.Width tmpImage.Height).take n)
      ⟨prepared tmpImage, ⟨[], [], []⟩, [], fun _ => none, 0⟩ hnd
      (by rw [← htake]; exact (wellFormed_iff_openBoxes _).mp hpre)
      hp (by rw [← htake]; simpa using hno)
    rw [← hsplit] at this
    exact this
  have hread : CGUIFont.fresh.readPositions tmpImage 0 =
      ((scanResult CGUIFont.fresh ⟨[], [], []⟩ tmpImage).image,
        (scanResult CGUIFont.fresh ⟨[], [], []⟩ tmpImage).lowerRightPositions,
        { CGUIFont.fresh with
          SpriteBank := some (scanResult CGUIFont.fresh ⟨[], [], []⟩ tmpImage).bank
          Areas := (scanResult CGUIFont.fresh ⟨[], [], []⟩ tmpImage).Areas
          CharacterMap := (scanResult CGUIFont.fresh ⟨[], [], []⟩ tmpImage).CharacterMap }) := rfl
  obtain ⟨h1, _, _, _⟩ :=
    loadTexture_eq copyTo CGUIFont.fresh image tmpImage ⟨[], [], []⟩ rfl hfmt
  rw [hread, h1, hres]
  simp

/-- Witness for C2: in `corruptImage` pixel number 4 is a lower-right marker
met while the only box is already closed. -/
theorem loadTexture_no_open_box_witness :
    (CGUIFont.fresh.readPositions corruptImage 0).2.1 = 0 ∧
      (CGUIFont.fresh.readPositions corruptImage 0).1 = (scanPrefix corruptImage 4).image ∧
      (CGUIFont.fresh.readPositions corruptImage 0).2.2.SpriteBank =
        some (scanPrefix corruptImage 4).bank ∧
      (CGUIFont.fresh.readPositions corruptImage 0).2.2.Areas = (scanPrefix corruptImage 4).Areas ∧
      (CGUIFont.fresh.readPositions corruptImage 0).2.2.CharacterMap =
        (scanPrefix corruptImage 4).CharacterMap ∧
      (CGUIFont.fresh.loadTexture (fun _ i => i) (some corruptImage)).1 = false :=
  loadTexture_no_open_box (fun _ i => i) corruptImage corruptImage 4 rfl (by decide) (by decide)
    (by decide)

/-- C3: for a font with a sprite bank (a freshly constructed one in
particular) and a supported-format image, `loadTexture` returns true if and
only if, when `readPositions` is done, the sprite list is non-empty and the
lower-right counter is non-zero; the sprite bank afterwards holds the boxes and
sprites `readPositions` left, and its textures are the earlier ones followed by
the cleaned image when the result is true, and the earlier ones alone when it
is false. -/
theorem loadTexture_ret_iff (copyTo : ECOLOR_FORMAT → IImage → IImage) (f : CGUIFont)
    (bank : IGUISpriteBank) (image tmpImage : IImage)
    (hb : f.SpriteBank = some bank) (hfmt : tmpImageOf copyTo image = some tmpImage) :
    ∃ scanned after : IGUISpriteBank,
      (f.readPositions tmpImage 0).2.2.SpriteBank = some scanned ∧
      (f.loadTexture copyTo (some image)).2.SpriteBank = some after ∧
      ((f.loadTexture copyTo (some image)).1 = true ↔
        scanned.Sprites ≠ [] ∧ (f.readPositions tmpImage 0).2.1 ≠ 0) ∧
      after.Positions = scanned.Positions ∧ after.Sprites = scanned.Sprites ∧
      after.Textures =
        if (f.loadTexture copyTo (some image)).1 = true then
          bank.Textures ++ [(f.readPositions tmpImage 0).1]
        else bank.Textures := by
  obtain ⟨h1, _, _, h4⟩ := loadTexture_eq copyTo f image tmpImage bank hb hfmt
  have htex : (scanResult f bank tmpImage).bank.Textures = bank.Textures :=
    scanPixels_textures _ _ _ _ _
  refine ⟨(scanResult f bank tmpImage).bank, _, by rw [readPositions_eq f bank tmpImage hb],
    h4, ?_, ?_, ?_, ?_⟩
  · rw [h1, readPositions_eq f bank tmpImage hb]
    simp [List.isEmpty_iff]
  · split <;> rfl
  · split <;> rfl
  · rw [readPositions_eq f bank tmpImage hb]
    split
    · simp [IGUISpriteBank.addTexture, htex]
    · exact htex

/-- Witness for C3: the fresh font and the sample image `glyphImage`. -/
theorem loadTexture_ret_iff_witness :
    ∃ scanned after : IGUISpriteBank,
      (CGUIFont.fresh.readPositions glyphImage 0).2.2.SpriteBank = some scanned ∧
      (CGUIFont.fresh.loadTexture (fun _ i => i) (some glyphImage)).2.SpriteBank = some after ∧
      ((CGUIFont.fresh.loadTexture (fun _ i => i) (some glyphImage)).1 = true ↔
        scanned.Sprites ≠ [] ∧ (CGUIFont.fresh.readPositions glyphImage 0).2.1 ≠ 0) ∧
      after.Positions = scanned.Positions ∧ after.Sprites = scanned.Sprites ∧
      after.Textures =
        if (CGUIFont.fresh.loadTexture (fun _ i => i) (some glyphImage)).1 = true then
          ([] : List IImage) ++ [(CGUIFont.fresh.readPositions glyphImage 0).1]
        else [] :=
  loadTexture_ret_iff (fun _ i => i) CGUIFont.fresh ⟨[], [], []⟩ glyphImage glyphImage rfl rfl

/-! ## Measuring: the loop against the lines of the text -/

theorem textLines_crlf (rest : List Nat) : textLines (13 :: 10 :: rest) = [] :: textLines rest := by
  simp [textLines]

theorem textLines_cr (d : Nat) (rest : List Nat) (h : d ≠ 10) :
    textLines (13 :: d :: rest) = [] :: textLines (d :: rest) := by
  rw [textLines]; simpa using h

theorem textLines_cr_end : textLines [13] = [[], []] := by simp [textLines]

theorem textLines_lf (rest : List Nat) : textLines (10 :: rest) = [] :: textLines rest := by
  simp [textLines]

theorem textLines_ne_nil : ∀ text : List Nat, textLines text ≠ []
  | [] => by simp [textLines]
  | c :: rest => by
    by_cases h13 : c = 13
    · subst h13
      cases rest with
      | nil => simp [textLines]
      | cons d rest' =>
        by_cases h10 : d = 10
        · subst h10; simp [textLines_crlf]
        · simp [textLines_cr d rest' h10]
    · by_cases h10 : c = 10
      · subst h10; simp [textLines_lf]
      · rw [textLines]
        · split <;> simp
        all_goals (intros; simp_all)

theorem textLines_char (c : Nat) (rest : List Nat) (h13 : c ≠ 13) (h10 : c ≠ 10) :
    ∃ first more, textLines rest = first :: more ∧
      textLines (c :: rest) = (c :: first) :: more := by
  cases h : textLines rest with
  | nil => exact absurd h (textLines_ne_nil rest)
  | cons first more =>
    refine ⟨first, more, rfl, ?_⟩
    rw [textLines]
    · rw [h]
    all_goals (intros; simp_all)

theorem toU32_cast (i : Int) : ((toU32 i : Nat) : Int) = i % 4294967296 := by
  unfold toU32
  exact Int.toNat_of_nonneg (Int.emod_nonneg _ (by norm_num))

theorem toU32_of_range (i : Int) (h0 : 0 ≤ i) (h1 : i < 4294967296) : ((toU32 i : Nat) : Int) = i := by
  rw [toU32_cast, Int.emod_eq_of_lt h0 h1]

theorem toU32_add (a b : Int) : toU32 (((toU32 a : Nat) : Int) + b) = toU32 (a + b) := by
  unfold toU32
  rw [Int.toNat_of_nonneg (Int.emod_nonneg _ (by norm_num)), Int.emod_add_emod]

theorem foldLine_width (dim : dimension2d) (w h : Nat) :
    ((foldLine dim w h).Width : Int) = max (dim.Width : Int) (w : Int) := by
  unfold foldLine
  simp only
  split
  · rw [max_eq_right]; omega
  · rw [max_eq_left]; omega

theorem foldLine_height (f : CGUIFont) (dim : dimension2d) (w : Nat)
    (hH0 : 0 ≤ f.MaxHeight) (hb : (dim.Height : Int) + f.MaxHeight < 4294967296) :
    ((foldLine dim w (toU32 f.MaxHeight)).Height : Int) = dim.Height + f.MaxHeight := by
  have h1 := toU32_of_range f.MaxHeight hH0 (by omega)
  unfold foldLine
  simp only
  omega

theorem lineWidth_nonneg (f : CGUIFont) (hadv : ∀ c, 0 ≤ f.advance c) (line : List Nat) :
    0 ≤ lineWidth f line := by
  unfold lineWidth
  apply List.sum_nonneg
  intro x hx
  obtain ⟨c, _, rfl⟩ := List.mem_map.mp hx
  exact hadv c

theorem measuresLines_nil (f : CGUIFont) (hH0 : 0 ≤ f.MaxHeight) : MeasuresLines f [] := by
  intro dim lw first more hls _ _ hh
  have hls' : ([[]] : List (List Nat)) = first :: more := by simpa [textLines] using hls
  injection hls' with e1 e2
  subst e1 e2
  refine ⟨foldLine dim lw (toU32 f.MaxHeight), by simp [getDimensionLoop], ?_, ?_⟩
  · simp [foldLine_width, lineWidth]
  · simp only [List.length_nil, Nat.cast_zero, zero_add, one_mul] at hh ⊢
    exact foldLine_height f dim lw hH0 hh

theorem measuresLines_break (f : CGUIFont) (hH0 : 0 ≤ f.MaxHeight) (text rest : List Nat)
    (hstep : ∀ dim lw, getDimensionLoop f text dim lw =
      getDimensionLoop f rest (foldLine dim lw (toU32 f.MaxHeight)) 0)
    (hlines : textLines text = [] :: textLines rest)
    (ih : MeasuresLines f rest) : MeasuresLines f text := by
  intro dim lw first more hls _ hmore hh
  rw [hlines] at hls
  injection hls with e1 e2
  subst e1
  obtain ⟨first', more', hrest⟩ : ∃ a b, textLines rest = a :: b := by
    cases h : textLines rest with
    | nil => exact absurd h (textLines_ne_nil rest)
    | cons a b => exact ⟨a, b, rfl⟩
  have hmore_eq : more = first' :: more' := by rw [← e2, hrest]
  subst hmore_eq
  have hprod : 0 ≤ ((more'.length : Int) + 1) * f.MaxHeight :=
    mul_nonneg (by omega) hH0
  have hh' : (dim.Height : Int) + ((more'.length : Int) + 1) * f.MaxHeight + f.MaxHeight
      < 4294967296 := by
    have : (((first' :: more').length : Int) + 1) * f.MaxHeight =
        ((more'.length : Int) + 1) * f.MaxHeight + f.MaxHeight := by
      simp only [List.length_cons, Nat.cast_add, Nat.cast_one]; ring
    omega
  have hfh := foldLine_height f dim lw hH0 (by omega)
  obtain ⟨r, hr, hw, hht⟩ := ih (foldLine dim lw (toU32 f.MaxHeight)) 0 first' more' hrest
    (by simpa using hmore first' (List.mem_cons_self _ _))
    (fun l hl => hmore l (List.mem_cons_of_mem _ hl))
    (by rw [hfh]; omega)
  refine ⟨r, by rw [hstep, hr], ?_, ?_⟩
  · rw [hw, foldLine_width]
    simp [lineWidth]
  · rw [hht, hfh]
    simp only [List.length_cons, Nat.cast_add, Nat.cast_one]; ring

theorem measuresLines_char (f : CGUIFont) (hadv : ∀ c, 0 ≤ f.advance c) (c : Nat)
    (rest : List Nat) (a : SFontArea) (ha : f.areaOf c = some a)
    (h0 : c ≠ 0) (h13 : c ≠ 13) (h10 : c ≠ 10)
    (ih : MeasuresLines f rest) : MeasuresLines f (c :: rest) := by
  intro dim lw first more hls hw hmore hh
  obtain ⟨first', more', hrest, hall⟩ := textLines_char c rest h13 h10
  rw [hall] at hls
  injection hls with e1 e2
  subst e1 e2
  have hadvc : f.advance c = a.underhang + a.width + a.overhang + f.GlobalKerningWidth := by
    simp [CGUIFont.advance, ha]
  have hlw : lineWidth f (c :: first') = f.advance c + lineWidth f first' := by
    simp [lineWidth]
  have hnn := lineWidth_nonneg f hadv first'
  have hc0 := hadv c
  have hnew : ((toU32 (((toU32 ((lw : Int) + a.underhang) : Nat) : Int)
      + (a.width + a.overhang + f.GlobalKerningWidth)) : Nat) : Int) = lw + f.advance c := by
    rw [toU32_add, toU32_of_range] <;> omega
  obtain ⟨r, hr, hwr, hht⟩ := ih dim _ first' more' hrest (by rw [hnew]; omega) hmore hh
  refine ⟨r, ?_, ?_, hht⟩
  · rw [getDimensionLoop.eq_def]
    simp [h0, h13, h10, ha, hr]
  · rw [hwr, hnew, hlw, add_assoc]

theorem measuresLines (f : CGUIFont) (hL : f.Loaded) (hadv : ∀ c, 0 ≤ f.advance c) :
    ∀ (n : Nat) (text : List Nat), text.length = n → 0 ∉ text → MeasuresLines f text := by
  intro n
  induction n using Nat.strong_induction_on with
  | _ n ih =>
    intro text hlen h0
    match text, hlen, h0 with
    | [], _, _ => exact measuresLines_nil f hL.2.2.1
    | c :: rest, hlen, h0 =>
      have hc0 : c ≠ 0 := fun e => h0 (by simp [e])
      have hrest0 : 0 ∉ rest := fun e => h0 (List.mem_cons_of_mem _ e)
      have ihrest : MeasuresLines f rest :=
        ih rest.length (by simp at hlen; omega) rest rfl hrest0
      by_cases h13 : c = 13
      · subst h13
        match rest, hlen, hrest0, ihrest with
        | [], _, _, ihrest =>
          exact measuresLines_break f hL.2.2.1 [13] [] (fun dim lw => by
            simp [getDimensionLoop]) (by simp [textLines]) ihrest
        | d :: rest', hlen, hrest0, ihrest =>
          by_cases h10 : d = 10
          · subst h10
            have ih' : MeasuresLines f rest' :=
              ih rest'.length (by simp at hlen; omega) rest' rfl
                (fun e => hrest0 (List.mem_cons_of_mem _ e))
            exact measuresLines_break f hL.2.2.1 _ rest' (fun dim lw => by
              simp [getDimensionLoop]) (textLines_crlf rest') ih'
          · exact measuresLines_break f hL.2.2.1 _ (d :: rest') (fun dim lw => by
              rw [getDimensionLoop.eq_def]; simp [h10]) (textLines_cr d rest' h10) ihrest
      · by_cases h10 : c = 10
        · subst h10
          exact measuresLines_break f hL.2.2.1 _ rest (fun dim lw => by
            rw [getDimensionLoop.eq_def]; simp) (textLines_lf rest) ihrest
        · obtain ⟨a, ha⟩ : ∃ a, f.areaOf c = some a := by
            have := hL.2.1 c
            exact ⟨f.Areas[f.getAreaFromCharacter c], by
              simp [CGUIFont.areaOf, List.getElem?_eq_getElem this]⟩
          exact measuresLines_char f hadv c rest a ha hc0 h13 h10 ihrest

theorem foldl_max_spec (ws : List Int) :
    ∀ b : Int, b ≤ ws.foldl max b ∧ (∀ w ∈ ws, w ≤ ws.foldl max b) ∧
      (ws.foldl max b = b ∨ ws.foldl max b ∈ ws) := by
  induction ws with
  | nil => intro b; simp
  | cons w ws ih =>
    intro b
    obtain ⟨h1, h2, h3⟩ := ih (max b w)
    simp only [List.foldl_cons]
    refine ⟨le_trans (le_max_left b w) h1, ?_, ?_⟩
    · intro v hv
      rcases List.mem_cons.mp hv with e | e
      · rw [e]; exact le_trans (le_max_right b w) h1
      · exact h2 v e
    · rcases h3 with e | e
      · rcases max_choice b w with m | m
        · left; rw [e, m]
        · right; rw [e, m]; exact List.mem_cons_self _ _
      · right; exact List.mem_cons_of_mem _ e

theorem areaOf_of_loaded (f : CGUIFont) (hL : f.Loaded) (c : Nat) :
    ∃ a, f.areaOf c = some a ∧ a ∈ f.Areas := by
  have h := hL.2.1 c
  exact ⟨f.Areas[f.getAreaFromCharacter c],
    by simp [CGUIFont.areaOf, List.getElem?_eq_getElem h], List.getElem_mem _⟩

theorem advance_nonneg (f : CGUIFont) (hL : f.Loaded)
    (hadv : ∀ a ∈ f.Areas, 0 ≤ a.underhang + a.width + a.overhang + f.GlobalKerningWidth)
    (c : Nat) : 0 ≤ f.advance c := by
  obtain ⟨a, ha, hmem⟩ := areaOf_of_loaded f hL c
  simpa [CGUIFont.advance, ha] using hadv a hmem

theorem abFont_loaded : abFont.Loaded := by
  refine ⟨rfl, ?_, by decide, by decide⟩
  intro c
  simp only [CGUIFont.getAreaFromCharacter, abFont]
  split_ifs <;> simp

/-! ## Claims on measuring -/

/-- C4: for a loaded font whose glyph advances `underhang + width + overhang +
GlobalKerningWidth` are non-negative and a string `text` (no 32-bit overflow:
every line sum and `(line breaks + 1) * MaxHeight` stay below `2 ^ 32`),
`getDimension text` returns as width the maximum over the lines of `text` of
the sum of the advances of the line's characters, and as height `(number of
line breaks + 1) * MaxHeight`; `getDimension ""` is `(0, MaxHeight)`; and when
`'A'` has width 10, `'B'` width 12, with zero overhang, underhang and kerning,
`getDimension "A\nB"` is `(12, 2 * MaxHeight)`. -/
theorem getDimension_lines (f : CGUIFont) (text : List Nat) (hL : f.Loaded)
    (hadv : ∀ a ∈ f.Areas, 0 ≤ a.underhang + a.width + a.overhang + f.GlobalKerningWidth)
    (h0 : 0 ∉ text)
    (hw : ∀ line ∈ textLines text, lineWidth f line < 4294967296)
    (hh : ((lineBreaks text : Int) + 1) * f.MaxHeight < 4294967296) :
    (∃ w h, f.getDimension text = some ⟨w, h⟩ ∧
        (∃ line ∈ textLines text, (w : Int) = lineWidth f line) ∧
        (∀ line ∈ textLines text, lineWidth f line ≤ w) ∧
        (h : Int) = ((lineBreaks text : Int) + 1) * f.MaxHeight) ∧
      f.getDimension [] = some ⟨0, f.MaxHeight.toNat⟩ ∧
      (∀ a b, f.areaOf 65 = some a → f.areaOf 66 = some b →
        a.width = 10 → a.overhang = 0 → a.underhang = 0 →
        b.width = 12 → b.overhang = 0 → b.underhang = 0 → f.GlobalKerningWidth = 0 →
        f.getDimension [65, 10, 66] = some ⟨12, 2 * f.MaxHeight.toNat⟩) := by
  have hH0 := hL.2.2.1
  have hH1 := hL.2.2.2
  have hpos := advance_nonneg f hL hadv
  have hmaxH : ((toU32 f.MaxHeight : Nat) : Int) = f.MaxHeight :=
    toU32_of_range _ hH0 (by omega)
  refine ⟨?_, ?_, ?_⟩
  · obtain ⟨first, more, hls⟩ : ∃ a b, textLines text = a :: b := by
      cases h : textLines text with
      | nil => exact absurd h (textLines_ne_nil text)
      | cons a b => exact ⟨a, b, rfl⟩
    have hbreaks : ((lineBreaks text : Int) + 1) = (more.length : Int) + 1 := by
      simp [lineBreaks, hls]
    rw [hls] at hw
    obtain ⟨r, hr, hwid, hht⟩ := measuresLines f hL hpos text.length text rfl h0 ⟨0, 0⟩ 0
      first more hls (by simpa using hw first (List.mem_cons_self _ _))
      (fun l hl => hw l (List.mem_cons_of_mem _ hl))
      (by rw [← hbreaks]; simpa using hh)
    have hfirst := lineWidth_nonneg f hpos first
    have hbase : max ((0 : Nat) : Int) (((0 : Nat) : Int) + lineWidth f first) = lineWidth f first := by
      simp [hfirst]
    rw [show (⟨0, 0⟩ : dimension2d).Width = 0 from rfl, hbase] at hwid
    obtain ⟨g1, g2, g3⟩ := foldl_max_spec (more.map (lineWidth f)) (lineWidth f first)
    rw [← hwid] at g1 g2 g3
    refine ⟨r.Width, r.Height, hr, ?_, ?_, ?_⟩
    · rw [hls]
      rcases g3 with e | e
      · exact ⟨first, List.mem_cons_self _ _, e⟩
      · obtain ⟨l, hl, hle⟩ := List.mem_map.mp e
        exact ⟨l, List.mem_cons_of_mem _ hl, hle.symm⟩
    · rw [hls]
      intro line hline
      rcases List.mem_cons.mp hline with e | e
      · rw [e]; exact g1
      · exact g2 _ (List.mem_map_of_mem _ e)
    · rw [hht, hbreaks]; simp
  · have : toU32 f.MaxHeight = f.MaxHeight.toNat := by omega
    simp only [CGUIFont.getDimension, getDimensionLoop, foldLine, this]
    congr 2
    omega
  · intro a b ha hb a1 a2 a3 b1 b2 b3 hk
    have hA : f.advance 65 = 10 := by simp [CGUIFont.advance, ha, a1, a2, a3, hk]
    have hB : f.advance 66 = 12 := by simp [CGUIFont.advance, hb, b1, b2, b3, hk]
    obtain ⟨r, hr, hwid, hht⟩ := measuresLines f hL hpos 3 [65, 10, 66] rfl (by decide) ⟨0, 0⟩ 0
      [65] [[66]] (by decide) (by simp [lineWidth, hA])
      (by simp [lineWidth, hB])
      (by simp only [List.length_cons, List.length_nil]; push_cast; omega)
    simp only [lineWidth, List.map_cons, List.map_nil, List.sum_cons, List.sum_nil, hA, hB,
      List.foldl_cons, List.foldl_nil, List.length_cons, List.length_nil] at hwid hht
    have e1 : r.Width = 12 := by
      have : (r.Width : Int) = 12 := by rw [hwid]; decide
      omega
    have e2 : r.Height = 2 * f.MaxHeight.toNat := by
      push_cast at hht
      omega
    rw [CGUIFont.getDimension, hr]
    cases r
    simp only at e1 e2
    rw [e1, e2]

/-- Witness for C4: the two-glyph font `abFont` and the text `"A\nB"`. -/
theorem getDimension_lines_witness :
    (∃ w h, abFont.getDimension [65, 10, 66] = some ⟨w, h⟩ ∧
        (∃ line ∈ textLines [65, 10, 66], (w : Int) = lineWidth abFont line) ∧
        (∀ line ∈ textLines [65, 10, 66], lineWidth abFont line ≤ w) ∧
        (h : Int) = ((lineBreaks [65, 10, 66] : Int) + 1) * abFont.MaxHeight) ∧
      abFont.getDimension [] = some ⟨0, abFont.MaxHeight.toNat⟩ ∧
      (∀ a b, abFont.areaOf 65 = some a → abFont.areaOf 66 = some b →
        a.width = 10 → a.overhang = 0 → a.underhang = 0 →
        b.width = 12 → b.overhang = 0 → b.underhang = 0 → abFont.GlobalKerningWidth = 0 →
        abFont.getDimension [65, 10, 66] = some ⟨12, 2 * abFont.MaxHeight.toNat⟩) :=
  getDimension_lines abFont [65, 10, 66] abFont_loaded (by decide) (by decide) (by decide)
    (by decide)

theorem getDimensionLoop_crlf (f : CGUIFont) (t : List Nat) :
    ∀ (n : Nat) (s : List Nat), s.length = n → s.getLast? ≠ some 13 →
      ∀ (dim : dimension2d) (w : Nat),
        getDimensionLoop f (s ++ 13 :: 10 :: t) dim w = getDimensionLoop f (s ++ 10 :: t) dim w := by
  intro n
  induction n using Nat.strong_induction_on with
  | _ n ih =>
    intro s hlen hlast dim w
    match s, hlen, hlast with
    | [], _, _ =>
      simp only [List.nil_append]
      rw [getDimensionLoop.eq_def f (13 :: 10 :: t), getDimensionLoop.eq_def f (10 :: t)]
      simp
    | c :: rest, hlen, hlast =>
      have hrestlen : rest.length < n := by simp at hlen; omega
      by_cases h0 : c = 0
      · subst h0
        simp only [List.cons_append]
        rw [getDimensionLoop.eq_def f (0 :: (rest ++ 13 :: 10 :: t)),
          getDimensionLoop.eq_def f (0 :: (rest ++ 10 :: t))]
        simp
      · by_cases h13 : c = 13
        · subst h13
          match rest, hrestlen, hlast with
          | [], _, hlast => simp at hlast
          | d :: rest', hrestlen, hlast =>
            have hlast' : (d :: rest').getLast? ≠ some 13 := by
              rwa [List.getLast?_cons_cons] at hlast
            by_cases h10 : d = 10
            · subst h10
              have hl : rest'.getLast? ≠ some 13 := by
                cases rest' with
                | nil => simp
                | cons e r => rwa [List.getLast?_cons_cons] at hlast'
              have := ih rest'.length (by simp at hrestlen; omega) rest' rfl hl
              simp only [List.cons_append]
              rw [getDimensionLoop.eq_def f (13 :: 10 :: (rest' ++ 13 :: 10 :: t)),
                getDimensionLoop.eq_def f (13 :: 10 :: (rest' ++ 10 :: t))]
              simp [this]
            · have := ih (d :: rest').length hrestlen (d :: rest') rfl hlast'
              simp only [List.cons_append] at this ⊢
              rw [getDimensionLoop.eq_def f (13 :: d :: (rest' ++ 13 :: 10 :: t)),
                getDimensionLoop.eq_def f (13 :: d :: (rest' ++ 10 :: t))]
              simp [h10, this]
        · have hl : rest.getLast? ≠ some 13 := by
            cases rest with
            | nil => simp
            | cons e r => rwa [List.getLast?_cons_cons] at hlast
          have := ih rest.length hrestlen rest rfl hl
          simp only [List.cons_append]
          rw [getDimensionLoop.eq_def f (c :: (rest ++ 13 :: 10 :: t)),
            getDimensionLoop.eq_def f (c :: (rest ++ 10 :: t))]
          by_cases h10 : c = 10
          · subst h10; simp [this]
          · simp only [h0, h13, h10, if_false]
            cases f.areaOf c with
            | none => rfl
            | some a => simp [this]

/-- C5: a CRLF collapses to one break in measuring: for all strings `s` and `t`
where `s` does not end with `'\r'`, `getDimension (s ++ "\r\n" ++ t)` equals
`getDimension (s ++ "\n" ++ t)`, for every font. -/
theorem getDimension_crlf (f : CGUIFont) (s t : List Nat) (hs : s.getLast? ≠ some 13) :
    f.getDimension (s ++ [13, 10] ++ t) = f.getDimension (s ++ [10] ++ t) := by
  unfold CGUIFont.getDimension
  simpa using getDimensionLoop_crlf f t s.length s rfl hs ⟨0, 0⟩ 0

/-- Witness for C5: `"A\r\nB"` against `"A\nB"` on the font `abFont`. -/
theorem getDimension_crlf_witness :
    abFont.getDimension ([65] ++ [13, 10] ++ [66]) = abFont.getDimension ([65] ++ [10] ++ [66]) :=
  getDimension_crlf abFont [65] [66] (by decide)

/-! ## Layout: the loop against the expected draw list -/

theorem expectedLine_nil (f : CGUIFont) (x y : Int) : expectedLine f x y [] = [] := rfl

theorem expectedLine_cons (f : CGUIFont) (x y : Int) (c : Nat) (line : List Nat) (a : SFontArea)
    (ha : f.areaOf c = some a) :
    expectedLine f x y (c :: line) =
      (if c ∈ f.Invisible then [] else [(a.spriteno, (⟨x + a.underhang, y⟩ : position2d))]) ++
        expectedLine f (x + f.advance c) y line := by
  have hg : f.glyph c = a := by simp [CGUIFont.glyph, ha]
  unfold expectedLine
  rw [List.length_cons, List.range_succ_eq_map, List.filterMap_cons]
  have h0 : (match (c :: line).get? 0 with
      | none => none
      | some c' =>
        if c' ∈ f.Invisible then none
        else some ((f.glyph c').spriteno,
          (⟨x + lineWidth f ((c :: line).take 0) + (f.glyph c').underhang, y⟩ : position2d))) =
      (if c ∈ f.Invisible then none
        else some (a.spriteno, (⟨x + a.underhang, y⟩ : position2d))) := by
    simp [hg, lineWidth]
  rw [h0, List.filterMap_map]
  have htail : (fun j => match (c :: line).get? j with
      | none => none
      | some c' =>
        if c' ∈ f.Invisible then none
        else some ((f.glyph c').spriteno,
          (⟨x + lineWidth f ((c :: line).take j) + (f.glyph c').underhang, y⟩ : position2d)))
        ∘ Nat.succ =
      (fun j => match line.get? j with
      | none => none
      | some c' =>
        if c' ∈ f.Invisible then none
        else some ((f.glyph c').spriteno,
          (⟨x + f.advance c + lineWidth f (line.take j) + (f.glyph c').underhang, y⟩ :
            position2d))) := by
    funext j
    simp only [Function.comp, Nat.succ_eq_add_one, List.get?_cons_succ, List.take_succ_cons]
    have : lineWidth f (c :: line.take j) = f.advance c + lineWidth f (line.take j) := by
      simp [lineWidth]
    rw [this]
    cases line.get? j with
    | none => rfl
    | some c' => simp only [add_assoc]
  rw [htail]
  by_cases hinv : c ∈ f.Invisible <;> simp [hinv]

theorem nextLine_eq (f : CGUIFont) (position : rect) (hcenter : Bool) (shift x y : Int) :
    nextLine f position hcenter shift ⟨x, y⟩ =
      ⟨lineStart position hcenter shift, y + f.MaxHeight⟩ := by
  simp [nextLine, lineStart]

theorem drawsLines_nil (f : CGUIFont) (position : rect) (hcenter : Bool) (shift : Int) :
    DrawsLines f position hcenter shift [] := by
  intro x y first more hls
  have hls' : ([[]] : List (List Nat)) = first :: more := by simpa [textLines] using hls
  injection hls' with e1 e2
  subst e1 e2
  simp [drawLoop, expectedLine_nil]

theorem drawsLines_break (f : CGUIFont) (position : rect) (hcenter : Bool) (shift : Int)
    (text rest : List Nat)
    (hstep : ∀ offset, drawLoop f position hcenter shift text offset =
      drawLoop f position hcenter shift rest (nextLine f position hcenter shift offset))
    (hlines : textLines text = [] :: textLines rest)
    (ih : DrawsLines f position hcenter shift rest) :
    DrawsLines f position hcenter shift text := by
  intro x y first more hls
  rw [hlines] at hls
  injection hls with e1 e2
  subst e1
  obtain ⟨first', more', hrest⟩ : ∃ a b, textLines rest = a :: b := by
    cases h : textLines rest with
    | nil => exact absurd h (textLines_ne_nil rest)
    | cons a b => exact ⟨a, b, rfl⟩
  have hmore_eq : more = first' :: more' := by rw [← e2, hrest]
  subst hmore_eq
  rw [hstep, nextLine_eq, ih _ _ first' more' hrest, expectedLine_nil]
  have hshift : List.enumFrom 2 more' =
      (List.enumFrom 1 more').map (Prod.map (· + 1) id) := by
    rw [List.map_fst_add_enumFrom_eq_enumFrom]
  simp only [List.nil_append, List.enumFrom_cons, List.flatMap_cons, Nat.cast_one, one_mul]
  rw [show (1 + 1 : Nat) = 2 from rfl, hshift, List.flatMap_map]
  congr 2
  apply List.flatMap_congr
  intro p _
  simp only [Prod.map_fst, Prod.map_snd, id_eq, Nat.cast_add, Nat.cast_one]
  congr 1
  ring

theorem drawsLines_char (f : CGUIFont) (position : rect) (hcenter : Bool) (shift : Int)
    (c : Nat) (rest : List Nat) (a : SFontArea) (ha : f.areaOf c = some a)
    (h13 : c ≠ 13) (h10 : c ≠ 10)
    (ih : DrawsLines f position hcenter shift rest) :
    DrawsLines f position hcenter shift (c :: rest) := by
  intro x y first more hls
  obtain ⟨first', more', hrest, hall⟩ := textLines_char c rest h13 h10
  rw [hall] at hls
  injection hls with e1 e2
  subst e1 e2
  have hadvc : x + a.underhang + (a.width + a.overhang + f.GlobalKerningWidth) =
      x + f.advance c := by
    simp [CGUIFont.advance, ha]; ring
  rw [drawLoop.eq_def]
  simp only [h13, h10, if_false, ha]
  rw [hadvc, ih _ _ first' more' hrest, expectedLine_cons f x y c first' a ha]
  by_cases hinv : c ∈ f.Invisible <;> simp [hinv]

theorem drawsLines (f : CGUIFont) (hL : f.Loaded) (position : rect) (hcenter : Bool)
    (shift : Int) :
    ∀ (n : Nat) (text : List Nat), text.length = n → DrawsLines f position hcenter shift text := by
  intro n
  induction n using Nat.strong_induction_on with
  | _ n ih =>
    intro text hlen
    match text, hlen with
    | [], _ => exact drawsLines_nil f position hcenter shift
    | c :: rest, hlen =>
      have ihrest : DrawsLines f position hcenter shift rest :=
        ih rest.length (by simp at hlen; omega) rest rfl
      by_cases h13 : c = 13
      · subst h13
        match rest, hlen, ihrest with
        | [], _, ihrest =>
          exact drawsLines_break f position hcenter shift [13] [] (fun offset => by
            rw [drawLoop.eq_def]; simp) (by simp [textLines]) ihrest
        | d :: rest', hlen, ihrest =>
          by_cases h10 : d = 10
          · subst h10
            have ih' : DrawsLines f position hcenter shift rest' :=
              ih rest'.length (by simp at hlen; omega) rest' rfl
            exact drawsLines_break f position hcenter shift _ rest' (fun offset => by
              rw [drawLoop.eq_def]; simp) (textLines_crlf rest') ih'
          · exact drawsLines_break f position hcenter shift _ (d :: rest') (fun offset => by
              rw [drawLoop.eq_def]; simp [h10]) (textLines_cr d rest' h10) ihrest
      · by_cases h10 : c = 10
        · subst h10
          exact drawsLines_break f position hcenter shift _ rest (fun offset => by
            rw [drawLoop.eq_def]; simp) (textLines_lf rest) ihrest
        · obtain ⟨a, ha, _⟩ := areaOf_of_loaded f hL c
          exact drawsLines_char f position hcenter shift c rest a ha h13 h10 ihrest

theorem getDimensionLoop_total (f : CGUIFont) (hL : f.Loaded) :
    ∀ (n : Nat) (text : List Nat), text.length = n → ∀ (dim : dimension2d) (w : Nat),
      ∃ r, getDimensionLoop f text dim w = some r := by
  intro n
  induction n using Nat.strong_induction_on with
  | _ n ih =>
    intro text hlen dim w
    match text, hlen with
    | [], _ => exact ⟨_, by rw [getDimensionLoop.eq_def]⟩
    | c :: rest, hlen =>
      have ihrest := ih rest.length (by simp at hlen; omega) rest rfl
      rw [getDimensionLoop.eq_def]
      by_cases h0 : c = 0
      · exact ⟨foldLine dim w (toU32 f.MaxHeight), by simp [h0]⟩
      · by_cases h13 : c = 13
        · subst h13
          match rest, hlen, ihrest with
          | [], _, ihrest => simpa using ihrest _ _
          | d :: rest', hlen, ihrest =>
            by_cases h10 : d = 10
            · subst h10
              simpa using ih rest'.length (by simp at hlen; omega) rest' rfl _ _
            · simpa [h10] using ihrest _ _
        · by_cases h10 : c = 10
          · subst h10
            simpa using ihrest _ _
          · obtain ⟨a, ha, _⟩ := areaOf_of_loaded f hL c
            simpa [h0, h13, h10, ha] using ihrest _ _

theorem getDimension_total (f : CGUIFont) (hL : f.Loaded) (text : List Nat) :
    ∃ dim, f.getDimension text = some dim :=
  getDimensionLoop_total f hL text.length text rfl ⟨0, 0⟩ 0

theorem drawLoop_expected (f : CGUIFont) (hL : f.Loaded) (position : rect) (hcenter : Bool)
    (shift : Int) (text : List Nat) (y : Int) :
    drawLoop f position hcenter shift text ⟨lineStart position hcenter shift, y⟩ =
      some (expectedEntries f (lineStart position hcenter shift) y text) := by
  obtain ⟨first, more, hls⟩ : ∃ a b, textLines text = a :: b := by
    cases h : textLines text with
    | nil => exact absurd h (textLines_ne_nil text)
    | cons a b => exact ⟨a, b, rfl⟩
  rw [drawsLines f hL position hcenter shift text.length text rfl _ _ first more hls]
  simp [expectedEntries, hls, List.enum, List.enumFrom_cons]

/-! ## Claims on layout -/

/-- C6: with no clip rectangle, `draw` on a loaded font hands the sprite batch
exactly the expected draw list: one entry per character of `text` that is
neither part of a line break nor in the invisible set, in string order; the
entry of a character on line `L` is its glyph's `spriteno` at `(x0 + advances of
the earlier characters of the line + its underhang, y0 + L * MaxHeight)`, with
`x0 = position.left + (hcenter ? floor((position.width - measuredWidth) / 2) :
0)` and `y0 = position.top + (vcenter ? floor((position.height -
measuredHeight) / 2) : 0)`, the measure being `getDimension text` read as `s32`
values. -/
theorem draw_no_clip (f : CGUIFont) (text : List Nat) (position : rect)
    (hcenter vcenter : Bool) (hL : f.Loaded) :
    ∃ dim, f.getDimension text = some dim ∧
      f.draw text position hcenter vcenter none = some (.batch (expectedEntries f
        (position.UpperLeftCorner.X +
          (if hcenter then (position.getWidth - toS32 dim.Width) / 2 else 0))
        (position.UpperLeftCorner.Y +
          (if vcenter then (position.getHeight - toS32 dim.Height) / 2 else 0))
        text)) := by
  obtain ⟨dim, hdim⟩ := getDimension_total f hL text
  obtain ⟨bank, hbank⟩ := Option.isSome_iff_exists.mp hL.1
  refine ⟨dim, hdim, ?_⟩
  unfold CGUIFont.draw
  rw [hbank]
  cases hcenter <;> cases vcenter
  · have := drawLoop_expected f hL position false
      ((position.getWidth - toS32 (⟨0, 0⟩ : dimension2d).Width) / 2) text
      position.UpperLeftCorner.Y
    simp [lineStart] at this
    simp [this]
  · have := drawLoop_expected f hL position false ((position.getWidth - toS32 dim.Width) / 2) text
      (position.UpperLeftCorner.Y + (position.getHeight - toS32 dim.Height) / 2)
    simp [lineStart] at this
    simp [hdim, this]
  · have := drawLoop_expected f hL position true ((position.getWidth - toS32 dim.Width) / 2) text
      position.UpperLeftCorner.Y
    simp [lineStart] at this
    simp [hdim, this]
  · have := drawLoop_expected f hL position true ((position.getWidth - toS32 dim.Width) / 2) text
      (position.UpperLeftCorner.Y + (position.getHeight - toS32 dim.Height) / 2)
    simp [lineStart] at this
    simp [hdim, this]

/-- Witness for C6: `"A \r\nBB"` centred both ways in a 100 x 100 rectangle on
the font `abFont`. -/
theorem draw_no_clip_witness :
    ∃ dim, abFont.getDimension [65, 32, 13, 10, 66, 66] = some dim ∧
      abFont.draw [65, 32, 13, 10, 66, 66] ⟨⟨100, 100⟩, ⟨200, 200⟩⟩ true true none =
        some (.batch (expectedEntries abFont
          ((⟨⟨100, 100⟩, ⟨200, 200⟩⟩ : rect).UpperLeftCorner.X +
            (if true = true then
              ((⟨⟨100, 100⟩, ⟨200, 200⟩⟩ : rect).getWidth - toS32 dim.Width) / 2 else 0))
          ((⟨⟨100, 100⟩, ⟨200, 200⟩⟩ : rect).UpperLeftCorner.Y +
            (if true = true then
              ((⟨⟨100, 100⟩, ⟨200, 200⟩⟩ : rect).getHeight - toS32 dim.Height) / 2 else 0))
          [65, 32, 13, 10, 66, 66])) :=
  draw_no_clip abFont [65, 32, 13, 10, 66, 66] ⟨⟨100, 100⟩, ⟨200, 200⟩⟩ true true abFont_loaded

theorem getDimensionLoop_congr (f g : CGUIFont) (ha : ∀ c, f.areaOf c = g.areaOf c)
    (hk : f.GlobalKerningWidth = g.GlobalKerningWidth) (hm : f.MaxHeight = g.MaxHeight) :
    ∀ (n : Nat) (text : List Nat), text.length = n → ∀ (dim : dimension2d) (w : Nat),
      getDimensionLoop f text dim w = getDimensionLoop g text dim w := by
  intro n
  induction n using Nat.strong_induction_on with
  | _ n ih =>
    intro text hlen dim w
    match text, hlen with
    | [], _ => rw [getDimensionLoop.eq_def f, getDimensionLoop.eq_def g, hm]
    | c :: rest, hlen =>
      have ihrest := ih rest.length (by simp at hlen; omega) rest rfl
      rw [getDimensionLoop.eq_def f, getDimensionLoop.eq_def g]
      simp only [hm, hk, ha]
      by_cases h0 : c = 0
      · simp [h0]
      · by_cases h13 : c = 13
        · subst h13
          match rest, hlen, ihrest with
          | [], _, ihrest => simp [ihrest]
          | d :: rest', hlen, ihrest =>
            by_cases h10 : d = 10
            · subst h10
              simp [ih rest'.length (by simp at hlen; omega) rest' rfl]
            · simp [h10, ihrest]
        · by_cases h10 : c = 10
          · subst h10
            simp [ihrest]
          · simp only [h0, h13, h10, if_false]
            cases g.areaOf c with
            | none => rfl
            | some a => simp [ihrest]

theorem drawLoop_tagged (f : CGUIFont) (S : List Nat) (position : rect) (hcenter : Bool)
    (shift : Int) :
    ∀ (n : Nat) (text : List Nat), text.length = n → ∀ offset : position2d,
      drawLoop (f.setInvisibleCharacters S) position hcenter shift text offset =
        (drawLoopTagged f position hcenter shift text offset).map (deleteInvisible S) := by
  intro n
  induction n using Nat.strong_induction_on with
  | _ n ih =>
    intro text hlen offset
    match text, hlen with
    | [], _ =>
      rw [drawLoop.eq_def, drawLoopTagged.eq_def]
      simp [deleteInvisible]
    | c :: rest, hlen =>
      have ihrest := ih rest.length (by simp at hlen; omega) rest rfl
      have hnl : ∀ o, nextLine (f.setInvisibleCharacters S) position hcenter shift o =
          nextLine f position hcenter shift o := fun _ => rfl
      rw [drawLoop.eq_def, drawLoopTagged.eq_def]
      by_cases h13 : c = 13
      · subst h13
        match rest, hlen, ihrest with
        | [], _, ihrest => simp [ihrest, hnl]
        | d :: rest', hlen, ihrest =>
          by_cases h10 : d = 10
          · subst h10
            simp [ih rest'.length (by simp at hlen; omega) rest' rfl, hnl]
          · simp [h10, ihrest, hnl]
      · by_cases h10 : c = 10
        · subst h10
          simp [ihrest, hnl]
        · simp only [h13, h10, if_false]
          rw [show (f.setInvisibleCharacters S).areaOf c = f.areaOf c from rfl]
          cases f.areaOf c with
          | none => rfl
          | some a =>
            simp only [ihrest]
            rw [show (f.setInvisibleCharacters S).GlobalKerningWidth = f.GlobalKerningWidth
              from rfl, show (f.setInvisibleCharacters S).Invisible = S from rfl]
            cases drawLoopTagged f position hcenter shift rest
                ⟨offset.X + a.underhang + (a.width + a.overhang + f.GlobalKerningWidth),
                  offset.Y⟩ with
            | none => rfl
            | some es =>
              by_cases hin : c ∈ S <;> simp [deleteInvisible, hin, List.filter_cons]

theorem drawLoopTagged_tags (f : CGUIFont) (position : rect) (hcenter : Bool) (shift : Int) :
    ∀ (n : Nat) (text : List Nat), text.length = n →
      ∀ (offset : position2d) (entries : List (Nat × Nat × position2d)),
        drawLoopTagged f position hcenter shift text offset = some entries →
        entries.map Prod.fst = (textLines text).flatten := by
  intro n
  induction n using Nat.strong_induction_on with
  | _ n ih =>
    intro text hlen offset entries hres
    match text, hlen with
    | [], _ =>
      rw [drawLoopTagged.eq_def] at hres
      simp only [Option.some.injEq] at hres
      subst hres
      simp [textLines]
    | c :: rest, hlen =>
      have ihrest := ih rest.length (by simp at hlen; omega) rest rfl
      rw [drawLoopTagged.eq_def] at hres
      by_cases h13 : c = 13
      · subst h13
        match rest, hlen, ihrest with
        | [], _, ihrest =>
          simp only [if_true] at hres
          simpa [textLines] using ihrest _ _ hres
        | d :: rest', hlen, ihrest =>
          by_cases h10 : d = 10
          · subst h10
            simp only [if_true] at hres
            rw [textLines_crlf]
            simpa using ih rest'.length (by simp at hlen; omega) rest' rfl _ _ hres
          · simp only [if_true, h10, if_false] at hres
            rw [textLines_cr d rest' h10]
            simpa using ihrest _ _ hres
      · by_cases h10 : c = 10
        · subst h10
          simp only [h13, if_false, if_true] at hres
          rw [textLines_lf]
          simpa using ihrest _ _ hres
        · simp only [h13, h10, if_false] at hres
          obtain ⟨first, more, hrest, hall⟩ := textLines_char c rest h13 h10
          cases ha : f.areaOf c with
          | none => simp [ha] at hres
          | some a =>
            simp only [ha] at hres
            cases hl : drawLoopTagged f position hcenter shift rest
                ⟨offset.X + a.underhang + (a.width + a.overhang + f.GlobalKerningWidth),
                  offset.Y⟩ with
            | none => simp [hl] at hres
            | some es =>
              simp only [hl, Option.some.injEq] at hres
              subst hres
              have := ihrest _ _ hl
              rw [hrest] at this
              rw [hall]
              simpa using this

theorem untagOutcome_batch (S : List Nat) (o : Option (List (Nat × Nat × position2d))) :
    (match o.map (deleteInvisible S) with
      | none => none
      | some entries => some (DrawOutcome.batch entries)) =
    (match o with
      | none => none
      | some entries => some (some entries)).map (untagOutcome S) := by
  cases o <;> rfl

/-- C7: for every font, text, rectangle, centering flags, clip and invisible
set `S`, the outcome of `draw` with invisible set `S` is the outcome of `draw`
with the empty invisible set, read with the character of every entry
(`drawTagged`, whose tags are the characters of the text outside the line
breaks, in order), after deleting the entries that belong to characters in `S`:
no entry of a character in `S` is emitted and every other entry keeps its glyph
index and its pixel position. -/
theorem draw_invisible (f : CGUIFont) (text : List Nat) (position : rect)
    (hcenter vcenter : Bool) (clip : Option rect) (S : List Nat) :
    (f.setInvisibleCharacters []).draw text position hcenter vcenter clip =
        (f.drawTagged text position hcenter vcenter clip).map
          (fun o => match o with
            | none => DrawOutcome.returned
            | some entries => DrawOutcome.batch (entries.map Prod.snd)) ∧
      (f.setInvisibleCharacters S).draw text position hcenter vcenter clip =
        (f.drawTagged text position hcenter vcenter clip).map (untagOutcome S) ∧
      (∀ entries, f.drawTagged text position hcenter vcenter clip = some (some entries) →
        entries.map Prod.fst = (textLines text).flatten) := by
  have key : ∀ S' : List Nat,
      (f.setInvisibleCharacters S').draw text position hcenter vcenter clip =
        (f.drawTagged text position hcenter vcenter clip).map (untagOutcome S') := by
    intro S'
    have hdim : (f.setInvisibleCharacters S').getDimension text = f.getDimension text :=
      getDimensionLoop_congr (f.setInvisibleCharacters S') f (fun _ => rfl) rfl rfl
        text.length text rfl _ _
    unfold CGUIFont.draw CGUIFont.drawTagged
    rw [show (f.setInvisibleCharacters S').SpriteBank = f.SpriteBank from rfl, hdim]
    cases f.SpriteBank with
    | none => rfl
    | some bank =>
      simp only
      cases (if (hcenter || vcenter || clip.isSome) = true then f.getDimension text
          else some ⟨0, 0⟩) with
      | none => rfl
      | some dim =>
        simp only [drawLoop_tagged f S' position hcenter _ text.length text rfl]
        split_ifs <;> first | rfl | exact untagOutcome_batch _ _
  refine ⟨?_, key S, ?_⟩
  · rw [key []]
    congr 1
    funext o
    cases o with
    | none => rfl
    | some entries => simp [untagOutcome, deleteInvisible]
  · intro entries hres
    unfold CGUIFont.drawTagged at hres
    cases hb : f.SpriteBank with
    | none => rw [hb] at hres; simp at hres
    | some bank =>
      rw [hb] at hres
      dsimp only at hres
      generalize (if (hcenter || vcenter || clip.isSome) = true then f.getDimension text
        else some ⟨0, 0⟩) = od at hres
      cases od with
      | none => simp at hres
      | some dim =>
        dsimp only at hres
        split_ifs at hres
        all_goals first
          | (split at hres
             · simp at hres
             · simp only [Option.some.injEq] at hres
               subst hres
               exact drawLoopTagged_tags f position _ _ text.length text rfl _ _
                 (by assumption))
          | simp at hres

theorem clipAgainst_invalid (a b : rect) (h : rect.FullyDisjoint a b) :
    (rect.clipAgainst a b).isValid = false := by
  unfold rect.FullyDisjoint at h
  simp only [rect.clipAgainst, rect.isValid, Bool.and_eq_false_iff, decide_eq_false_iff_not,
    not_le]
  rcases h with h | h | h | h
  · left; exact lt_of_le_of_lt (min_le_left _ _) (lt_of_lt_of_le h (le_max_right _ _))
  · left; exact lt_of_le_of_lt (min_le_right _ _) (lt_of_lt_of_le h (le_max_left _ _))
  · right; exact lt_of_le_of_lt (min_le_left _ _) (lt_of_lt_of_le h (le_max_right _ _))
  · right; exact lt_of_le_of_lt (min_le_right _ _) (lt_of_lt_of_le h (le_max_left _ _))

/-- C8: when the clip rectangle is fully disjoint from the measured text bounds
(origin at the possibly centred offset, size `getDimension text`), `draw`
returns before the sprite batch: no glyph entry is handed over.  The rectangle
operations `clipAgainst` and `isValid` are the ones modelled from the spec. -/
theorem draw_clip_disjoint (f : CGUIFont) (text : List Nat) (position : rect)
    (hcenter vcenter : Bool) (clip bounds : rect)
    (hb : measuredBounds f text position hcenter vcenter = some bounds)
    (hd : rect.FullyDisjoint bounds clip) :
    f.draw text position hcenter vcenter (some clip) = some .returned := by
  unfold measuredBounds at hb
  obtain ⟨dim, hdim, hbd⟩ := Option.map_eq_some'.mp hb
  have hinv := clipAgainst_invalid bounds clip hd
  rw [← hbd] at hinv
  unfold CGUIFont.draw
  cases f.SpriteBank with
  | none => rfl
  | some bank =>
    simp only [Option.isSome_some, Bool.or_true, if_true, hdim]
    cases hcenter <;> cases vcenter <;> simp_all

/-- Witness for C8: `"A"` drawn at the origin, clipped to a rectangle far to
the right of and below its 10 x 16 bounds. -/
theorem draw_clip_disjoint_witness :
    abFont.draw [65] ⟨⟨0, 0⟩, ⟨100, 100⟩⟩ false false (some ⟨⟨50, 50⟩, ⟨60, 60⟩⟩) =
      some .returned :=
  draw_clip_disjoint abFont [65] ⟨⟨0, 0⟩, ⟨100, 100⟩⟩ false false ⟨⟨50, 50⟩, ⟨60, 60⟩⟩
    ⟨⟨0, 0⟩, ⟨10, 16⟩⟩ (by decide) (by decide)

/-! ## Hit-testing -/

theorem getCharacterFromPosLoop_cases (f : CGUIFont) (hL : f.Loaded) (pixel_x : Int) :
    ∀ (text : List Nat) (x : Int) (idx : Nat), 0 ∉ text →
      (∃ i : Nat, i < text.length ∧ pixel_x ≤ x + prefixAdvance f text i ∧
          (∀ j, j < i → x + prefixAdvance f text j < pixel_x) ∧
          getCharacterFromPosLoop f pixel_x text x idx = some ((idx + i : Nat) : Int)) ∨
        ((∀ i, i < text.length → x + prefixAdvance f text i < pixel_x) ∧
          getCharacterFromPosLoop f pixel_x text x idx = some (-1)) := by
  intro text
  induction text with
  | nil =>
    intro x idx _
    right
    exact ⟨fun i hi => absurd hi (by simp), rfl⟩
  | cons c rest ih =>
    intro x idx h0
    have hc0 : c ≠ 0 := fun e => h0 (by simp [e])
    have hrest0 : 0 ∉ rest := fun e => h0 (List.mem_cons_of_mem _ e)
    obtain ⟨a, ha, _⟩ := areaOf_of_loaded f hL c
    have hadv : a.width + a.overhang + a.underhang + f.GlobalKerningWidth = f.advance c := by
      simp [CGUIFont.advance, ha]; ring
    have hpre : ∀ i, prefixAdvance f (c :: rest) (i + 1) = f.advance c + prefixAdvance f rest i := by
      intro i; simp [prefixAdvance, lineWidth]
    have hpre0 : prefixAdvance f (c :: rest) 0 = f.advance c := by
      simp [prefixAdvance, lineWidth]
    rw [getCharacterFromPosLoop.eq_def]
    simp only [hc0, if_false, ha, hadv]
    by_cases hge : x + f.advance c ≥ pixel_x
    · left
      refine ⟨0, by simp, by rw [hpre0]; exact hge, fun j hj => absurd hj (by omega), ?_⟩
      simp [hge]
    · have hlt : x + f.advance c < pixel_x := by omega
      rw [if_neg hge]
      rcases ih (x + f.advance c) (idx + 1) hrest0 with ⟨i, hi, h1, h2, h3⟩ | ⟨h1, h2⟩
      · left
        refine ⟨i + 1, by simp; omega, by rw [hpre]; omega, ?_, ?_⟩
        · intro j hj
          cases j with
          | zero => rw [hpre0]; exact hlt
          | succ j => rw [hpre]; have := h2 j (by omega); omega
        · rw [h3]; congr 2; omega
      · right
        refine ⟨?_, h2⟩
        intro i hi
        cases i with
        | zero => rw [hpre0]; exact hlt
        | succ i => rw [hpre]; have := h1 i (by simp at hi; omega); omega

theorem getCharacterFromPos_cases (f : CGUIFont) (hL : f.Loaded) (text : List Nat)
    (pixel_x : Int) (h0 : 0 ∉ text) :
    (∃ i : Nat, i < text.length ∧ pixel_x ≤ prefixAdvance f text i ∧
        (∀ j, j < i → prefixAdvance f text j < pixel_x) ∧
        f.getCharacterFromPos text pixel_x = some (i : Int)) ∨
      ((∀ i, i < text.length → prefixAdvance f text i < pixel_x) ∧
        f.getCharacterFromPos text pixel_x = some (-1)) := by
  have := getCharacterFromPosLoop_cases f hL pixel_x text 0 0 h0
  simpa [CGUIFont.getCharacterFromPos] using this

/-- C9: for a loaded font, a string `text` and `pixel_x`,
`getCharacterFromPos text pixel_x` returns the smallest index `i` such that the
sum over the characters `0 .. i` of `width + overhang + underhang +
GlobalKerningWidth` is `>= pixel_x`, and `-1` when no index of `text` satisfies
this, in particular for the empty string; carriage returns and line feeds are
characters like the others, resolved through the glyph lookup. -/
theorem getCharacterFromPos_spec (f : CGUIFont) (text : List Nat) (pixel_x : Int)
    (hL : f.Loaded) (h0 : 0 ∉ text) :
    ((∃ i : Nat, i < text.length ∧ pixel_x ≤ prefixAdvance f text i ∧
          (∀ j, j < i → prefixAdvance f text j < pixel_x) ∧
          f.getCharacterFromPos text pixel_x = some (i : Int)) ∨
        ((∀ i, i < text.length → prefixAdvance f text i < pixel_x) ∧
          f.getCharacterFromPos text pixel_x = some (-1))) ∧
      f.getCharacterFromPos [] pixel_x = some (-1) :=
  ⟨getCharacterFromPos_cases f hL text pixel_x h0, rfl⟩

/-- Witness for C9: `"A\nB"` on the font `abFont` at `pixel_x = 11`; the line
feed is looked up like any character. -/
theorem getCharacterFromPos_spec_witness :
    ((∃ i : Nat, i < [65, 10, 66].length ∧ (11 : Int) ≤ prefixAdvance abFont [65, 10, 66] i ∧
          (∀ j, j < i → prefixAdvance abFont [65, 10, 66] j < 11) ∧
          abFont.getCharacterFromPos [65, 10, 66] 11 = some (i : Int)) ∨
        ((∀ i, i < [65, 10, 66].length → prefixAdvance abFont [65, 10, 66] i < 11) ∧
          abFont.getCharacterFromPos [65, 10, 66] 11 = some (-1))) ∧
      abFont.getCharacterFromPos [] 11 = some (-1) :=
  getCharacterFromPos_spec abFont [65, 10, 66] 11 abFont_loaded (by decide)

theorem prefixAdvance_le_lineWidth (f : CGUIFont) (hadv : ∀ c, 0 ≤ f.advance c)
    (text : List Nat) (i : Nat) : prefixAdvance f text i ≤ lineWidth f text := by
  have hsplit : lineWidth f text =
      lineWidth f (text.take (i + 1)) + lineWidth f (text.drop (i + 1)) := by
    conv_lhs => rw [← List.take_append_drop (i + 1) text]
    simp [lineWidth]
  have := lineWidth_nonneg f hadv (text.drop (i + 1))
  unfold prefixAdvance
  omega

theorem prefixAdvance_last (f : CGUIFont) (text : List Nat) :
    prefixAdvance f text (text.length - 1) = lineWidth f text := by
  unfold prefixAdvance
  rw [List.take_of_length_le (by omega)]

/-- C10, the clause that fails as stated: on the empty string the sentinel `-1`
is returned for `pixel_x = 0`, which does not exceed the total advance 0, on a
loaded font with non-negative advances. -/
theorem getCharacterFromPos_sentinel_counterexample :
    abFont.Loaded ∧
      (∀ a ∈ abFont.Areas, 0 ≤ a.underhang + a.width + a.overhang + abFont.GlobalKerningWidth) ∧
      ¬ (abFont.getCharacterFromPos [] 0 = some (-1) ↔ lineWidth abFont [] < 0) := by
  refine ⟨abFont_loaded, by decide, ?_⟩
  intro h
  have := h.mp rfl
  revert this
  decide

/-- C10 as amended: `getCharacterFromPos` is monotonic in `pixel_x`: for a
loaded font, a string `text` and `x1 <= x2`, if the result at `x2` is an index
then the result at `x1` is an index that is `<=` it, and if the result at `x1`
is `-1` then so is the result at `x2`; with non-negative advances and a
non-empty `text`, `-1` is returned exactly when `pixel_x` exceeds the total
advance of `text`. -/
theorem getCharacterFromPos_mono (f : CGUIFont) (text : List Nat) (x1 x2 : Int)
    (hL : f.Loaded) (h0 : 0 ∉ text) (hx : x1 ≤ x2) :
    (∀ i2 : Nat, f.getCharacterFromPos text x2 = some (i2 : Int) →
        ∃ i1 : Nat, i1 ≤ i2 ∧ f.getCharacterFromPos text x1 = some (i1 : Int)) ∧
      (f.getCharacterFromPos text x1 = some (-1) → f.getCharacterFromPos text x2 = some (-1)) ∧
      ((∀ a ∈ f.Areas, 0 ≤ a.underhang + a.width + a.overhang + f.GlobalKerningWidth) →
        text ≠ [] → ∀ pixel_x : Int,
          (f.getCharacterFromPos text pixel_x = some (-1) ↔ lineWidth f text < pixel_x)) := by
  refine ⟨?_, ?_, ?_⟩
  · intro i2 hres
    rcases getCharacterFromPos_cases f hL text x2 h0 with ⟨i, _, hge, _, r2⟩ | ⟨_, r2⟩
    · have hi : i = i2 := by
        rw [r2] at hres
        exact_mod_cast Option.some.inj hres
      subst hi
      rcases getCharacterFromPos_cases f hL text x1 h0 with ⟨i1, _, _, hmin, r1⟩ | ⟨hall, _⟩
      · refine ⟨i1, ?_, r1⟩
        by_contra hlt
        have := hmin i (by omega)
        omega
      · have := hall i (by assumption)
        omega
    · rw [r2] at hres
      have := Option.some.inj hres
      omega
  · intro hres
    rcases getCharacterFromPos_cases f hL text x1 h0 with ⟨i, _, _, _, r1⟩ | ⟨hall, _⟩
    · rw [r1] at hres
      have := Option.some.inj hres
      omega
    · rcases getCharacterFromPos_cases f hL text x2 h0 with ⟨i, hi, hge, _, _⟩ | ⟨_, r2⟩
      · have := hall i hi
        omega
      · exact r2
  · intro hadv hne pixel_x
    have hpos := advance_nonneg f hL hadv
    have hlen : 0 < text.length := List.length_pos.mpr hne
    rcases getCharacterFromPos_cases f hL text pixel_x h0 with ⟨i, _, hge, _, r⟩ | ⟨hall, r⟩
    · have hle := prefixAdvance_le_lineWidth f hpos text i
      constructor
      · intro hres
        rw [r] at hres
        have := Option.some.inj hres
        omega
      · intro hlt
        omega
    · have := hall (text.length - 1) (by omega)
      rw [prefixAdvance_last] at this
      exact ⟨fun _ => this, fun _ => r⟩

/-- Witness for the amended C10: `"AB"` on the font `abFont` at `5 <= 15`. -/
theorem getCharacterFromPos_mono_witness :
    (∀ i2 : Nat, abFont.getCharacterFromPos [65, 66] 15 = some (i2 : Int) →
        ∃ i1 : Nat, i1 ≤ i2 ∧ abFont.getCharacterFromPos [65, 66] 5 = some (i1 : Int)) ∧
      (abFont.getCharacterFromPos [65, 66] 5 = some (-1) →
        abFont.getCharacterFromPos [65, 66] 15 = some (-1)) ∧
      ((∀ a ∈ abFont.Areas,
          0 ≤ a.underhang + a.width + a.overhang + abFont.GlobalKerningWidth) →
        [65, 66] ≠ ([] : List Nat) → ∀ pixel_x : Int,
          (abFont.getCharacterFromPos [65, 66] pixel_x = some (-1) ↔
            lineWidth abFont [65, 66] < pixel_x)) :=
  getCharacterFromPos_mono abFont [65, 66] 5 15 abFont_loaded (by decide) (by decide)

/-! ## Claims on failed decoding, on the vertical kerning and on the horizontal kerning -/

/-- C15: if no image was decoded (null image) or the image's colour format is
none of R5G6B5, A1R5G5B5, A8R8G8B8, R8G8B8, `loadTexture` returns false and
leaves the font as it was: `Areas`, `CharacterMap`, `WrongCharacter`,
`MaxHeight` and the sprite bank's boxes, sprites and textures are unchanged, no
pixel having been scanned. -/
theorem loadTexture_no_image (copyTo : ECOLOR_FORMAT → IImage → IImage) (f : CGUIFont)
    (image : Option IImage)
    (h : image = none ∨ ∃ img, image = some img ∧ img.Format = .ECF_UNKNOWN) :
    f.loadTexture copyTo image = (false, f) := by
  rcases h with h | ⟨img, h, hfmt⟩
  · subst h
    rfl
  · subst h
    unfold CGUIFont.loadTexture
    cases f.SpriteBank with
    | none => rfl
    | some bank => simp [tmpImageOf, hfmt]

/-- Witness for C15: the null image on the font `abFont`. -/
theorem loadTexture_no_image_witness :
    abFont.loadTexture (fun _ i => i) none = (false, abFont) :=
  loadTexture_no_image (fun _ i => i) abFont none (Or.inl rfl)

theorem drawLoop_congr (f g : CGUIFont) (ha : ∀ c, f.areaOf c = g.areaOf c)
    (hk : f.GlobalKerningWidth = g.GlobalKerningWidth) (hm : f.MaxHeight = g.MaxHeight)
    (hi : f.Invisible = g.Invisible) (position : rect) (hcenter : Bool) (shift : Int) :
    ∀ (n : Nat) (text : List Nat), text.length = n → ∀ offset : position2d,
      drawLoop f position hcenter shift text offset =
        drawLoop g position hcenter shift text offset := by
  have hnl : ∀ o, nextLine f position hcenter shift o = nextLine g position hcenter shift o := by
    intro o; simp [nextLine, hm]
  intro n
  induction n using Nat.strong_induction_on with
  | _ n ih =>
    intro text hlen offset
    match text, hlen with
    | [], _ => rw [drawLoop.eq_def f, drawLoop.eq_def g]
    | c :: rest, hlen =>
      have ihrest := ih rest.length (by simp at hlen; omega) rest rfl
      rw [drawLoop.eq_def f, drawLoop.eq_def g]
      simp only [hnl, hk, ha, hi]
      by_cases h13 : c = 13
      · subst h13
        match rest, hlen, ihrest with
        | [], _, ihrest => simp [ihrest]
        | d :: rest', hlen, ihrest =>
          by_cases h10 : d = 10
          · subst h10
            simp [ih rest'.length (by simp at hlen; omega) rest' rfl]
          · simp [h10, ihrest]
      · by_cases h10 : c = 10
        · subst h10
          simp [ihrest]
        · simp only [h13, h10, if_false]
          cases g.areaOf c with
          | none => rfl
          | some a => simp [ihrest]

theorem getCharacterFromPosLoop_congr (f g : CGUIFont) (ha : ∀ c, f.areaOf c = g.areaOf c)
    (hk : f.GlobalKerningWidth = g.GlobalKerningWidth) (pixel_x : Int) :
    ∀ (text : List Nat) (x : Int) (idx : Nat),
      getCharacterFromPosLoop f pixel_x text x idx = getCharacterFromPosLoop g pixel_x text x idx := by
  intro text
  induction text with
  | nil => intro x idx; rfl
  | cons c rest ih =>
    intro x idx
    rw [getCharacterFromPosLoop.eq_def f, getCharacterFromPosLoop.eq_def g]
    simp only [ha, hk]
    by_cases h0 : c = 0
    · simp [h0]
    · simp only [h0, if_false]
      cases g.areaOf c with
      | none => rfl
      | some a => simp [ih]

theorem draw_congr (f g : CGUIFont) (hb : f.SpriteBank = g.SpriteBank)
    (ha : ∀ c, f.areaOf c = g.areaOf c)
    (hk : f.GlobalKerningWidth = g.GlobalKerningWidth) (hm : f.MaxHeight = g.MaxHeight)
    (hi : f.Invisible = g.Invisible) (text : List Nat) (position : rect)
    (hcenter vcenter : Bool) (clip : Option rect) :
    f.draw text position hcenter vcenter clip = g.draw text position hcenter vcenter clip := by
  have hdim : f.getDimension text = g.getDimension text :=
    getDimensionLoop_congr f g ha hk hm text.length text rfl _ _
  unfold CGUIFont.draw
  rw [hb, hdim]
  cases g.SpriteBank with
  | none => rfl
  | some bank =>
    simp only
    cases (if (hcenter || vcenter || clip.isSome) = true then g.getDimension text
        else some ⟨0, 0⟩) with
    | none => rfl
    | some dim =>
      simp only [drawLoop_congr f g ha hk hm hi position hcenter _ text.length text rfl]

/-- C19: the vertical kerning bias takes no part in measuring, layout or
hit-testing: `setKerningHeight v` changes only `GlobalKerningHeight`, and
`getDimension text`, the outcome of `draw` and `getCharacterFromPos text
pixel_x` are the same before and after the call; of the value of `getKerning`
only the `Y` component changes, to `v`. -/
theorem setKerningHeight_frame (f : CGUIFont) (v : Int) :
    ((f.setKerningHeight v).SpriteBank = f.SpriteBank ∧
        (f.setKerningHeight v).Areas = f.Areas ∧
        (f.setKerningHeight v).CharacterMap = f.CharacterMap ∧
        (f.setKerningHeight v).WrongCharacter = f.WrongCharacter ∧
        (f.setKerningHeight v).MaxHeight = f.MaxHeight ∧
        (f.setKerningHeight v).GlobalKerningWidth = f.GlobalKerningWidth ∧
        (f.setKerningHeight v).Invisible = f.Invisible ∧
        (f.setKerningHeight v).GlobalKerningHeight = v) ∧
      (∀ text, (f.setKerningHeight v).getDimension text = f.getDimension text) ∧
      (∀ text position hcenter vcenter clip,
        (f.setKerningHeight v).draw text position hcenter vcenter clip =
          f.draw text position hcenter vcenter clip) ∧
      (∀ text pixel_x,
        (f.setKerningHeight v).getCharacterFromPos text pixel_x =
          f.getCharacterFromPos text pixel_x) ∧
      (∀ thisLetter previousLetter,
        (f.setKerningHeight v).getKerning thisLetter previousLetter =
          (f.getKerning thisLetter previousLetter).map fun r => ⟨r.X, v⟩) := by
  refine ⟨⟨rfl, rfl, rfl, rfl, rfl, rfl, rfl, rfl⟩, ?_, ?_, ?_, ?_⟩
  · intro text
    exact getDimensionLoop_congr (f.setKerningHeight v) f (fun _ => rfl) rfl rfl
      text.length text rfl _ _
  · intro text position hcenter vcenter clip
    exact draw_congr (f.setKerningHeight v) f rfl (fun _ => rfl) rfl rfl rfl
      text position hcenter vcenter clip
  · intro text pixel_x
    exact getCharacterFromPosLoop_congr (f.setKerningHeight v) f (fun _ => rfl) rfl
      pixel_x text 0 0
  · intro a b
    unfold CGUIFont.getKerning
    rw [show (f.setKerningHeight v).areaOf a = f.areaOf a from rfl,
      show (f.setKerningHeight v).areaOf b = f.areaOf b from rfl,
      show (f.setKerningHeight v).GlobalKerningWidth = f.GlobalKerningWidth from rfl,
      show (f.setKerningHeight v).GlobalKerningHeight = v from rfl]
    by_cases h1 : a = 0
    · simp [h1]
    · simp only [ne_eq, h1, not_false_eq_true, if_true]
      cases f.areaOf a with
      | none => rfl
      | some x =>
        by_cases h2 : b = 0
        · simp [h2]
        · simp only [ne_eq, h2, not_false_eq_true, if_true]
          cases f.areaOf b with
          | none => rfl
          | some y => rfl

theorem toU32_lt (i : Int) : toU32 i < 4294967296 := by
  have h1 := toU32_cast i
  have h2 : i % 4294967296 < 4294967296 := Int.emod_lt_of_pos _ (by norm_num)
  omega

theorem getDimensionLoop_single (f : CGUIFont) :
    ∀ (text : List Nat) (dim : dimension2d) (w : Nat), w < 4294967296 →
      (∀ c ∈ text, c ≠ 0 ∧ c ≠ 10 ∧ c ≠ 13) → (∀ c ∈ text, ∃ a, f.areaOf c = some a) →
      getDimensionLoop f text dim w =
        some (foldLine dim (toU32 ((w : Int) + lineWidth f text)) (toU32 f.MaxHeight)) := by
  intro text
  induction text with
  | nil =>
    intro dim w hw _ _
    have : toU32 ((w : Int) + lineWidth f []) = w := by
      have := toU32_of_range (w : Int) (by omega) (by omega)
      simp only [lineWidth, List.map_nil, List.sum_nil, add_zero]
      omega
    rw [this, getDimensionLoop.eq_def]
  | cons c rest ih =>
    intro dim w _ hnb hlook
    obtain ⟨h0, h10, h13⟩ := hnb c (List.mem_cons_self _ _)
    obtain ⟨a, ha⟩ := hlook c (List.mem_cons_self _ _)
    have hadv : f.advance c = a.underhang + a.width + a.overhang + f.GlobalKerningWidth := by
      simp [CGUIFont.advance, ha]
    have hlw : lineWidth f (c :: rest) = f.advance c + lineWidth f rest := by
      simp [lineWidth]
    rw [getDimensionLoop.eq_def]
    simp only [h0, h13, h10, if_false, ha]
    rw [ih dim _ (toU32_lt _) (fun d hd => hnb d (List.mem_cons_of_mem _ hd))
      (fun d hd => hlook d (List.mem_cons_of_mem _ hd)), toU32_add, add_assoc, toU32_add,
      hlw, hadv]
    congr 3
    ring

theorem lineWidth_setKerningWidth (f : CGUIFont) (v : Int) :
    ∀ text : List Nat, (∀ c ∈ text, ∃ a, f.areaOf c = some a) →
      lineWidth (f.setKerningWidth v) text =
        lineWidth (f.setKerningWidth 0) text + (text.length : Int) * v := by
  intro text
  induction text with
  | nil => intro _; simp [lineWidth]
  | cons c rest ih =>
    intro hlook
    obtain ⟨a, ha⟩ := hlook c (List.mem_cons_self _ _)
    have h1 : ∀ u : Int, (f.setKerningWidth u).advance c =
        a.underhang + a.width + a.overhang + u := by
      intro u
      have : (f.setKerningWidth u).areaOf c = some a := ha
      unfold CGUIFont.advance
      rw [this]
      rfl
    have hrest := ih (fun d hd => hlook d (List.mem_cons_of_mem _ hd))
    have e1 : ∀ u : Int, lineWidth (f.setKerningWidth u) (c :: rest) =
        (f.setKerningWidth u).advance c + lineWidth (f.setKerningWidth u) rest := by
      intro u; simp [lineWidth]
    rw [e1 v, e1 0, h1 v, h1 0, hrest]
    simp only [List.length_cons, Nat.cast_add, Nat.cast_one]
    ring

/-- C11, as stated, fails: on the font `abFont` the one-character string `"A"`
measures 10 with kerning 0 and 11 with kerning 1; the widths differ by 1 and
not by `(charCount - 1) * (v2 - v1) = 0`. -/
theorem getDimension_kerning_counterexample :
    (abFont.setKerningWidth 0).getDimension [65] = some ⟨10, 16⟩ ∧
      (abFont.setKerningWidth 1).getDimension [65] = some ⟨11, 16⟩ ∧
      (11 : Int) - 10 ≠ ((([65] : List Nat).length : Int) - 1) * (1 - 0) := by
  decide

/-- C11 as amended: for a loaded font, a string `text` of `charCount`
characters containing no line break, and kerning values `v1` and `v2` (no
32-bit overflow: both line sums lie in the `u32` range), the width returned by
`getDimension text` after `setKerningWidth v2` minus the width returned after
`setKerningWidth v1` equals `charCount * (v2 - v1)`: the kerning is added once
per character. -/
theorem getDimension_kerning (f : CGUIFont) (text : List Nat) (v1 v2 : Int)
    (hL : f.Loaded) (hnb : ∀ c ∈ text, c ≠ 0 ∧ c ≠ 10 ∧ c ≠ 13)
    (h1 : 0 ≤ lineWidth (f.setKerningWidth v1) text ∧
      lineWidth (f.setKerningWidth v1) text < 4294967296)
    (h2 : 0 ≤ lineWidth (f.setKerningWidth v2) text ∧
      lineWidth (f.setKerningWidth v2) text < 4294967296) :
    ∃ d1 d2, (f.setKerningWidth v1).getDimension text = some d1 ∧
      (f.setKerningWidth v2).getDimension text = some d2 ∧
      (d2.Width : Int) - (d1.Width : Int) = (text.length : Int) * (v2 - v1) := by
  have hlook : ∀ c ∈ text, ∃ a, f.areaOf c = some a := fun c _ =>
    let ⟨a, ha, _⟩ := areaOf_of_loaded f hL c
    ⟨a, ha⟩
  have hmeasure : ∀ v : Int, 0 ≤ lineWidth (f.setKerningWidth v) text →
      lineWidth (f.setKerningWidth v) text < 4294967296 →
      ∃ d, (f.setKerningWidth v).getDimension text = some d ∧
        (d.Width : Int) = lineWidth (f.setKerningWidth v) text := by
    intro v hv0 hv1
    refine ⟨_, getDimensionLoop_single (f.setKerningWidth v) text ⟨0, 0⟩ 0 (by norm_num) hnb
      hlook, ?_⟩
    rw [foldLine_width]
    simp only [Nat.cast_zero, zero_add]
    rw [toU32_of_range _ hv0 hv1]
    exact max_eq_right hv0
  obtain ⟨d1, hd1, hw1⟩ := hmeasure v1 h1.1 h1.2
  obtain ⟨d2, hd2, hw2⟩ := hmeasure v2 h2.1 h2.2
  refine ⟨d1, d2, hd1, hd2, ?_⟩
  rw [hw1, hw2, lineWidth_setKerningWidth f v1 text hlook,
    lineWidth_setKerningWidth f v2 text hlook]
  ring

/-- Witness for the amended C11: `"AB"` on the font `abFont`, kerning 0 against
kerning 3. -/
theorem getDimension_kerning_witness :
    ∃ d1 d2, (abFont.setKerningWidth 0).getDimension [65, 66] = some d1 ∧
      (abFont.setKerningWidth 3).getDimension [65, 66] = some d2 ∧
      (d2.Width : Int) - (d1.Width : Int) = (([65, 66] : List Nat).length : Int) * (3 - 0) :=
  getDimension_kerning abFont [65, 66] 0 3 abFont_loaded (by decide) (by decide) (by decide)

/-! ## The glyph lookup stays inside `Areas` -/

theorem scanPixels_lookupsInside (cTL cLR cBG : Nat) (ps : List (Nat × Nat)) :
    ∀ s : ParseState, LookupsInside s.Areas.length s.CharacterMap →
      s.lowerRightPositions ≤ s.Areas.length →
      LookupsInside (scanPixels cTL cLR cBG ps s).Areas.length
          (scanPixels cTL cLR cBG ps s).CharacterMap ∧
        s.Areas.length ≤ (scanPixels cTL cLR cBG ps s).Areas.length := by
  induction ps with
  | nil => intro s h _; exact ⟨h, le_refl _⟩
  | cons p rest ih =>
    obtain ⟨x, y⟩ := p
    intro s h hl
    simp only [scanPixels]
    split_ifs
    · exact ih (openBox s x y) h hl
    · exact ⟨h, le_refl _⟩
    · have hA : (closeBox s x y).Areas.length = s.Areas.length + 1 := by simp [closeBox]
      have hC : ∀ c, (closeBox s x y).CharacterMap c =
          if c = s.lowerRightPositions + 32 then some s.lowerRightPositions
          else s.CharacterMap c := fun _ => rfl
      have hL : (closeBox s x y).lowerRightPositions = s.lowerRightPositions + 1 := rfl
      obtain ⟨g1, g2⟩ := ih (closeBox s x y) (by
        intro c i hci
        rw [hC c] at hci
        rw [hA]
        split at hci
        · have := Option.some.inj hci
          omega
        · have := h c i hci
          omega) (by rw [hA, hL]; omega)
      exact ⟨g1, by omega⟩
    · exact ih (clearPixel s x y) h hl
    · exact ih s h hl

theorem loadTexture_wrongCharacter (copyTo : ECOLOR_FORMAT → IImage → IImage) (f : CGUIFont)
    (image tmpImage : IImage) (bank : IGUISpriteBank)
    (hb : f.SpriteBank = some bank) (ht : tmpImageOf copyTo image = some tmpImage) :
    (f.loadTexture copyTo (some image)).2.WrongCharacter =
        (match (scanResult f bank tmpImage).CharacterMap 32 with
          | some n => n
          | none => f.WrongCharacter) ∧
      (f.loadTexture copyTo (some image)).2.GlobalKerningWidth = f.GlobalKerningWidth ∧
      (f.loadTexture copyTo (some image)).2.GlobalKerningHeight = f.GlobalKerningHeight ∧
      (f.loadTexture copyTo (some image)).2.Invisible = f.Invisible := by
  unfold CGUIFont.loadTexture
  simp only [hb, ht, CGUIFont.readPositions]
  rw [show scanPixels (colorTopLeft tmpImage) (colorLowerRight tmpImage) (colorBackGround tmpImage)
      (scanOrder tmpImage.Width tmpImage.Height)
      ⟨prepared tmpImage, bank, f.Areas, f.CharacterMap, 0⟩ = scanResult f bank tmpImage from rfl]
  cases hret : (!(scanResult f bank tmpImage).bank.Sprites.isEmpty &&
      (scanResult f bank tmpImage).lowerRightPositions != 0) <;>
    simp [hret, CGUIFont.setMaxHeight, CGUIFont.getAreaFromCharacter]

theorem loadTexture_unchanged (copyTo : ECOLOR_FORMAT → IImage → IImage) (f : CGUIFont)
    (image : Option IImage)
    (h : image = none ∨ f.SpriteBank = none ∨
      ∃ img, image = some img ∧ tmpImageOf copyTo img = none) :
    f.loadTexture copyTo image = (false, f) := by
  unfold CGUIFont.loadTexture
  rcases h with h | h | ⟨img, h, ht⟩
  · subst h; rfl
  · rw [h]; cases image <;> rfl
  · subst h
    cases f.SpriteBank with
    | none => rfl
    | some bank => simp [ht]

theorem reachable_lookupsInside (f : CGUIFont) (hr : Reachable f) :
    LookupsInside f.Areas.length f.CharacterMap ∧
      (f.WrongCharacter = 0 ∨ f.WrongCharacter < f.Areas.length) := by
  induction hr with
  | constructed bank =>
    exact ⟨fun c i h => by simp [CGUIFont.fresh] at h, Or.inl rfl⟩
  | @loadTexture copyTo image f _ ih =>
    by_cases hun : image = none ∨ f.SpriteBank = none ∨
        ∃ img, image = some img ∧ tmpImageOf copyTo img = none
    · rw [loadTexture_unchanged copyTo f image hun]
      exact ih
    · obtain ⟨img, himg⟩ : ∃ img, image = some img := by
        cases image with
        | none => exact absurd (Or.inl rfl) hun
        | some img => exact ⟨img, rfl⟩
      subst himg
      obtain ⟨bank, hb⟩ : ∃ bank, f.SpriteBank = some bank := by
        cases hb : f.SpriteBank with
        | none => exact absurd (Or.inr (Or.inl hb)) hun
        | some bank => exact ⟨bank, rfl⟩
      obtain ⟨tmpImage, ht⟩ : ∃ tmpImage, tmpImageOf copyTo img = some tmpImage := by
        cases ht : tmpImageOf copyTo img with
        | none => exact absurd (Or.inr (Or.inr ⟨img, rfl, ht⟩)) hun
        | some tmpImage => exact ⟨tmpImage, rfl⟩
      obtain ⟨_, h2, h3, _⟩ := loadTexture_eq copyTo f img tmpImage bank hb ht
      obtain ⟨hw, _⟩ := loadTexture_wrongCharacter copyTo f img tmpImage bank hb ht
      obtain ⟨g1, g2⟩ := scanPixels_lookupsInside (colorTopLeft tmpImage)
        (colorLowerRight tmpImage) (colorBackGround tmpImage)
        (scanOrder tmpImage.Width tmpImage.Height)
        ⟨prepared tmpImage, bank, f.Areas, f.CharacterMap, 0⟩ ih.1 (Nat.zero_le _)
      change LookupsInside (scanResult f bank tmpImage).Areas.length
        (scanResult f bank tmpImage).CharacterMap at g1
      change f.Areas.length ≤ (scanResult f bank tmpImage).Areas.length at g2
      rw [h2, h3, hw]
      refine ⟨g1, ?_⟩
      cases hm : (scanResult f bank tmpImage).CharacterMap 32 with
      | none =>
        rcases ih.2 with e | e
        · exact Or.inl e
        · exact Or.inr (by simp only; omega)
      | some n => exact Or.inr (g1 32 n hm)
  | setKerningWidth v _ ih => exact ih
  | setKerningHeight v _ ih => exact ih
  | setInvisibleCharacters s _ ih => exact ih

theorem getAreaFromCharacter_lt (f : CGUIFont) (hr : Reachable f) (hg : f.Areas ≠ []) (c : Nat) :
    f.getAreaFromCharacter c < f.Areas.length := by
  obtain ⟨h1, h2⟩ := reachable_lookupsInside f hr
  have hpos : 0 < f.Areas.length := List.length_pos.mpr hg
  unfold CGUIFont.getAreaFromCharacter
  cases hm : f.CharacterMap c with
  | none => simp only; omega
  | some n => exact h1 c n hm

theorem getDimensionLoop_defined (f : CGUIFont) (hlook : ∀ c, ∃ a, f.areaOf c = some a) :
    ∀ (n : Nat) (text : List Nat), text.length = n → ∀ (dim : dimension2d) (w : Nat),
      ∃ r, getDimensionLoop f text dim w = some r := by
  intro n
  induction n using Nat.strong_induction_on with
  | _ n ih =>
    intro text hlen dim w
    match text, hlen with
    | [], _ => exact ⟨_, by rw [getDimensionLoop.eq_def]⟩
    | c :: rest, hlen =>
      have ihrest := ih rest.length (by simp at hlen; omega) rest rfl
      rw [getDimensionLoop.eq_def]
      by_cases h0 : c = 0
      · exact ⟨foldLine dim w (toU32 f.MaxHeight), by simp [h0]⟩
      · by_cases h13 : c = 13
        · subst h13
          match rest, hlen, ihrest with
          | [], _, ihrest => simpa using ihrest _ _
          | d :: rest', hlen, ihrest =>
            by_cases h10 : d = 10
            · subst h10
              simpa using ih rest'.length (by simp at hlen; omega) rest' rfl _ _
            · simpa [h10] using ihrest _ _
        · by_cases h10 : c = 10
          · subst h10
            simpa using ihrest _ _
          · obtain ⟨a, ha⟩ := hlook c
            simpa [h0, h13, h10, ha] using ihrest _ _

theorem drawLoop_defined (f : CGUIFont) (hlook : ∀ c, ∃ a, f.areaOf c = some a)
    (position : rect) (hcenter : Bool) (shift : Int) :
    ∀ (n : Nat) (text : List Nat), text.length = n → ∀ offset : position2d,
      ∃ entries, drawLoop f position hcenter shift text offset = some entries := by
  intro n
  induction n using Nat.strong_induction_on with
  | _ n ih =>
    intro text hlen offset
    match text, hlen with
    | [], _ => exact ⟨[], by rw [drawLoop.eq_def]⟩
    | c :: rest, hlen =>
      have ihrest := ih rest.length (by simp at hlen; omega) rest rfl
      rw [drawLoop.eq_def]
      by_cases h13 : c = 13
      · subst h13
        match rest, hlen, ihrest with
        | [], _, ihrest => simpa using ihrest _
        | d :: rest', hlen, ihrest =>
          by_cases h10 : d = 10
          · subst h10
            simpa using ih rest'.length (by simp at hlen; omega) rest' rfl _
          · simpa [h10] using ihrest _
      · by_cases h10 : c = 10
        · subst h10
          simpa using ihrest _
        · obtain ⟨a, ha⟩ := hlook c
          obtain ⟨es, hes⟩ := ihrest
            ⟨offset.X + a.underhang + (a.width + a.overhang + f.GlobalKerningWidth), offset.Y⟩
          simp only [h13, h10, if_false, ha, hes]
          exact ⟨_, rfl⟩

theorem getCharacterFromPosLoop_defined (f : CGUIFont)
    (hlook : ∀ c, ∃ a, f.areaOf c = some a) (pixel_x : Int) :
    ∀ (text : List Nat) (x : Int) (idx : Nat),
      ∃ i, getCharacterFromPosLoop f pixel_x text x idx = some i := by
  intro text
  induction text with
  | nil => intro x idx; exact ⟨-1, rfl⟩
  | cons c rest ih =>
    intro x idx
    rw [getCharacterFromPosLoop.eq_def]
    by_cases h0 : c = 0
    · exact ⟨-1, by simp [h0]⟩
    · obtain ⟨a, ha⟩ := hlook c
      simp only [h0, if_false, ha]
      split
      · exact ⟨_, rfl⟩
      · exact ih _ _

theorem draw_defined (f : CGUIFont) (hlook : ∀ c, ∃ a, f.areaOf c = some a)
    (text : List Nat) (position : rect) (hcenter vcenter : Bool) (clip : Option rect) :
    ∃ o, f.draw text position hcenter vcenter clip = some o := by
  obtain ⟨dim, hdim⟩ := getDimensionLoop_defined f hlook text.length text rfl ⟨0, 0⟩ 0
  change f.getDimension text = some dim at hdim
  have key : ∀ (hc : Bool) (shift : Int) (offset : position2d), ∃ o,
      (match drawLoop f position hc shift text offset with
        | none => none
        | some entries => some (DrawOutcome.batch entries)) = some o := by
    intro hc shift offset
    obtain ⟨es, hes⟩ := drawLoop_defined f hlook position hc shift text.length text rfl offset
    rw [hes]
    exact ⟨_, rfl⟩
  unfold CGUIFont.draw
  cases f.SpriteBank with
  | none => exact ⟨_, rfl⟩
  | some bank =>
    simp only [hdim]
    split_ifs <;> simp only [] <;> split_ifs <;> first | exact ⟨_, rfl⟩ | exact key _ _ _

/-- C14: the glyph lookup never fails.  In every state reached from the
constructor by calls of `loadTexture`, `setKerningWidth`, `setKerningHeight`
and `setInvisibleCharacters`, once at least one glyph has been parsed
(`Areas` is not empty), `getAreaFromCharacter c` is `CharacterMap[c]` when `c`
is mapped and `WrongCharacter` otherwise, and it is a valid index into `Areas`;
so `getDimension`, `draw` and `getCharacterFromPos` never index outside
`Areas`, whatever the string. -/
theorem lookup_never_fails (f : CGUIFont) (hr : Reachable f) (hg : f.Areas ≠ []) :
    (∀ c, f.getAreaFromCharacter c =
        match f.CharacterMap c with
        | some n => n
        | none => f.WrongCharacter) ∧
      (∀ c, f.getAreaFromCharacter c < f.Areas.length) ∧
      (∀ text, ∃ dim, f.getDimension text = some dim) ∧
      (∀ text position hcenter vcenter clip,
        ∃ outcome, f.draw text position hcenter vcenter clip = some outcome) ∧
      (∀ text pixel_x, ∃ i, f.getCharacterFromPos text pixel_x = some i) := by
  have hlt := getAreaFromCharacter_lt f hr hg
  have hlook : ∀ c, ∃ a, f.areaOf c = some a := by
    intro c
    have h := hlt c
    exact ⟨f.Areas[f.getAreaFromCharacter c], by
      simp [CGUIFont.areaOf, List.getElem?_eq_getElem h]⟩
  refine ⟨fun c => ?_, hlt, ?_, ?_, ?_⟩
  · unfold CGUIFont.getAreaFromCharacter
    cases f.CharacterMap c <;> rfl
  · intro text
    exact getDimensionLoop_defined f hlook text.length text rfl ⟨0, 0⟩ 0
  · intro text position hcenter vcenter clip
    exact draw_defined f hlook text position hcenter vcenter clip
  · intro text pixel_x
    exact getCharacterFromPosLoop_defined f hlook pixel_x text 0 0

/-- The font obtained by loading the sample image `glyphImage` into a freshly
constructed font is a reachable state. -/
theorem glyphFont_reachable :
    Reachable (CGUIFont.fresh.loadTexture (fun _ i => i) (some glyphImage)).2 :=
  Reachable.loadTexture (fun _ i => i) (some glyphImage)
    (Reachable.constructed (some ⟨[], [], []⟩))

/-- Witness for C14: the font loaded from the sample image `glyphImage`. -/
theorem lookup_never_fails_witness :
    (∀ c, (CGUIFont.fresh.loadTexture (fun _ i => i) (some glyphImage)).2.getAreaFromCharacter c =
        match (CGUIFont.fresh.loadTexture (fun _ i => i) (some glyphImage)).2.CharacterMap c with
        | some n => n
        | none => (CGUIFont.fresh.loadTexture (fun _ i => i) (some glyphImage)).2.WrongCharacter) ∧
      (∀ c, (CGUIFont.fresh.loadTexture (fun _ i => i) (some glyphImage)).2.getAreaFromCharacter c <
        (CGUIFont.fresh.loadTexture (fun _ i => i) (some glyphImage)).2.Areas.length) ∧
      (∀ text, ∃ dim,
        (CGUIFont.fresh.loadTexture (fun _ i => i) (some glyphImage)).2.getDimension text =
          some dim) ∧
      (∀ text position hcenter vcenter clip, ∃ outcome,
        (CGUIFont.fresh.loadTexture (fun _ i => i) (some glyphImage)).2.draw text position
          hcenter vcenter clip = some outcome) ∧
      (∀ text pixel_x, ∃ i,
        (CGUIFont.fresh.loadTexture (fun _ i => i) (some glyphImage)).2.getCharacterFromPos text
          pixel_x = some i) :=
  lookup_never_fails _ glyphFont_reachable (by decide)

/-! ## Reloading and failed loads -/

theorem scanPixels_extends (cTL cLR cBG : Nat) (ps : List (Nat × Nat)) :
    ∀ s : ParseState,
      (∃ l, (scanPixels cTL cLR cBG ps s).Areas = s.Areas ++ l) ∧
        (∃ l, (scanPixels cTL cLR cBG ps s).bank.Sprites = s.bank.Sprites ++ l) ∧
        s.bank.Positions.length ≤ (scanPixels cTL cLR cBG ps s).bank.Positions.length ∧
        (∀ c, s.CharacterMap c ≠ none → (scanPixels cTL cLR cBG ps s).CharacterMap c ≠ none) := by
  induction ps with
  | nil => intro s; exact ⟨⟨[], by simp [scanPixels]⟩, ⟨[], by simp [scanPixels]⟩, le_refl _,
      fun _ h => h⟩
  | cons p rest ih =>
    obtain ⟨x, y⟩ := p
    intro s
    simp only [scanPixels]
    split_ifs
    · obtain ⟨h1, h2, h3, h4⟩ := ih (openBox s x y)
      refine ⟨h1, h2, ?_, h4⟩
      have : (openBox s x y).bank.Positions.length = s.bank.Positions.length + 1 := by
        simp [openBox]
      omega
    · exact ⟨⟨[], by simp⟩, ⟨[], by simp⟩, le_refl _, fun _ h => h⟩
    · obtain ⟨⟨l1, h1⟩, ⟨l2, h2⟩, h3, h4⟩ := ih (closeBox s x y)
      obtain ⟨a0, hA⟩ : ∃ a0, (closeBox s x y).Areas = s.Areas ++ [a0] := ⟨_, rfl⟩
      obtain ⟨s0, hS⟩ : ∃ s0, (closeBox s x y).bank.Sprites = s.bank.Sprites ++ [s0] :=
        ⟨_, rfl⟩
      refine ⟨⟨a0 :: l1, ?_⟩, ⟨s0 :: l2, ?_⟩, ?_, ?_⟩
      · rw [h1, hA]; simp
      · rw [h2, hS]; simp
      · have : (closeBox s x y).bank.Positions.length = s.bank.Positions.length := by
          simp [closeBox]
        omega
      · intro c hc
        apply h4 c
        show (if c = s.lowerRightPositions + 32 then some s.lowerRightPositions
          else s.CharacterMap c) ≠ none
        split
        · simp
        · exact hc
    · exact ih (clearPixel s x y)
    · exact ih s

theorem loadTexture_extends (copyTo : ECOLOR_FORMAT → IImage → IImage) (f : CGUIFont)
    (image : Option IImage) :
    (∃ l, (f.loadTexture copyTo image).2.Areas = f.Areas ++ l) ∧
      (∀ c, f.CharacterMap c ≠ none → (f.loadTexture copyTo image).2.CharacterMap c ≠ none) ∧
      (∀ bank, f.SpriteBank = some bank →
        ∃ after, (f.loadTexture copyTo image).2.SpriteBank = some after ∧
          (∃ l, after.Sprites = bank.Sprites ++ l) ∧
          bank.Positions.length ≤ after.Positions.length) := by
  by_cases hun : image = none ∨ f.SpriteBank = none ∨
      ∃ img, image = some img ∧ tmpImageOf copyTo img = none
  · rw [loadTexture_unchanged copyTo f image hun]
    exact ⟨⟨[], by simp⟩, fun _ h => h, fun bank hb => ⟨bank, hb, ⟨[], by simp⟩, le_refl _⟩⟩
  · obtain ⟨img, himg⟩ : ∃ img, image = some img := by
      cases image with
      | none => exact absurd (Or.inl rfl) hun
      | some img => exact ⟨img, rfl⟩
    subst himg
    obtain ⟨bank, hb⟩ : ∃ bank, f.SpriteBank = some bank := by
      cases hb : f.SpriteBank with
      | none => exact absurd (Or.inr (Or.inl hb)) hun
      | some bank => exact ⟨bank, rfl⟩
    obtain ⟨tmpImage, ht⟩ : ∃ tmpImage, tmpImageOf copyTo img = some tmpImage := by
      cases ht : tmpImageOf copyTo img with
      | none => exact absurd (Or.inr (Or.inr ⟨img, rfl, ht⟩)) hun
      | some tmpImage => exact ⟨tmpImage, rfl⟩
    obtain ⟨_, h2, h3, h4⟩ := loadTexture_eq copyTo f img tmpImage bank hb ht
    obtain ⟨g1, g2, g3, g4⟩ := scanPixels_extends (colorTopLeft tmpImage)
      (colorLowerRight tmpImage) (colorBackGround tmpImage)
      (scanOrder tmpImage.Width tmpImage.Height)
      ⟨prepared tmpImage, bank, f.Areas, f.CharacterMap, 0⟩
    change ∃ l, (scanResult f bank tmpImage).Areas = f.Areas ++ l at g1
    change ∃ l, (scanResult f bank tmpImage).bank.Sprites = bank.Sprites ++ l at g2
    change bank.Positions.length ≤ (scanResult f bank tmpImage).bank.Positions.length at g3
    change ∀ c, f.CharacterMap c ≠ none → (scanResult f bank tmpImage).CharacterMap c ≠ none at g4
    refine ⟨by rw [h2]; exact g1, by rw [h3]; exact g4, ?_⟩
    intro bank' hb'
    have : bank' = bank := Option.some.inj (hb'.symm.trans hb)
    subst this
    refine ⟨_, h4, ?_, ?_⟩
    · split <;> simpa [IGUISpriteBank.addTexture] using g2
    · split <;> simpa [IGUISpriteBank.addTexture] using g3

/-- C12, as stated, fails: loading the sample image `glyphImage` twice leaves
four glyph areas, loading it once on a fresh font leaves two. -/
theorem reload_counterexample :
    ((CGUIFont.fresh.loadTexture (fun _ i => i) (some glyphImage)).2.loadTexture
        (fun _ i => i) (some glyphImage)).2.Areas ≠
      (CGUIFont.fresh.loadTexture (fun _ i => i) (some glyphImage)).2.Areas := by
  decide

/-- C12 as amended: reloading appends to the font and does not replace it.
For every font and all images `A` and `B`, after `loadTexture A` followed by
`loadTexture B` the list `Areas` and the sprite list begin with what
`loadTexture A` left, the list of glyph boxes is at least as long, and every
character code mapped after `loadTexture A` is still mapped: the glyph areas,
sprites and character codes of the first load remain reachable. -/
theorem reload_appends (copyTo : ECOLOR_FORMAT → IImage → IImage) (f : CGUIFont)
    (A B : Option IImage) :
    (∃ l, ((f.loadTexture copyTo A).2.loadTexture copyTo B).2.Areas =
        (f.loadTexture copyTo A).2.Areas ++ l) ∧
      (∀ c, (f.loadTexture copyTo A).2.CharacterMap c ≠ none →
        ((f.loadTexture copyTo A).2.loadTexture copyTo B).2.CharacterMap c ≠ none) ∧
      (∀ bankA, (f.loadTexture copyTo A).2.SpriteBank = some bankA →
        ∃ bankAB, ((f.loadTexture copyTo A).2.loadTexture copyTo B).2.SpriteBank = some bankAB ∧
          (∃ l, bankAB.Sprites = bankA.Sprites ++ l) ∧
          bankA.Positions.length ≤ bankAB.Positions.length) :=
  loadTexture_extends copyTo (f.loadTexture copyTo A).2 B

theorem markers_take (tmpImage : IImage) (n : Nat) :
    (markers tmpImage).take n =
      pixelMarkers (colorTopLeft tmpImage) (colorLowerRight tmpImage) (colorBackGround tmpImage)
        (prepared tmpImage) ((scanOrder tmpImage.Width tmpImage.Height).take n) := by
  simp [markers, pixelMarkers, List.map_take]

theorem first_violation (ms : List Marker) (h : ¬ WellFormed ms) :
    ∃ n, ms[n]? = some .lowerRight ∧ WellFormed (ms.take n) ∧
      (ms.take n).count .topLeft ≤ (ms.take n).count .lowerRight := by
  classical
  have hex : ∃ n, n < ms.length ∧ ms[n]? = some .lowerRight ∧
      ¬ (ms.take n).count .lowerRight < (ms.take n).count .topLeft := by
    unfold WellFormed at h
    push_neg at h
    obtain ⟨n, h1, h2, h3⟩ := h
    exact ⟨n, h1, h2, by omega⟩
  refine ⟨Nat.find hex, (Nat.find_spec hex).2.1, ?_, by have := (Nat.find_spec hex).2.2; omega⟩
  intro m hm hlr
  have hmn : m < Nat.find hex := by
    have := List.length_take_le (Nat.find hex) ms
    omega
  have hmlen : m < ms.length := by
    have := List.length_take_le' (Nat.find hex) ms
    omega
  have hget : ms[m]? = some .lowerRight := by
    rw [List.getElem?_take_of_lt hmn] at hlr
    exact hlr
  have htake : (ms.take (Nat.find hex)).take m = ms.take m := by
    rw [List.take_take, Nat.min_eq_left (le_of_lt hmn)]
  rw [htake]
  by_contra hcon
  exact Nat.find_min hex hmn ⟨hmlen, hget, hcon⟩

theorem scanResult_abort (tmpImage : IImage) (n : Nat)
    (hn : (markers tmpImage)[n]? = some .lowerRight)
    (hpre : WellFormed ((markers tmpImage).take n))
    (hno : ((markers tmpImage).take n).count .topLeft ≤
      ((markers tmpImage).take n).count .lowerRight) :
    scanResult CGUIFont.fresh ⟨[], [], []⟩ tmpImage =
      { scanPrefix tmpImage n with lowerRightPositions := 0 } := by
  have hlen : n < (scanOrder tmpImage.Width tmpImage.Height).length := by
    have := (List.getElem?_eq_some_iff.mp hn).1
    simpa [markers, pixelMarkers] using this
  have hsplit : scanOrder tmpImage.Width tmpImage.Height =
      (scanOrder tmpImage.Width tmpImage.Height).take n ++
        (scanOrder tmpImage.Width tmpImage.Height)[n] ::
          (scanOrder tmpImage.Width tmpImage.Height).drop (n + 1) := by
    rw [List.getElem_cons_drop _ n hlen, List.take_append_drop]
  have htake := markers_take tmpImage n
  have hp : classify (colorTopLeft tmpImage) (colorLowerRight tmpImage) (colorBackGround tmpImage)
      ((prepared tmpImage).getPixel (scanOrder tmpImage.Width tmpImage.Height)[n].1
        (scanOrder tmpImage.Width tmpImage.Height)[n].2) = .lowerRight := by
    have := hn
    simp only [markers, pixelMarkers, List.getElem?_map] at this
    rw [List.getElem?_eq_getElem hlen] at this
    simpa using this
  unfold scanResult scanPrefix
  have hnd := scanOrder_nodup tmpImage.Width tmpImage.Height
  rw [hsplit] at hnd
  have := scanPixels_abort (colorTopLeft tmpImage) (colorLowerRight tmpImage)
    (colorBackGround tmpImage) (scanOrder tmpImage.Width tmpImage.Height)[n]
    ((scanOrder tmpImage.Width tmpImage.Height).drop (n + 1))
    ((scanOrder tmpImage.Width tmpImage.Height).take n)
    ⟨prepared tmpImage, ⟨[], [], []⟩, [], fun _ => none, 0⟩ hnd
    (by rw [← htake]; exact (wellFormed_iff_openBoxes _).mp hpre)
    hp (by rw [← htake]; simpa using hno)
  rw [← hsplit] at this
  exact this

theorem scanPrefix_closedBoxes (tmpImage : IImage) (n : Nat)
    (hpre : WellFormed ((markers tmpImage).take n)) :
    ClosedBoxes ⟨prepared tmpImage, ⟨[], [], []⟩, [], fun _ => none, 0⟩ (scanPrefix tmpImage n)
      (((markers tmpImage).take n).count .lowerRight) := by
  have hnd : ((scanOrder tmpImage.Width tmpImage.Height).take n).Nodup :=
    (scanOrder_nodup _ _).sublist (List.take_sublist _ _)
  have := scanPixels_closedBoxes (colorTopLeft tmpImage) (colorLowerRight tmpImage)
    (colorBackGround tmpImage) ((scanOrder tmpImage.Width tmpImage.Height).take n)
    ⟨prepared tmpImage, ⟨[], [], []⟩, [], fun _ => none, 0⟩ hnd
    (by rw [← markers_take]; exact (wellFormed_iff_openBoxes _).mp hpre)
  rw [← markers_take] at this
  exact this

/-- C13, as stated, fails: on the sample image `corruptImage`, whose scan is
aborted after one box was closed, `loadTexture` returns false and `Areas` and
`CharacterMap` are not empty afterwards. -/
theorem loadTexture_false_counterexample :
    (CGUIFont.fresh.loadTexture (fun _ i => i) (some corruptImage)).1 = false ∧
      (CGUIFont.fresh.loadTexture (fun _ i => i) (some corruptImage)).2.Areas ≠ [] ∧
      (CGUIFont.fresh.loadTexture (fun _ i => i) (some corruptImage)).2.CharacterMap 32 ≠ none := by
  decide

/-- C13 as amended: whenever `loadTexture` returns false on a freshly
constructed font, `Areas` and `CharacterMap` hold the `k` glyphs closed before
the scan ended, the codes `32 .. 32 + k - 1` being mapped to them: `k = 0`
(both are empty) unless the scan of a supported image was aborted, at some
pixel number `n`, by a lower-right marker without an open box, and then `k` is
the number of boxes closed before that pixel. -/
theorem loadTexture_false_keeps_closed (copyTo : ECOLOR_FORMAT → IImage → IImage)
    (image : Option IImage)
    (hret : (CGUIFont.fresh.loadTexture copyTo image).1 = false) :
    ∃ k, (CGUIFont.fresh.loadTexture copyTo image).2.Areas.length = k ∧
      (∀ c, (CGUIFont.fresh.loadTexture copyTo image).2.CharacterMap c =
        if 32 ≤ c ∧ c < 32 + k then some (c - 32) else none) ∧
      (k = 0 ∨ ∃ img tmpImage n, image = some img ∧ tmpImageOf copyTo img = some tmpImage ∧
        (markers tmpImage)[n]? = some .lowerRight ∧ WellFormed ((markers tmpImage).take n) ∧
        ((markers tmpImage).take n).count .topLeft ≤
          ((markers tmpImage).take n).count .lowerRight ∧
        k = ((markers tmpImage).take n).count .lowerRight) := by
  have hempty : ∀ c : Nat, (none : Option Nat) =
      if 32 ≤ c ∧ c < 32 + 0 then some (c - 32) else none := by
    intro c
    have : ¬ (32 ≤ c ∧ c < 32 + 0) := by omega
    rw [if_neg this]
  by_cases hun : image = none ∨ CGUIFont.fresh.SpriteBank = none ∨
      ∃ img, image = some img ∧ tmpImageOf copyTo img = none
  · rw [loadTexture_unchanged copyTo CGUIFont.fresh image hun]
    exact ⟨0, rfl, hempty, Or.inl rfl⟩
  · obtain ⟨img, himg⟩ : ∃ img, image = some img := by
      cases image with
      | none => exact absurd (Or.inl rfl) hun
      | some img => exact ⟨img, rfl⟩
    subst himg
    obtain ⟨tmpImage, ht⟩ : ∃ tmpImage, tmpImageOf copyTo img = some tmpImage := by
      cases ht : tmpImageOf copyTo img with
      | none => exact absurd (Or.inr (Or.inr ⟨img, rfl, ht⟩)) hun
      | some tmpImage => exact ⟨tmpImage, rfl⟩
    obtain ⟨h1, h2, h3, _⟩ := loadTexture_eq copyTo CGUIFont.fresh img tmpImage ⟨[], [], []⟩ rfl ht
    by_cases hwf : WellFormed (markers tmpImage)
    · have hscan := scanPixels_closedBoxes (colorTopLeft tmpImage) (colorLowerRight tmpImage)
        (colorBackGround tmpImage) (scanOrder tmpImage.Width tmpImage.Height)
        ⟨prepared tmpImage, ⟨[], [], []⟩, [], fun _ => none, 0⟩ (scanOrder_nodup _ _)
        ((wellFormed_iff_openBoxes _).mp hwf)
      change ClosedBoxes _ (scanResult CGUIFont.fresh ⟨[], [], []⟩ tmpImage)
        ((markers tmpImage).count .lowerRight) at hscan
      obtain ⟨h_l, h_s, _, ⟨newAreas, h_a, h_n⟩, h_c⟩ := hscan
      simp only [List.length_nil, Nat.zero_add, List.nil_append] at h_l h_s h_a h_c
      have hK : (markers tmpImage).count .lowerRight = 0 := by
        by_contra hne
        have hsp : (scanResult CGUIFont.fresh ⟨[], [], []⟩ tmpImage).bank.Sprites ≠ [] := by
          intro h0
          rw [h0] at h_s
          simp at h_s
          omega
        rw [h1, h_l] at hret
        simp [hsp, hne] at hret
      have hlen : newAreas.length = 0 := by
        have := congrArg List.length h_n
        simpa [hK] using this
      refine ⟨0, by rw [h2, h_a, hlen], ?_, Or.inl rfl⟩
      intro c
      rw [h3, h_c c, hK]
    · obtain ⟨n, hn, hpre, hno⟩ := first_violation (markers tmpImage) hwf
      have hres := scanResult_abort tmpImage n hn hpre hno
      obtain ⟨_, _, _, ⟨newAreas, h_a, h_n⟩, h_c⟩ := scanPrefix_closedBoxes tmpImage n hpre
      simp only [Nat.zero_add, List.nil_append] at h_a h_c
      have hlen : newAreas.length = ((markers tmpImage).take n).count .lowerRight := by
        have := congrArg List.length h_n
        simpa using this
      refine ⟨((markers tmpImage).take n).count .lowerRight, ?_, ?_,
        Or.inr ⟨img, tmpImage, n, rfl, ht, hn, hpre, hno, rfl⟩⟩
      · rw [h2, hres]
        simp only
        rw [h_a, hlen]
      · intro c
        rw [h3, hres]
        exact h_c c

/-- Witness for the amended C13: the sample image `corruptImage`. -/
theorem loadTexture_false_keeps_closed_witness :
    ∃ k, (CGUIFont.fresh.loadTexture (fun _ i => i) (some corruptImage)).2.Areas.length = k ∧
      (∀ c, (CGUIFont.fresh.loadTexture (fun _ i => i) (some corruptImage)).2.CharacterMap c =
        if 32 ≤ c ∧ c < 32 + k then some (c - 32) else none) ∧
      (k = 0 ∨ ∃ img tmpImage n, some corruptImage = some img ∧
        tmpImageOf (fun _ i => i) img = some tmpImage ∧
        (markers tmpImage)[n]? = some .lowerRight ∧ WellFormed ((markers tmpImage).take n) ∧
        ((markers tmpImage).take n).count .topLeft ≤
          ((markers tmpImage).take n).count .lowerRight ∧
        k = ((markers tmpImage).take n).count .lowerRight) :=
  loadTexture_false_keeps_closed (fun _ i => i) (some corruptImage) (by decide)

/-! ## The first scanned pixel -/

theorem getPixel_setPixel_same (image : IImage) (x y v : Nat)
    (hx : x < image.Width) (hy : y < image.Height) :
    (image.setPixel x y v).getPixel x y = v := by
  simp [IImage.setPixel, IImage.getPixel, hx, hy]

theorem setPixel_size (image : IImage) (x y v : Nat) :
    (image.setPixel x y v).Width = image.Width ∧ (image.setPixel x y v).Height = image.Height := by
  unfold IImage.setPixel
  split <;> exact ⟨rfl, rfl⟩

theorem prepared_origin (image : IImage) (hw : 0 < image.Width) (hh : 0 < image.Height) :
    (prepared image).getPixel 0 0 = colorTopLeft image := by
  unfold prepared
  rw [getPixel_setPixel_ne _ _ _ _ _ _ (by decide), getPixel_setPixel_same _ _ _ _ hw hh]

theorem toS32_of_lt (n : Nat) (h : n < 2147483648) : (toS32 n).toNat = n := by
  unfold toS32
  have h1 : n % 4294967296 = n := Nat.mod_eq_of_lt (by omega)
  rw [h1, if_pos h]
  simp

theorem scanOrder_head (Width Height : Nat) (hw : 0 < Width) (hw' : Width < 2147483648)
    (hh : 0 < Height) (hh' : Height < 2147483648) :
    ∃ rest, scanOrder Width Height = (0, 0) :: rest := by
  unfold scanOrder
  rw [toS32_of_lt Width hw', toS32_of_lt Height hh']
  obtain ⟨w, rfl⟩ : ∃ w, Width = w + 1 := ⟨Width - 1, by omega⟩
  obtain ⟨h, rfl⟩ : ∃ h, Height = h + 1 := ⟨Height - 1, by omega⟩
  rw [List.range_succ_eq_map h, List.flatMap_cons, List.range_succ_eq_map w]
  exact ⟨_, rfl⟩

theorem markers_head (tmpImage : IImage) (hw : 0 < tmpImage.Width)
    (hw' : tmpImage.Width < 2147483648) (hh : 0 < tmpImage.Height)
    (hh' : tmpImage.Height < 2147483648) :
    ∃ rest, markers tmpImage = .topLeft :: rest := by
  obtain ⟨ps, hps⟩ := scanOrder_head tmpImage.Width tmpImage.Height hw hw' hh hh'
  unfold markers
  rw [hps]
  refine ⟨pixelMarkers (colorTopLeft tmpImage) (colorLowerRight tmpImage)
    (colorBackGround tmpImage) (prepared tmpImage) ps, ?_⟩
  simp [pixelMarkers, prepared_origin tmpImage hw hh, classify]

theorem scanPixels_upperLeft (cTL cLR cBG : Nat) (ps : List (Nat × Nat)) :
    ∀ (s : ParseState) (i : Nat) (r : rect), s.bank.Positions[i]? = some r →
      ∃ r', (scanPixels cTL cLR cBG ps s).bank.Positions[i]? = some r' ∧
        r'.UpperLeftCorner = r.UpperLeftCorner := by
  induction ps with
  | nil => intro s i r h; exact ⟨r, h, rfl⟩
  | cons p rest ih =>
    obtain ⟨x, y⟩ := p
    intro s i r h
    have hi : i < s.bank.Positions.length := (List.getElem?_eq_some_iff.mp h).1
    simp only [scanPixels]
    split_ifs
    · apply ih (openBox s x y) i r
      simp only [openBox]
      rw [List.getElem?_append_left hi]
      exact h
    · exact ⟨r, h, rfl⟩
    · by_cases hin : i = s.lowerRightPositions
      · obtain ⟨r1, h1, h2⟩ := ih (closeBox s x y) i
          { s.bank.Positions.getD s.lowerRightPositions default with
            LowerRightCorner := ⟨x, y⟩ } (by
          simp only [closeBox]
          rw [hin, List.getElem?_set_self (by omega)])
        refine ⟨r1, h1, ?_⟩
        rw [h2]
        simp only
        rw [← hin, List.getD_eq_getElem?_getD, h]
        rfl
      · apply ih (closeBox s x y) i r
        simp only [closeBox]
        rw [List.getElem?_set_ne (fun e => hin e.symm)]
        exact h
    · exact ih (clearPixel s x y) i r h
    · exact ih s i r h

/-- C18: the top-left control pixel is itself the first glyph marker.  For a
supported-format image with at least one pixel (its dimensions in the `s32`
range the loops cast them to), `colorTopLeft` is pixel (0,0) with alpha 255 and
pixel (0,0) holds it when the scan starts; (0,0) is the first pixel scanned and
it is a top-left marker, so that on a freshly constructed font box 0 has its
upper-left corner at (0,0); and every lower-right marker met has a top-left
marker before it. -/
theorem topLeft_pixel_first (copyTo : ECOLOR_FORMAT → IImage → IImage)
    (image tmpImage : IImage) (hfmt : tmpImageOf copyTo image = some tmpImage)
    (hw : 0 < tmpImage.Width) (hw' : tmpImage.Width < 2147483648)
    (hh : 0 < tmpImage.Height) (hh' : tmpImage.Height < 2147483648) :
    colorTopLeft tmpImage = setAlpha (tmpImage.getPixel 0 0) 255 ∧
      colorTopLeft tmpImage / 16777216 = 255 ∧
      (prepared tmpImage).getPixel 0 0 = colorTopLeft tmpImage ∧
      (scanOrder tmpImage.Width tmpImage.Height).head? = some (0, 0) ∧
      (markers tmpImage).head? = some .topLeft ∧
      (∃ bank box, (CGUIFont.fresh.loadTexture copyTo (some image)).2.SpriteBank = some bank ∧
        bank.Positions[0]? = some box ∧ box.UpperLeftCorner = ⟨0, 0⟩) ∧
      (∀ n, (markers tmpImage)[n]? = some .lowerRight →
        1 ≤ ((markers tmpImage).take n).count .topLeft) := by
  obtain ⟨ps, hps⟩ := scanOrder_head tmpImage.Width tmpImage.Height hw hw' hh hh'
  obtain ⟨ms, hms⟩ := markers_head tmpImage hw hw' hh hh'
  have horigin := prepared_origin tmpImage hw hh
  refine ⟨rfl, ?_, horigin, by rw [hps]; rfl, by rw [hms]; rfl, ?_, ?_⟩
  · unfold colorTopLeft setAlpha
    omega
  · obtain ⟨_, _, _, h4⟩ :=
      loadTexture_eq copyTo CGUIFont.fresh image tmpImage ⟨[], [], []⟩ rfl hfmt
    have hstep : scanResult CGUIFont.fresh ⟨[], [], []⟩ tmpImage =
        scanPixels (colorTopLeft tmpImage) (colorLowerRight tmpImage) (colorBackGround tmpImage)
          ps (openBox ⟨prepared tmpImage, ⟨[], [], []⟩, [], fun _ => none, 0⟩ 0 0) := by
      unfold scanResult
      rw [hps]
      show scanPixels _ _ _ ((0, 0) :: ps) ⟨prepared tmpImage, ⟨[], [], []⟩, [], fun _ => none, 0⟩
        = _
      simp [scanPixels, horigin]
    obtain ⟨box, hbox, hul⟩ := scanPixels_upperLeft (colorTopLeft tmpImage)
      (colorLowerRight tmpImage) (colorBackGround tmpImage) ps
      (openBox ⟨prepared tmpImage, ⟨[], [], []⟩, [], fun _ => none, 0⟩ 0 0) 0
      ⟨⟨0, 0⟩, ⟨0, 0⟩⟩ (by simp [openBox])
    rw [← hstep] at hbox
    refine ⟨_, box, h4, ?_, hul⟩
    split <;> simpa [IGUISpriteBank.addTexture] using hbox
  · intro n hn
    rw [hms] at hn ⊢
    cases n with
    | zero => simp at hn
    | succ m => simp

/-- Witness for C18: the sample image `glyphImage`. -/
theorem topLeft_pixel_first_witness :
    colorTopLeft glyphImage = setAlpha (glyphImage.getPixel 0 0) 255 ∧
      colorTopLeft glyphImage / 16777216 = 255 ∧
      (prepared glyphImage).getPixel 0 0 = colorTopLeft glyphImage ∧
      (scanOrder glyphImage.Width glyphImage.Height).head? = some (0, 0) ∧
      (markers glyphImage).head? = some .topLeft ∧
      (∃ bank box,
        (CGUIFont.fresh.loadTexture (fun _ i => i) (some glyphImage)).2.SpriteBank = some bank ∧
        bank.Positions[0]? = some box ∧ box.UpperLeftCorner = ⟨0, 0⟩) ∧
      (∀ n, (markers glyphImage)[n]? = some .lowerRight →
        1 ≤ ((markers glyphImage).take n).count .topLeft) :=
  topLeft_pixel_first (fun _ i => i) glyphImage glyphImage rfl (by decide) (by decide)
    (by decide) (by decide)

/-! ## Boxes are closed in the order they were opened -/

theorem boxesMatch_open (s : ParseState) (tls lrs : List position2d) (x y : Nat)
    (h : BoxesMatch s tls lrs) : BoxesMatch (openBox s x y) (tls ++ [⟨x, y⟩]) lrs := by
  obtain ⟨h1, h2, h3, h4, h5, h6⟩ := h
  refine ⟨by simp [openBox, h1], h2, h3, by simp; omega, ?_, ?_⟩
  · intro i
    show (s.bank.Positions ++ [⟨⟨x, y⟩, ⟨x, y⟩⟩])[i]? = _
    rcases Nat.lt_trichotomy i tls.length with hi | hi | hi
    · rw [List.getElem?_append_left (by omega), List.getElem?_append_left hi]
      exact h5 i
    · subst hi
      have hnone : lrs[tls.length]? = none := List.getElem?_eq_none h4
      rw [← h1, List.getElem?_concat_length, h1, List.getElem?_concat_length, hnone]
      rfl
    · have e1 : (s.bank.Positions ++ [(⟨⟨x, y⟩, ⟨x, y⟩⟩ : rect)])[i]? = none :=
        List.getElem?_eq_none (by simp; omega)
      have e2 : (tls ++ [(⟨x, y⟩ : position2d)])[i]? = none :=
        List.getElem?_eq_none (by simp; omega)
      rw [e1, e2]
      rfl
  · intro i
    show (s.Areas[i]?).map _ = _
    rw [h6 i]
    cases hl : lrs[i]? with
    | none => rfl
    | some l =>
      have hi : i < lrs.length := (List.getElem?_eq_some_iff.mp hl).1
      rw [List.getElem?_append_left (by omega)]

theorem boxesMatch_close (s : ParseState) (tls lrs : List position2d) (x y : Nat)
    (h : BoxesMatch s tls lrs) (hopen : lrs.length < tls.length) :
    BoxesMatch (closeBox s x y) tls (lrs ++ [⟨x, y⟩]) := by
  obtain ⟨h1, h2, h3, h4, h5, h6⟩ := h
  have hnone : lrs[lrs.length]? = none := List.getElem?_eq_none (le_refl _)
  have htl : tls[lrs.length]? = some tls[lrs.length] := List.getElem?_eq_getElem hopen
  have hbox : s.bank.Positions[lrs.length]? = some ⟨tls[lrs.length], tls[lrs.length]⟩ := by
    rw [h5, htl, hnone]; rfl
  have hgetD : s.bank.Positions.getD lrs.length default =
      ⟨tls[lrs.length], tls[lrs.length]⟩ := by
    rw [List.getD_eq_getElem?_getD, hbox]; rfl
  have hpos : (closeBox s x y).bank.Positions =
      s.bank.Positions.set lrs.length ⟨tls[lrs.length], ⟨x, y⟩⟩ := by
    simp only [closeBox, h2, hgetD]
  have harea : (closeBox s x y).Areas =
      s.Areas ++ [⟨0, 0, (x : Int) - (tls[lrs.length]).X, lrs.length⟩] := by
    simp only [closeBox, h2, hgetD]
    rw [List.getD_eq_getElem?_getD, List.getElem?_set_self (by omega)]
    rfl
  have hlastA : (s.Areas ++ [(⟨0, 0, (x : Int) - (tls[lrs.length]).X, lrs.length⟩ :
      SFontArea)])[lrs.length]? = some ⟨0, 0, (x : Int) - (tls[lrs.length]).X, lrs.length⟩ := by
    have := List.getElem?_concat_length s.Areas
      (⟨0, 0, (x : Int) - (tls[lrs.length]).X, lrs.length⟩ : SFontArea)
    rw [h3] at this
    exact this
  have hlastL : (lrs ++ [(⟨x, y⟩ : position2d)])[lrs.length]? = some ⟨x, y⟩ :=
    List.getElem?_concat_length _ _
  refine ⟨by rw [hpos]; simpa using h1, by simp [closeBox, h2], by rw [harea]; simp [h3],
    by simp; omega, ?_, ?_⟩
  · intro i
    rw [hpos]
    by_cases hi : i = lrs.length
    · subst hi
      rw [List.getElem?_set_self (by omega), htl, hlastL]
      rfl
    · rw [List.getElem?_set_ne (fun e => hi e.symm), h5 i]
      by_cases hlt : i < lrs.length
      · rw [List.getElem?_append_left hlt]
      · have e1 : lrs[i]? = none := List.getElem?_eq_none (by omega)
        have e2 : (lrs ++ [(⟨x, y⟩ : position2d)])[i]? = none :=
          List.getElem?_eq_none (by simp; omega)
        rw [e1, e2]
  · intro i
    rw [harea]
    by_cases hi : i = lrs.length
    · subst hi
      rw [hlastA, hlastL, htl]
      rfl
    · by_cases hlt : i < lrs.length
      · rw [List.getElem?_append_left (by omega), List.getElem?_append_left hlt]
        exact h6 i
      · have e1 : (s.Areas ++ [(⟨0, 0, (x : Int) - (tls[lrs.length]).X, lrs.length⟩ :
            SFontArea)])[i]? = none := List.getElem?_eq_none (by simp; omega)
        have e2 : (lrs ++ [(⟨x, y⟩ : position2d)])[i]? = none :=
          List.getElem?_eq_none (by simp; omega)
        rw [e1, e2]
        rfl

theorem scanPixels_image (cTL cLR cBG : Nat) (ps : List (Nat × Nat)) :
    ∀ (s : ParseState) (q : Nat × Nat), q ∉ ps →
      (scanPixels cTL cLR cBG ps s).image.getPixel q.1 q.2 = s.image.getPixel q.1 q.2 := by
  induction ps with
  | nil => intro s q _; rfl
  | cons p rest ih =>
    obtain ⟨x, y⟩ := p
    intro s q hq
    have hne : (q.1, q.2) ≠ (x, y) := fun e => hq (by
      have : q = (x, y) := e
      rw [this]; exact List.mem_cons_self _ _)
    have hrest : q ∉ rest := fun e => hq (List.mem_cons_of_mem _ e)
    have hset : (s.image.setPixel x y 0).getPixel q.1 q.2 = s.image.getPixel q.1 q.2 :=
      getPixel_setPixel_ne _ _ _ _ _ _ hne
    simp only [scanPixels]
    split_ifs
    · rw [ih (openBox s x y) q hrest]; exact hset
    · rfl
    · rw [ih (closeBox s x y) q hrest]; exact hset
    · rw [ih (clearPixel s x y) q hrest]; exact hset
    · exact ih s q hrest

theorem scanPixels_append (cTL cLR cBG : Nat) (post : List (Nat × Nat))
    (pre : List (Nat × Nat)) :
    ∀ s : ParseState, pre.Nodup →
      OpenBoxes s.bank.Positions.length s.lowerRightPositions
        (pixelMarkers cTL cLR cBG s.image pre) →
      scanPixels cTL cLR cBG (pre ++ post) s =
        scanPixels cTL cLR cBG post (scanPixels cTL cLR cBG pre s) := by
  induction pre with
  | nil => intro s _ _; rfl
  | cons q pre ih =>
    obtain ⟨x, y⟩ := q
    intro s hnd hob
    have hx : (x, y) ∉ pre := (List.nodup_cons.mp hnd).1
    have hms : pixelMarkers cTL cLR cBG s.image ((x, y) :: pre) =
        classify cTL cLR cBG (s.image.getPixel x y) :: pixelMarkers cTL cLR cBG s.image pre := rfl
    rw [hms] at hob
    obtain ⟨s1, hstep, himg, hP, hL⟩ := scanPixels_cons cTL cLR cBG x y s (fun hc => by
      rw [hc] at hob; exact hob.head_lowerRight)
    have hmk : pixelMarkers cTL cLR cBG s1.image pre = pixelMarkers cTL cLR cBG s.image pre := by
      rcases himg with e | e
      · rw [e]
      · rw [e]; exact pixelMarkers_setPixel _ _ _ _ _ _ _ _ hx
    rw [List.cons_append, hstep, hstep]
    apply ih s1 (List.nodup_cons.mp hnd).2
    rw [hmk, hP, hL]
    exact hob.tail

theorem OpenBoxes.init {P L : Nat} {m : Marker} {ms : List Marker}
    (h : OpenBoxes P L (ms ++ [m])) :
    OpenBoxes P L ms ∧ (m = .lowerRight → L + ms.count .lowerRight < P + ms.count .topLeft) := by
  constructor
  · intro n hn hlr
    have := h n (by simp; omega) (by rw [List.getElem?_append_left hn]; exact hlr)
    rwa [List.take_append_of_le_length (by omega)] at this
  · intro hm
    have := h ms.length (by simp) (by rw [List.getElem?_concat_length, hm])
    simpa using this

theorem markedPixels_concat (cTL cLR cBG : Nat) (image : IImage) (ps : List (Nat × Nat))
    (x y : Nat) (m : Marker) :
    markedPixels cTL cLR cBG image (ps ++ [(x, y)]) m =
      markedPixels cTL cLR cBG image ps m ++
        (if classify cTL cLR cBG (image.getPixel x y) = m then [(⟨x, y⟩ : position2d)]
          else []) := by
  unfold markedPixels
  rw [List.filter_append, List.map_append]
  congr 1
  by_cases h : classify cTL cLR cBG (image.getPixel x y) = m <;> simp [List.filter_cons, h]

theorem count_pixelMarkers (cTL cLR cBG : Nat) (image : IImage) (ps : List (Nat × Nat))
    (m : Marker) :
    (pixelMarkers cTL cLR cBG image ps).count m = (markedPixels cTL cLR cBG image ps m).length := by
  induction ps with
  | nil => rfl
  | cons p rest ih =>
    have h1 : pixelMarkers cTL cLR cBG image (p :: rest) =
        classify cTL cLR cBG (image.getPixel p.1 p.2) :: pixelMarkers cTL cLR cBG image rest := rfl
    rw [h1, List.count_cons, ih]
    unfold markedPixels
    by_cases h : classify cTL cLR cBG (image.getPixel p.1 p.2) = m <;>
      simp [List.filter_cons, h]

theorem scanPixels_boxesMatch (cTL cLR cBG : Nat) (image0 : IImage) (ps : List (Nat × Nat)) :
    ps.Nodup → OpenBoxes 0 0 (pixelMarkers cTL cLR cBG image0 ps) →
      BoxesMatch (scanPixels cTL cLR cBG ps ⟨image0, ⟨[], [], []⟩, [], fun _ => none, 0⟩)
        (markedPixels cTL cLR cBG image0 ps .topLeft)
        (markedPixels cTL cLR cBG image0 ps .lowerRight) := by
  induction ps using List.reverseRecOn with
  | nil =>
    intro _ _
    refine ⟨rfl, rfl, rfl, le_refl _, fun i => ?_, fun i => ?_⟩ <;>
      simp [scanPixels, markedPixels]
  | append_singleton ps p ih =>
    obtain ⟨x, y⟩ := p
    intro hnd hob
    have hnd' : ps.Nodup := (List.nodup_append.mp hnd).1
    have hp : (x, y) ∉ ps := fun e =>
      (List.nodup_append.mp hnd).2.2 e (List.mem_singleton_self _)
    have hms : pixelMarkers cTL cLR cBG image0 (ps ++ [(x, y)]) =
        pixelMarkers cTL cLR cBG image0 ps ++ [classify cTL cLR cBG (image0.getPixel x y)] := by
      simp [pixelMarkers]
    rw [hms] at hob
    obtain ⟨hob', hlr⟩ := hob.init
    have hih := ih hnd' hob'
    have himg := scanPixels_image cTL cLR cBG ps
      ⟨image0, ⟨[], [], []⟩, [], fun _ => none, 0⟩ (x, y) hp
    simp only at himg
    have happ := scanPixels_append cTL cLR cBG [(x, y)] ps
      ⟨image0, ⟨[], [], []⟩, [], fun _ => none, 0⟩ hnd' hob'
    rw [happ, markedPixels_concat, markedPixels_concat]
    generalize scanPixels cTL cLR cBG ps ⟨image0, ⟨[], [], []⟩, [], fun _ => none, 0⟩ = s
      at hih himg ⊢
    by_cases h1 : image0.getPixel x y = cTL
    · have hc : classify cTL cLR cBG (image0.getPixel x y) = .topLeft := by simp [classify, h1]
      have hs : scanPixels cTL cLR cBG [(x, y)] s = openBox s x y := by
        simp [scanPixels, himg, h1]
      rw [hs, hc]
      simpa using boxesMatch_open s _ _ x y hih
    · by_cases h2 : image0.getPixel x y = cLR
      · have hne : ¬ cLR = cTL := fun e => h1 (h2.trans e)
        have hc : classify cTL cLR cBG (image0.getPixel x y) = .lowerRight := by
          simp [classify, h2, hne]
        have hopen := hlr hc
        rw [count_pixelMarkers, count_pixelMarkers] at hopen
        have hguard : ¬ s.bank.Positions.length ≤ s.lowerRightPositions := by
          rw [hih.1, hih.2.1]; omega
        have hs : scanPixels cTL cLR cBG [(x, y)] s = closeBox s x y := by
          simp [scanPixels, himg, h2, hne, hguard]
        rw [hs, hc]
        simpa using boxesMatch_close s _ _ x y hih (by omega)
      · have hc1 : classify cTL cLR cBG (image0.getPixel x y) ≠ .topLeft := by
          simp only [classify, h1, h2, if_false]; split <;> simp
        have hc2 : classify cTL cLR cBG (image0.getPixel x y) ≠ .lowerRight := by
          simp only [classify, h1, h2, if_false]; split <;> simp
        rw [if_neg hc1, if_neg hc2, List.append_nil, List.append_nil]
        by_cases h3 : image0.getPixel x y = cBG
        · have e1 : ¬ cBG = cTL := fun e => h1 (h3.trans e)
          have e2 : ¬ cBG = cLR := fun e => h2 (h3.trans e)
          have hs : scanPixels cTL cLR cBG [(x, y)] s = clearPixel s x y := by
            simp [scanPixels, himg, h3, e1, e2]
          rw [hs]
          exact hih
        · have hs : scanPixels cTL cLR cBG [(x, y)] s = s := by
            simp [scanPixels, himg, h1, h2, h3]
          rw [hs]
          exact hih

/-! ## Boxes are closed in the order they were opened -/

/-- Claim C16: on a freshly constructed font, when the scan of a supported image
is not aborted (its markers are well formed), the sprite bank holds one box per
top-left marker and `Areas` one entry per lower-right marker; box `N` has its
upper-left corner at the `N`-th top-left marker and its lower-right corner at
the `N`-th lower-right marker, or at its own top-left marker when there is no
`N`-th lower-right marker (the box was never closed); and `Areas[N].width` is
the lower-right `X` minus the upper-left `X` of box `N`. -/
theorem boxes_fifo (copyTo : ECOLOR_FORMAT → IImage → IImage) (image tmpImage : IImage)
    (hfmt : tmpImageOf copyTo image = some tmpImage)
    (hwf : WellFormed (markers tmpImage)) :
    ∃ bank, (CGUIFont.fresh.loadTexture copyTo (some image)).2.SpriteBank = some bank ∧
      bank.Positions.length = (markerPositions .topLeft tmpImage).length ∧
      (CGUIFont.fresh.loadTexture copyTo (some image)).2.Areas.length =
        (markerPositions .lowerRight tmpImage).length ∧
      (∀ (N : Nat) (t : position2d), (markerPositions .topLeft tmpImage)[N]? = some t →
        bank.Positions[N]? = some ⟨t, ((markerPositions .lowerRight tmpImage)[N]?).getD t⟩) ∧
      (∀ (N : Nat) (l : position2d), (markerPositions .lowerRight tmpImage)[N]? = some l →
        ∃ (t : position2d) (a : SFontArea) (box : rect),
          (markerPositions .topLeft tmpImage)[N]? = some t ∧
          bank.Positions[N]? = some box ∧ box.UpperLeftCorner = t ∧ box.LowerRightCorner = l ∧
          (CGUIFont.fresh.loadTexture copyTo (some image)).2.Areas[N]? = some a ∧
          a.width = box.LowerRightCorner.X - box.UpperLeftCorner.X) := by
  obtain ⟨_, h2, _, h4⟩ :=
    loadTexture_eq copyTo CGUIFont.fresh image tmpImage ⟨[], [], []⟩ rfl hfmt
  have hbm := scanPixels_boxesMatch (colorTopLeft tmpImage) (colorLowerRight tmpImage)
    (colorBackGround tmpImage) (prepared tmpImage) (scanOrder tmpImage.Width tmpImage.Height)
    (scanOrder_nodup _ _) ((wellFormed_iff_openBoxes _).mp hwf)
  change BoxesMatch (scanResult CGUIFont.fresh ⟨[], [], []⟩ tmpImage)
    (markerPositions .topLeft tmpImage) (markerPositions .lowerRight tmpImage) at hbm
  obtain ⟨b1, _, b3, b4, b5, b6⟩ := hbm
  have hpos : ∀ bank, (CGUIFont.fresh.loadTexture copyTo (some image)).2.SpriteBank = some bank →
      bank.Positions = (scanResult CGUIFont.fresh ⟨[], [], []⟩ tmpImage).bank.Positions := by
    intro bank hb
    rw [h4] at hb
    have := Option.some.inj hb
    rw [← this]
    split <;> simp [IGUISpriteBank.addTexture]
  refine ⟨_, h4, ?_, ?_, ?_, ?_⟩
  · rw [hpos _ h4]; exact b1
  · rw [h2]; exact b3
  · intro N t ht
    rw [hpos _ h4, b5 N, ht]
    rfl
  · intro N l hl
    have hN : N < (markerPositions .lowerRight tmpImage).length := by
      by_contra hge
      rw [List.getElem?_eq_none (by omega)] at hl
      exact absurd hl (by simp)
    obtain ⟨t, ht⟩ : ∃ t, (markerPositions .topLeft tmpImage)[N]? = some t :=
      ⟨_, List.getElem?_eq_getElem (by omega)⟩
    obtain ⟨a, ha⟩ : ∃ a, (scanResult CGUIFont.fresh ⟨[], [], []⟩ tmpImage).Areas[N]? = some a :=
      ⟨_, List.getElem?_eq_getElem (by omega)⟩
    have hw := b6 N
    rw [ha, hl, ht] at hw
    refine ⟨t, a, ⟨t, l⟩, ht, ?_, rfl, rfl, ?_, ?_⟩
    · rw [hpos _ h4, b5 N, ht, hl]; rfl
    · rw [h2]; exact ha
    · simpa using hw

/-- Witness for C16: the sample image `glyphImage` on a fresh font. -/
theorem boxes_fifo_witness :
    ∃ bank, (CGUIFont.fresh.loadTexture (fun _ i => i) (some glyphImage)).2.SpriteBank =
        some bank ∧
      bank.Positions.length = (markerPositions .topLeft glyphImage).length ∧
      (CGUIFont.fresh.loadTexture (fun _ i => i) (some glyphImage)).2.Areas.length =
        (markerPositions .lowerRight glyphImage).length ∧
      (∀ (N : Nat) (t : position2d), (markerPositions .topLeft glyphImage)[N]? = some t →
        bank.Positions[N]? = some ⟨t, ((markerPositions .lowerRight glyphImage)[N]?).getD t⟩) ∧
      (∀ (N : Nat) (l : position2d), (markerPositions .lowerRight glyphImage)[N]? = some l →
        ∃ (t : position2d) (a : SFontArea) (box : rect),
          (markerPositions .topLeft glyphImage)[N]? = some t ∧
          bank.Positions[N]? = some box ∧ box.UpperLeftCorner = t ∧ box.LowerRightCorner = l ∧
          (CGUIFont.fresh.loadTexture (fun _ i => i) (some glyphImage)).2.Areas[N]? = some a ∧
          a.width = box.LowerRightCorner.X - box.UpperLeftCorner.X) :=
  boxes_fifo (fun _ i => i) glyphImage glyphImage rfl (by decide)

/-! ## Emitted glyphs and the measured bounds -/

theorem mem_textLines : ∀ (n : Nat) (text : List Nat), text.length = n →
    ∀ (line : List Nat) (c : Nat), line ∈ textLines text → c ∈ line → c ∈ text := by
  intro n
  induction n using Nat.strong_induction_on with
  | _ n ih =>
    intro text hlen line c hline hc
    match text, hlen with
    | [], _ =>
      have : line = [] := by simpa [textLines] using hline
      rw [this] at hc
      exact absurd hc (List.not_mem_nil _)
    | d :: rest, hlen =>
      have ihrest := ih rest.length (by simp at hlen ⊢; omega) rest rfl
      have hbreak : ∀ rest' : List Nat, rest'.length < n → (∀ x ∈ rest', x ∈ d :: rest) →
          textLines (d :: rest) = [] :: textLines rest' → c ∈ d :: rest := by
        intro rest' hlt hsub hls
        rw [hls] at hline
        rcases List.mem_cons.mp hline with e | e
        · rw [e] at hc
          exact absurd hc (List.not_mem_nil _)
        · exact hsub c (ih rest'.length hlt rest' rfl line c e hc)
      by_cases h13 : d = 13
      · subst h13
        match rest, hlen with
        | [], hlen =>
          exact hbreak [] (by simp at hlen ⊢; omega) (fun x hx => absurd hx (List.not_mem_nil _))
            (by simp [textLines])
        | d' :: rest', hlen =>
          by_cases h10 : d' = 10
          · subst h10
            exact hbreak rest' (by simp at hlen ⊢; omega)
              (fun x hx => List.mem_cons_of_mem _ (List.mem_cons_of_mem _ hx))
              (textLines_crlf rest')
          · exact hbreak (d' :: rest') (by simp at hlen ⊢; omega)
              (fun x hx => List.mem_cons_of_mem _ hx) (textLines_cr d' rest' h10)
      · by_cases h10 : d = 10
        · subst h10
          exact hbreak rest (by simp at hlen ⊢; omega)
            (fun x hx => List.mem_cons_of_mem _ hx) (textLines_lf rest)
        · obtain ⟨first', more', hrest, hall⟩ := textLines_char d rest h13 h10
          rw [hall] at hline
          rcases List.mem_cons.mp hline with e | e
          · rw [e] at hc
            rcases List.mem_cons.mp hc with e' | e'
            · rw [e']; exact List.mem_cons_self _ _
            · exact List.mem_cons_of_mem _
                (ihrest first' c (by rw [hrest]; exact List.mem_cons_self _ _) e')
          · exact List.mem_cons_of_mem _
              (ihrest line c (by rw [hrest]; exact List.mem_cons_of_mem _ e) hc)

theorem mem_expectedEntries (f : CGUIFont) (x0 y0 : Int) (text : List Nat)
    (e : Nat × position2d) (he : e ∈ expectedEntries f x0 y0 text) :
    ∃ (L : Nat) (ln : List Nat) (j : Nat) (c : Nat),
      (textLines text)[L]? = some ln ∧ ln[j]? = some c ∧ c ∉ f.Invisible ∧
        e = ((f.glyph c).spriteno,
          ⟨x0 + lineWidth f (ln.take j) + (f.glyph c).underhang, y0 + (L : Int) * f.MaxHeight⟩) := by
  unfold expectedEntries at he
  obtain ⟨p, hp, hin⟩ := List.mem_flatMap.mp he
  have hL := List.mem_enum_iff_getElem?.mp hp
  unfold expectedLine at hin
  obtain ⟨j, _, hj⟩ := List.mem_filterMap.mp hin
  cases hc : p.2.get? j with
  | none => rw [hc] at hj; exact absurd hj (by simp)
  | some c =>
    rw [hc] at hj
    simp only at hj
    by_cases hinv : c ∈ f.Invisible
    · rw [if_pos hinv] at hj; exact absurd hj (by simp)
    · rw [if_neg hinv] at hj
      exact ⟨p.1, p.2, j, c, hL, by simpa using hc, hinv, (Option.some.inj hj).symm⟩

theorem lineWidth_take_succ (f : CGUIFont) (ln : List Nat) (j c : Nat)
    (hc : ln[j]? = some c) :
    lineWidth f (ln.take (j + 1)) = lineWidth f (ln.take j) + f.advance c := by
  have hj : j < ln.length := by
    by_contra hge
    rw [List.getElem?_eq_none (by omega)] at hc
    exact absurd hc (by simp)
  have hget : ln[j] = c := by
    rw [List.getElem?_eq_getElem hj] at hc
    exact Option.some.inj hc
  rw [List.take_succ, hc]
  simp [lineWidth]

theorem getDimension_bounds (f : CGUIFont) (text : List Nat) (hL : f.Loaded)
    (hpos : ∀ c, 0 ≤ f.advance c) (h0 : 0 ∉ text)
    (hw : ∀ line ∈ textLines text, lineWidth f line < 4294967296)
    (hh : ((lineBreaks text : Int) + 1) * f.MaxHeight < 4294967296) :
    ∃ dim, f.getDimension text = some dim ∧
      (∀ line ∈ textLines text, lineWidth f line ≤ dim.Width) ∧
      (dim.Height : Int) = ((textLines text).length : Int) * f.MaxHeight := by
  obtain ⟨first, more, hls⟩ : ∃ a b, textLines text = a :: b := by
    cases h : textLines text with
    | nil => exact absurd h (textLines_ne_nil text)
    | cons a b => exact ⟨a, b, rfl⟩
  have hbreaks : ((lineBreaks text : Int) + 1) = (more.length : Int) + 1 := by
    simp [lineBreaks, hls]
  rw [hls] at hw
  obtain ⟨r, hr, hwid, hht⟩ := measuresLines f hL hpos text.length text rfl h0 ⟨0, 0⟩ 0
    first more hls (by simpa using hw first (List.mem_cons_self _ _))
    (fun l hl => hw l (List.mem_cons_of_mem _ hl))
    (by rw [← hbreaks]; simpa using hh)
  have hfirst := lineWidth_nonneg f hpos first
  have hbase : max ((0 : Nat) : Int) (((0 : Nat) : Int) + lineWidth f first) = lineWidth f first := by
    simp [hfirst]
  rw [show (⟨0, 0⟩ : dimension2d).Width = 0 from rfl, hbase] at hwid
  obtain ⟨g1, g2, _⟩ := foldl_max_spec (more.map (lineWidth f)) (lineWidth f first)
  rw [← hwid] at g1 g2
  refine ⟨r, hr, ?_, ?_⟩
  · rw [hls]
    intro line hline
    rcases List.mem_cons.mp hline with e | e
    · rw [e]; exact g1
    · exact g2 _ (List.mem_map_of_mem _ e)
  · rw [hht, hls]
    simp

theorem draw_batch (f : CGUIFont) (hL : f.Loaded) (text : List Nat) (position : rect)
    (hcenter vcenter : Bool) (clip : Option rect) (dim : dimension2d)
    (hdim : f.getDimension text = some dim) (entries : List (Nat × position2d))
    (h : f.draw text position hcenter vcenter clip = some (.batch entries)) :
    entries = expectedEntries f
      (position.UpperLeftCorner.X +
        (if hcenter then (position.getWidth - toS32 dim.Width) / 2 else 0))
      (position.UpperLeftCorner.Y +
        (if vcenter then (position.getHeight - toS32 dim.Height) / 2 else 0))
      text := by
  obtain ⟨bank, hbank⟩ := Option.isSome_iff_exists.mp hL.1
  have key_f : ∀ (shift y : Int),
      drawLoop f position false shift text ⟨position.UpperLeftCorner.X, y⟩ =
        some (expectedEntries f position.UpperLeftCorner.X y text) :=
    fun shift y => drawLoop_expected f hL position false shift text y
  have key_t : ∀ (shift y : Int),
      drawLoop f position true shift text ⟨position.UpperLeftCorner.X + shift, y⟩ =
        some (expectedEntries f (position.UpperLeftCorner.X + shift) y text) :=
    fun shift y => drawLoop_expected f hL position true shift text y
  unfold CGUIFont.draw at h
  rw [hbank] at h
  cases hcenter <;> cases vcenter <;> cases clip <;> simp [hdim, key_f, key_t] at h ⊢ <;>
    first
      | exact h.symm
      | (split_ifs at h
         · exact absurd h (by simp)
         · exact (DrawOutcome.batch.inj (Option.some.inj h)).symm)

/-- Claim C17: on a loaded font whose glyph widths, overhangs and underhangs and
whose `GlobalKerningWidth` are non-negative, for a text without an embedded
terminator and without 32-bit overflow of the measure, `getDimension text`
returns a measure, `draw` is defined, and every entry `(spriteno, (x, y))` that
`draw` hands the sprite batch is the glyph of a visible character `c` of the
text with `x0 ≤ x`, `x + width ≤ x0 + measuredWidth`, `y0 ≤ y` and
`y + MaxHeight ≤ y0 + measuredHeight`, `width` being the width of the glyph of
`c` and `(x0, y0)` the (possibly centred) start offset. -/
theorem draw_inside_bounds (f : CGUIFont) (text : List Nat) (position : rect)
    (hcenter vcenter : Bool) (clip : Option rect) (hL : f.Loaded)
    (hnn : ∀ a ∈ f.Areas, 0 ≤ a.width ∧ 0 ≤ a.overhang ∧ 0 ≤ a.underhang)
    (hk : 0 ≤ f.GlobalKerningWidth)
    (h0 : 0 ∉ text)
    (hw : ∀ ln ∈ textLines text, lineWidth f ln < 4294967296)
    (hh : ((lineBreaks text : Int) + 1) * f.MaxHeight < 4294967296) :
    ∃ dim, f.getDimension text = some dim ∧
      (∃ o, f.draw text position hcenter vcenter clip = some o) ∧
      ∀ entries, f.draw text position hcenter vcenter clip = some (.batch entries) →
        ∀ e ∈ entries, ∃ c ∈ text, c ∉ f.Invisible ∧ e.1 = (f.glyph c).spriteno ∧
          position.UpperLeftCorner.X +
              (if hcenter then (position.getWidth - toS32 dim.Width) / 2 else 0) ≤ e.2.X ∧
          e.2.X + (f.glyph c).width ≤
            position.UpperLeftCorner.X +
              (if hcenter then (position.getWidth - toS32 dim.Width) / 2 else 0) + dim.Width ∧
          position.UpperLeftCorner.Y +
              (if vcenter then (position.getHeight - toS32 dim.Height) / 2 else 0) ≤ e.2.Y ∧
          e.2.Y + f.MaxHeight ≤
            position.UpperLeftCorner.Y +
              (if vcenter then (position.getHeight - toS32 dim.Height) / 2 else 0) + dim.Height := by
  have hpos : ∀ c, 0 ≤ f.advance c := advance_nonneg f hL (fun a ha => by
    obtain ⟨h1, h2, h3⟩ := hnn a ha
    omega)
  obtain ⟨dim, hdim, hwid, hht⟩ := getDimension_bounds f text hL hpos h0 hw hh
  refine ⟨dim, hdim, draw_defined f (fun c => (areaOf_of_loaded f hL c).imp fun a h => h.1)
    text position hcenter vcenter clip, ?_⟩
  intro entries hdraw e he
  rw [draw_batch f hL text position hcenter vcenter clip dim hdim entries hdraw] at he
  obtain ⟨L, ln, j, c, hLn, hj, hinv, rfl⟩ := mem_expectedEntries f _ _ text e he
  have hlnmem : ln ∈ textLines text := List.getElem?_mem hLn
  have hcmem : c ∈ ln := List.getElem?_mem hj
  have hLlt : L < (textLines text).length := by
    by_contra hge
    rw [List.getElem?_eq_none (by omega)] at hLn
    exact absurd hLn (by simp)
  obtain ⟨a, ha, hamem⟩ := areaOf_of_loaded f hL c
  obtain ⟨a1, a2, a3⟩ := hnn a hamem
  have hg : f.glyph c = a := by simp [CGUIFont.glyph, ha]
  have hadv : f.advance c = a.underhang + a.width + a.overhang + f.GlobalKerningWidth := by
    simp [CGUIFont.advance, ha]
  have h1 := lineWidth_take_succ f ln j c hj
  have h2 : lineWidth f (ln.take (j + 1)) ≤ lineWidth f ln :=
    prefixAdvance_le_lineWidth f hpos ln j
  have h3 := hwid ln hlnmem
  have h4 := lineWidth_nonneg f hpos (ln.take j)
  have hH := hL.2.2.1
  have h5 : ((L : Int) + 1) * f.MaxHeight ≤ ((textLines text).length : Int) * f.MaxHeight :=
    mul_le_mul_of_nonneg_right (by exact_mod_cast hLlt) hH
  have h6 : 0 ≤ (L : Int) * f.MaxHeight := mul_nonneg (by omega) hH
  have h7 : ((L : Int) + 1) * f.MaxHeight = (L : Int) * f.MaxHeight + f.MaxHeight := by ring
  refine ⟨c, mem_textLines _ text rfl ln c hlnmem hcmem, hinv, rfl, ?_, ?_, ?_, ?_⟩ <;>
    simp only [hg] <;> omega

/-- Witness for C17: `"A \r\nBB"` centred both ways in a 100 x 100 rectangle on
the font `abFont`, without a clip rectangle. -/
theorem draw_inside_bounds_witness :
    ∃ dim, abFont.getDimension [65, 32, 13, 10, 66, 66] = some dim ∧
      (∃ o, abFont.draw [65, 32, 13, 10, 66, 66] ⟨⟨100, 100⟩, ⟨200, 200⟩⟩ true true none =
        some o) ∧
      ∀ entries,
        abFont.draw [65, 32, 13, 10, 66, 66] ⟨⟨100, 100⟩, ⟨200, 200⟩⟩ true true none =
          some (.batch entries) →
        ∀ e ∈ entries, ∃ c ∈ [65, 32, 13, 10, 66, 66], c ∉ abFont.Invisible ∧
          e.1 = (abFont.glyph c).spriteno ∧
          (⟨⟨100, 100⟩, ⟨200, 200⟩⟩ : rect).UpperLeftCorner.X +
              (if true = true then
                ((⟨⟨100, 100⟩, ⟨200, 200⟩⟩ : rect).getWidth - toS32 dim.Width) / 2 else 0) ≤
            e.2.X ∧
          e.2.X + (abFont.glyph c).width ≤
            (⟨⟨100, 100⟩, ⟨200, 200⟩⟩ : rect).UpperLeftCorner.X +
              (if true = true then
                ((⟨⟨100, 100⟩, ⟨200, 200⟩⟩ : rect).getWidth - toS32 dim.Width) / 2 else 0) +
              dim.Width ∧
          (⟨⟨100, 100⟩, ⟨200, 200⟩⟩ : rect).UpperLeftCorner.Y +
              (if true = true then
                ((⟨⟨100, 100⟩, ⟨200, 200⟩⟩ : rect).getHeight - toS32 dim.Height) / 2 else 0) ≤
            e.2.Y ∧
          e.2.Y + abFont.MaxHeight ≤
            (⟨⟨100, 100⟩, ⟨200, 200⟩⟩ : rect).UpperLeftCorner.Y +
              (if true = true then
                ((⟨⟨100, 100⟩, ⟨200, 200⟩⟩ : rect).getHeight - toS32 dim.Height) / 2 else 0) +
              dim.Height :=
  draw_inside_bounds abFont [65, 32, 13, 10, 66, 66] ⟨⟨100, 100⟩, ⟨200, 200⟩⟩ true true none
    abFont_loaded (by decide) (by decide) (by decide) (by decide) (by decide)

end gui
